import Mathlib

/-!
Vault: a sparse, lazily allocated in-memory character device
============================================================

Shallow embedding of `src/vault.c` and a verification of its read / write /
trim / open / seek / control contract.

Machine model
-------------

The driver is kernel C.  Integers are modelled as `Int` / `Nat` with explicit
two's complement wrap-around (the kernel is built with `-fno-strict-overflow`),
for an LP64 target:

* `int` (`quantum`, `qset`, `s_pos`, `q_pos`): 32 bit signed, `wrap_s32`;
* `long`, `loff_t`, `ssize_t`: 64 bit signed, `wrap_s64`;
* `size_t`, `unsigned long` (`count`, `size`): 64 bit unsigned, `wrap_u64`.

Memory is modelled by lists: `char **data` is `none` (NULL) or a list of slots,
each slot `none` (NULL) or the bytes of one `kmalloc`ed segment.  An access
outside a list (out-of-bounds index, division trap) has no result: the
operations return `none` there.  `vault_dev.wf` states that a value of the
model is a device of the program (fields in the range of their C types, storage
of the extent it was allocated with), `vault_dev.inv` is the invariant the
driver maintains on top of that.

Environment
-----------

Kernel services are parameters: `kenv` fixes, for one call, whether
`down_interruptible` is interrupted and what the two `kmalloc` calls return;
user memory is given by the bytes readable (`buf`) or the room writable
(`ucap`) at the user address.  The file operations are entered through the VFS,
which passes a file position that is non-negative and a count that is
non-negative as `ssize_t`; theorems that depend on it say so in a hypothesis.

Control commands
----------------

`vault_ioctl` acts on the module parameters `vault_quantum` and `vault_qset`
(`vault_globals`) only.  Its command codes come from `vault_ioctl.h`, which is
not among the sources: the header is the parameter `vault_ioctl_h`, and
`ioctl_env` fixes, for one call, the verdicts of `access_ok` and `capable` and
what can be read and written at the user address `arg`.  `vault_system` puts
the module parameters and the devices together, with every entry point as a
step on that state.
-/

namespace Vault

/-- One `char`. -/
abbrev Byte := UInt8

/-! ## Machine integers -/

/-- Conversion to `int`: the value modulo 2^32 in `[-2^31, 2^31)`. -/
def wrap_s32 (x : Int) : Int := (x + 2147483648) % 4294967296 - 2147483648

/-- Conversion to `long` / `loff_t` / `ssize_t`: the value modulo 2^64 in `[-2^63, 2^63)`. -/
def wrap_s64 (x : Int) : Int :=
  (x + 9223372036854775808) % 18446744073709551616 - 9223372036854775808

/-- Conversion to `size_t` / `unsigned long`: the value modulo 2^64. -/
def wrap_u64 (x : Int) : Nat := (x % 18446744073709551616).toNat

/-- C division of `long` operands, truncating toward zero; a zero divisor and
`LONG_MIN / -1` trap. -/
def c_div (a b : Int) : Option Int :=
  if b = 0 ∨ (a = -9223372036854775808 ∧ b = -1) then none else some (Int.tdiv a b)

/-- C remainder of `long` operands (sign of the dividend); traps as `c_div` does. -/
def c_mod (a b : Int) : Option Int :=
  if b = 0 ∨ (a = -9223372036854775808 ∧ b = -1) then none else some (Int.tmod a b)

/-! ## Constants -/

def EPERM : Int := 1
def ENOMEM : Int := 12
def EFAULT : Int := 14
def EINVAL : Int := 22
def ENOTTY : Int := 25
def ERESTARTSYS : Int := 512

def O_ACCMODE : Nat := 3
def O_WRONLY : Nat := 1

def VAULT_QUANTUM : Int := 4000
def VAULT_QSET : Int := 1000

/-- Largest request `kmalloc` can satisfy (`1 << 22`: 4 KiB pages, `MAX_ORDER` 11);
larger requests return NULL whatever the state of memory. -/
def KMALLOC_MAX_SIZE : Nat := 4194304

/-! ## State -/

/-- The module parameters `vault_quantum` and `vault_qset` (ConfigParams). -/
structure vault_globals where
  vault_quantum : Int
  vault_qset : Int
deriving DecidableEq

/-- Compiled-in defaults of the module parameters. -/
def vault_globals_default : vault_globals := ⟨VAULT_QUANTUM, VAULT_QSET⟩

/-- Model of `struct vault_dev`; `sem` is the count of the semaphore, `cdev` is
registration bookkeeping and is left out. -/
structure vault_dev where
  data : Option (List (Option (List Byte)))
  quantum : Int
  qset : Int
  size : Nat
  sem : Int
deriving DecidableEq

/-- Outcome of the kernel services used during one call. -/
structure kenv where
  /-- Whether `down_interruptible` returns nonzero (a signal arrived while waiting). -/
  intr : Bool
  /-- Whether memory is available for the segment-pointer array. -/
  alloc_data : Bool
  /-- Whether memory is available for a segment, and the (arbitrary) bytes the
  fresh, uninitialised buffer then holds. -/
  alloc_seg : Option (Nat → Byte)

/-- What a file operation leaves behind: its return value, the device, the file
position, and the bytes stored into the user buffer by `copy_to_user`. -/
structure call_result where
  retval : Int
  dev : vault_dev
  f_pos : Int
  ubuf : List Byte
deriving DecidableEq

/-! ## Kernel services -/

/-- Acquire the semaphore: `down_interruptible` when it is not interrupted. -/
def down (dev : vault_dev) : vault_dev := { dev with sem := dev.sem - 1 }

/-- Release the semaphore: `up`. -/
def up (dev : vault_dev) : vault_dev := { dev with sem := dev.sem + 1 }

/-- Result of `kmalloc(size, GFP_KERNEL)`: NULL, or a buffer of `size` bytes with
arbitrary contents. -/
def kmalloc (grant : Option (Nat → Byte)) (size : Nat) : Option (List Byte) :=
  if size ≤ KMALLOC_MAX_SIZE then grant.map (fun g => (List.range size).map g) else none

/-- Result of `kmalloc(size)` followed by `memset(.., 0, size)` for the array of
segment pointers (`sizeof(char *)` is 8): NULL, or `size / 8` NULL slots. -/
def kmalloc_slots (grant : Bool) (size : Nat) : Option (List (Option (List Byte))) :=
  if size ≤ KMALLOC_MAX_SIZE ∧ grant = true then some (List.replicate (size / 8) none) else none

/-- Model of `copy_from_user(to, buf, count)`: the bytes stored at the destination
(the readable user bytes, zero-filled up to `count`) and the number of bytes that
could not be copied. -/
def copy_from_user (buf : List Byte) (count : Nat) : List Byte × Nat :=
  (buf.take count ++ List.replicate (count - buf.length) 0, count - buf.length)

/-- Model of `copy_to_user(buf, from, count)` for `src`, the `count` source bytes:
the bytes stored in the user buffer and the number of bytes that could not be
copied. -/
def copy_to_user (ucap : Nat) (src : List Byte) : List Byte × Nat :=
  (src.take ucap, src.length - ucap)

/-! ## File operations -/

/-- Model of `vault_trim`.  The loop reads `dev->data[i]` for every `i < dev->qset`
and frees the segments it finds, then the pointer array is freed (storage that is
released is no longer part of the state); the loop has no result when an index
lies outside the array.  Then the device is reset from the current module
parameters. -/
def vault_trim (g : vault_globals) (dev : vault_dev) : Option (Int × vault_dev) :=
  let reset : vault_dev :=
    { dev with data := none, quantum := g.vault_quantum, qset := g.vault_qset, size := 0 }
  match dev.data with
  | some arr => if (arr.length : Int) < dev.qset then none else some (0, reset)
  | none => some (0, reset)

/-- Model of `vault_open`; `f_flags` are the flags of the file being opened. -/
def vault_open (g : vault_globals) (env : kenv) (f_flags : Nat) (dev : vault_dev) :
    Option (Int × vault_dev) :=
  if f_flags &&& O_ACCMODE = O_WRONLY then
    if env.intr then some (-ERESTARTSYS, dev)
    else (vault_trim g (down dev)).map fun t => (0, up t.2)
  else some (0, dev)

/-- Model of `vault_release`. -/
def vault_release (dev : vault_dev) : Int × vault_dev := (0, dev)

/-- The clamp "only up to the end of this quantum" of `vault_read` and
`vault_write`: `if (count > quantum - q_pos) count = quantum - q_pos;`, the `int`
difference being converted to `size_t` for the comparison. -/
def clamp_quantum (count : Nat) (quantum q_pos : Int) : Nat :=
  let room := wrap_u64 (wrap_s32 (quantum - q_pos))
  if room < count then room else count

/-- The clamp to the end of the data in `vault_read`:
`if (*f_pos + count > dev->size) count = dev->size - *f_pos;` in `unsigned long`. -/
def clamp_size (count : Nat) (size : Nat) (f_pos : Int) : Nat :=
  if size < (wrap_u64 f_pos + count) % 18446744073709551616
  then (size + 18446744073709551616 - wrap_u64 f_pos) % 18446744073709551616 else count

/-- The size update of `vault_write`: `if (dev->size < *f_pos) dev->size = *f_pos;`
in `unsigned long`. -/
def update_size (size : Nat) (f_pos : Int) : Nat :=
  if size < wrap_u64 f_pos then wrap_u64 f_pos else size

/-- The critical section of `vault_read`, between `down_interruptible` and the
label `out`.  `ucap` is the number of writable bytes at the user address `buf`,
`count` the requested length, `f_pos` the value of `*f_pos`. -/
def vault_read_locked (dev : vault_dev) (ucap : Nat) (count : Nat) (f_pos : Int) :
    Option call_result :=
  let quantum := dev.quantum
  if dev.size ≤ wrap_u64 f_pos then some ⟨0, dev, f_pos, []⟩ else
  let count := clamp_size count dev.size f_pos
  match c_div f_pos quantum, c_mod f_pos quantum with
  | some s, some q =>
    let s_pos := wrap_s32 s
    let q_pos := wrap_s32 q
    match dev.data with
    | none => some ⟨0, dev, f_pos, []⟩
    | some arr =>
      if s_pos < 0 then none else
      match arr[s_pos.toNat]? with
      | none => none
      | some none => some ⟨0, dev, f_pos, []⟩
      | some (some seg) =>
        let count := clamp_quantum count quantum q_pos
        if q_pos < 0 ∨ seg.length < q_pos.toNat + count then none else
        let copy := copy_to_user ucap ((seg.drop q_pos.toNat).take count)
        if copy.2 ≠ 0 then some ⟨-EFAULT, dev, f_pos, copy.1⟩ else
        some ⟨wrap_s64 count, dev, wrap_s64 (f_pos + count), copy.1⟩
  | _, _ => none

/-- Model of `vault_read`: the critical section under the semaphore; every path
through `out` releases it. -/
def vault_read (env : kenv) (dev : vault_dev) (ucap : Nat) (count : Nat) (f_pos : Int) :
    Option call_result :=
  if env.intr then some ⟨-ERESTARTSYS, dev, f_pos, []⟩
  else (vault_read_locked (down dev) ucap count f_pos).map
    fun r => ⟨r.retval, up r.dev, r.f_pos, r.ubuf⟩

/-- The critical section of `vault_write`, between `down_interruptible` and the
label `out`.  `buf` holds the bytes readable at the user address (`copy_from_user`
faults when `count` exceeds them), `count` is the requested length, `f_pos` the
value of `*f_pos`. -/
def vault_write_locked (env : kenv) (dev : vault_dev) (buf : List Byte) (count : Nat)
    (f_pos : Int) : Option call_result :=
  let quantum := dev.quantum
  let qset := dev.qset
  if wrap_s32 (quantum * qset) ≤ f_pos then some ⟨0, dev, f_pos, []⟩ else
  match c_div f_pos quantum, c_mod f_pos quantum with
  | some s, some q =>
    let s_pos := wrap_s32 s
    let q_pos := wrap_s32 q
    let data :=
      match dev.data with
      | some arr => some arr
      | none => kmalloc_slots env.alloc_data (wrap_u64 qset * 8 % 18446744073709551616)
    match data with
    | none => some ⟨-ENOMEM, dev, f_pos, []⟩
    | some arr =>
      if s_pos < 0 then none else
      match arr[s_pos.toNat]? with
      | none => none
      | some slot =>
        let slot :=
          match slot with
          | some seg => some seg
          | none => kmalloc env.alloc_seg (wrap_u64 quantum)
        match slot with
        | none => some ⟨-ENOMEM, { dev with data := some arr }, f_pos, []⟩
        | some seg =>
          let count := clamp_quantum count quantum q_pos
          if q_pos < 0 ∨ seg.length < q_pos.toNat + count then none else
          let copy := copy_from_user buf count
          let seg := seg.take q_pos.toNat ++ copy.1 ++ seg.drop (q_pos.toNat + count)
          let data := some (arr.set s_pos.toNat (some seg))
          if copy.2 ≠ 0 then some ⟨-EFAULT, { dev with data := data }, f_pos, []⟩ else
          let f_pos := wrap_s64 (f_pos + count)
          some ⟨wrap_s64 count, { dev with data := data, size := update_size dev.size f_pos },
            f_pos, []⟩
  | _, _ => none

/-- Model of `vault_write`: the critical section under the semaphore; every path
through `out` releases it. -/
def vault_write (env : kenv) (dev : vault_dev) (buf : List Byte) (count : Nat) (f_pos : Int) :
    Option call_result :=
  if env.intr then some ⟨-ERESTARTSYS, dev, f_pos, []⟩
  else (vault_write_locked env (down dev) buf count f_pos).map
    fun r => ⟨r.retval, up r.dev, r.f_pos, r.ubuf⟩

/-- Model of `vault_llseek`; `f_pos` is `filp->f_pos`.  The device is only read. -/
def vault_llseek (dev : vault_dev) (f_pos : Int) (off : Int) (whence : Int) : call_result :=
  let newpos : Option Int :=
    if whence = 0 then some off
    else if whence = 1 then some (wrap_s64 (f_pos + off))
    else if whence = 2 then some (wrap_s64 ((dev.size : Int) + off))
    else none
  match newpos with
  | none => ⟨-EINVAL, dev, f_pos, []⟩
  | some newpos => if newpos < 0 then ⟨-EINVAL, dev, f_pos, []⟩ else ⟨newpos, dev, newpos, []⟩

/-- The position `vault_llseek` is asked for, as an exact integer: `off`,
`f_pos + off` or `size + off` for `whence` 0 (SEEK_SET), 1 (SEEK_CUR), 2
(SEEK_END). -/
def llseek_target (dev : vault_dev) (f_pos : Int) (off : Int) (whence : Int) : Int :=
  if whence = 0 then off
  else if whence = 1 then f_pos + off
  else (dev.size : Int) + off

/-- State of one device after the initialisation loop of `vault_init_module`. -/
def vault_init_dev (g : vault_globals) : vault_dev :=
  { data := none, quantum := g.vault_quantum, qset := g.vault_qset, size := 0, sem := 1 }

/-! ## Callers that loop over short reads and writes -/

/-- Write all of `buf` starting at `f_pos` by repeating `vault_write` on what is
left; `envs` gives the kernel services of each call.  The result is the device
and position once every byte is consumed, and `none` when a call fails, writes
nothing, or the calls allowed by `fuel` are used up. -/
def write_all (envs : Nat → kenv) : Nat → vault_dev → List Byte → Int → Option (vault_dev × Int)
  | _, dev, [], f_pos => some (dev, f_pos)
  | 0, _, _ :: _, _ => none
  | fuel + 1, dev, b :: bs, f_pos =>
    match vault_write (envs fuel) dev (b :: bs) (bs.length + 1) f_pos with
    | none => none
    | some r =>
      if 0 < r.retval then write_all envs fuel r.dev ((b :: bs).drop r.retval.toNat) r.f_pos
      else none

/-- Read `n` bytes starting at `f_pos` by repeating `vault_read` for what is
left, into a user buffer with room for it; the result is the bytes returned, and
`none` when a call fails, returns nothing, or the calls allowed by `fuel` are
used up. -/
def read_all (envs : Nat → kenv) : Nat → vault_dev → Int → Nat → Option (List Byte)
  | _, _, _, 0 => some []
  | 0, _, _, _ + 1 => none
  | fuel + 1, dev, f_pos, n + 1 =>
    match vault_read (envs fuel) dev (n + 1) (n + 1) f_pos with
    | none => none
    | some r =>
      if 0 < r.retval then
        (read_all envs fuel r.dev r.f_pos (n + 1 - r.retval.toNat)).map fun rest => r.ubuf ++ rest
      else none

/-! ## Representation invariant and observations -/

/-- A slot of the pointer array is NULL or a segment of exactly `quantum` bytes. -/
def slot_wf (quantum : Int) : Option (List Byte) → Prop
  | none => True
  | some seg => (seg.length : Int) = quantum

/-- The pointer array is NULL or has exactly `qset` well-formed slots. -/
def data_wf (quantum qset : Int) : Option (List (Option (List Byte))) → Prop
  | none => True
  | some arr => (arr.length : Int) = qset ∧ ∀ slot ∈ arr, slot_wf quantum slot

instance slot_wf_decidable (quantum : Int) (slot : Option (List Byte)) :
    Decidable (slot_wf quantum slot) := by
  cases slot <;> unfold slot_wf <;> infer_instance

instance data_wf_decidable (quantum qset : Int) (data : Option (List (Option (List Byte)))) :
    Decidable (data_wf quantum qset data) := by
  cases data <;> unfold data_wf <;> infer_instance

/-- A value of the model is a `struct vault_dev` of the program: the integer
fields are in the range of their C types, and the allocated storage has the
extent it was allocated with. -/
def vault_dev.wf (d : vault_dev) : Prop :=
  -2147483648 ≤ d.quantum ∧ d.quantum < 2147483648 ∧
  -2147483648 ≤ d.qset ∧ d.qset < 2147483648 ∧
  d.size < 18446744073709551616 ∧
  data_wf d.quantum d.qset d.data

instance vault_dev_wf_decidable (d : vault_dev) : Decidable d.wf := by
  unfold vault_dev.wf; infer_instance

/-- The slot for logical position `p`: the entry `p / quantum` of the pointer
array, when there is an array and the index is inside it. -/
def vault_dev.slot_at (d : vault_dev) (p : Nat) : Option (Option (List Byte)) :=
  match d.data with
  | none => none
  | some arr => arr[p / d.quantum.toNat]?

/-- The byte stored for logical position `p`, when its segment is present. -/
def vault_dev.byte_at (d : vault_dev) (p : Nat) : Option Byte :=
  match d.slot_at p with
  | some (some seg) => seg[p % d.quantum.toNat]?
  | _ => none

/-- The driver's invariant: a well-formed device whose data, when there is any,
lies within the capacity of a device with a positive segment size.  It holds
after initialisation and is kept by every file operation (`vault_init_dev_inv`,
`vault_write_inv`, `vault_read_dev`, `vault_trim_inv`, `vault_open_inv`; seeking
does not touch the device). -/
def vault_dev.inv (d : vault_dev) : Prop :=
  d.wf ∧ (0 < d.size → 0 < d.quantum ∧ (d.size : Int) ≤ d.quantum * d.qset)

instance vault_dev_inv_decidable (d : vault_dev) : Decidable d.inv := by
  unfold vault_dev.inv; infer_instance

/-- Every service a call of `vault_write` on `dev` may need is granted: the
semaphore is acquired and both allocations succeed. -/
def kenv.grants (env : kenv) (dev : vault_dev) : Prop :=
  env.intr = false ∧
  kmalloc_slots env.alloc_data (wrap_u64 dev.qset * 8 % 18446744073709551616) ≠ none ∧
  kmalloc env.alloc_seg (wrap_u64 dev.quantum) ≠ none

instance kenv_grants_decidable (env : kenv) (dev : vault_dev) : Decidable (env.grants dev) := by
  unfold kenv.grants; infer_instance

/-! ## Auxiliary descriptions of one write -/

/-- The array `vault_write` works on: the existing one, or a freshly allocated one. -/
def write_slots (env : kenv) (data : Option (List (Option (List Byte)))) (qset : Int) :
    Option (List (Option (List Byte))) :=
  match data with
  | some arr => some arr
  | none => kmalloc_slots env.alloc_data (wrap_u64 qset * 8 % 18446744073709551616)

/-- The segment `vault_write` works on: the existing one, or a freshly allocated one. -/
def write_seg (env : kenv) (slot : Option (List Byte)) (quantum : Int) : Option (List Byte) :=
  match slot with
  | some seg => some seg
  | none => kmalloc env.alloc_seg (wrap_u64 quantum)

/-- Bytes of a segment after `count` bytes of `buf` are copied in at `q`. -/
def seg_store (seg : List Byte) (q : Nat) (buf : List Byte) (count : Nat) : List Byte :=
  seg.take q ++ (copy_from_user buf count).1 ++ seg.drop (q + count)

/-! ## Concrete devices and services used in examples -/

/-- Kernel services of a call that is not interrupted and is granted memory;
fresh segments hold the byte `0xAA`. -/
def env_granted : kenv := ⟨false, true, some (fun _ => 170)⟩

/-- An empty device with 3 segments of 4 bytes. -/
def dev_small : vault_dev := ⟨none, 4, 3, 0, 1⟩

/-- The device `dev_small` after the bytes 1 to 6 are written at offset 2. -/
def dev_small_written : vault_dev :=
  ⟨some [some [170, 170, 1, 2], some [3, 4, 5, 6], none], 4, 3, 8, 1⟩

/-- The device `dev_small` after the byte 7 is written at offset 0. -/
def dev_one_byte : vault_dev := ⟨some [some [7, 170, 170, 170], none, none], 4, 3, 1, 1⟩

/-- The empty device left by a write-only open under `globals_overflow`. -/
def dev_overflow : vault_dev := ⟨none, 65536, 65536, 0, 1⟩

/-- Module parameters with a negative segment size, whose product −4294967294
does not fit an `int`. -/
def globals_negative : vault_globals := ⟨-2147483647, 2⟩

/-- The empty device left by a write-only open under `globals_negative`. -/
def dev_negative : vault_dev := ⟨none, -2147483647, 2, 0, 1⟩

/-! ## Control commands

`vault_ioctl` decodes the command word with the kernel's `_IOC_*` accessors
(`asm-generic/ioctl.h`: 8 bits of number, 8 bits of type, 14 bits of size, 2 bits of
direction) and compares it with the codes of `vault_ioctl.h`.  That header is not part
of the sources at hand, so its constants are the fields of `vault_ioctl_h`, a parameter
of the model.  Kernel names that begin with an underscore are written without it
(`IOC_NR` for `_IOC_NR`), and `__get_user`, `__put_user` are `get_user_nocheck`,
`put_user_nocheck`. -/

/-- Number field of a command word. -/
def IOC_NR (cmd : Nat) : Nat := cmd % 256

/-- Type ("magic") field of a command word. -/
def IOC_TYPE (cmd : Nat) : Nat := cmd / 256 % 256

/-- Size field of a command word. -/
def IOC_SIZE (cmd : Nat) : Nat := cmd / 65536 % 16384

/-- Direction field of a command word. -/
def IOC_DIR (cmd : Nat) : Nat := cmd / 1073741824 % 4

def IOC_NONE : Nat := 0
def IOC_WRITE : Nat := 1
def IOC_READ : Nat := 2

/-- Command word built from its four fields (the kernel macro of the same name). -/
def IOC (dir type nr size : Nat) : Nat :=
  dir * 1073741824 + size * 65536 + type * 256 + nr

/-- Constants of `vault_ioctl.h`: the magic number, the highest command number and the
thirteen command codes named in `vault_ioctl`. -/
structure vault_ioctl_h where
  VAULT_IOC_MAGIC : Nat
  VAULT_IOC_MAXNR : Nat
  VAULT_IOCRESET : Nat
  VAULT_IOCSQUANTUM : Nat
  VAULT_IOCTQUANTUM : Nat
  VAULT_IOCGQUANTUM : Nat
  VAULT_IOCQQUANTUM : Nat
  VAULT_IOCXQUANTUM : Nat
  VAULT_IOCHQUANTUM : Nat
  VAULT_IOCSQSET : Nat
  VAULT_IOCTQSET : Nat
  VAULT_IOCGQSET : Nat
  VAULT_IOCQQSET : Nat
  VAULT_IOCXQSET : Nat
  VAULT_IOCHQSET : Nat
  deriving DecidableEq

/-- The thirteen case labels of the `switch` in `vault_ioctl`, in source order. -/
def vault_ioctl_h.codes (h : vault_ioctl_h) : List Nat :=
  [h.VAULT_IOCRESET,
   h.VAULT_IOCSQUANTUM, h.VAULT_IOCTQUANTUM, h.VAULT_IOCGQUANTUM,
   h.VAULT_IOCQQUANTUM, h.VAULT_IOCXQUANTUM, h.VAULT_IOCHQUANTUM,
   h.VAULT_IOCSQSET, h.VAULT_IOCTQSET, h.VAULT_IOCGQSET,
   h.VAULT_IOCQQSET, h.VAULT_IOCXQSET, h.VAULT_IOCHQSET]

/-- What any header the driver compiles and works with satisfies: the case labels are
pairwise distinct (C rejects a `switch` with duplicate labels), and every code carries
the magic number and a command number within `VAULT_IOC_MAXNR`, so that it passes the
two checks at the top of `vault_ioctl`. -/
def vault_ioctl_h.wf (h : vault_ioctl_h) : Prop :=
  h.codes.Nodup ∧
  ∀ c ∈ h.codes, IOC_TYPE c = h.VAULT_IOC_MAGIC ∧ IOC_NR c ≤ h.VAULT_IOC_MAXNR

instance vault_ioctl_h_wf_decidable (h : vault_ioctl_h) : Decidable h.wf := by
  unfold vault_ioctl_h.wf; exact inferInstance

/-- What one control call meets outside the driver: the verdict of `access_ok` on the
argument, the verdict of `capable (CAP_SYS_ADMIN)`, the `int` stored at the user
address `arg` (`none` when reading there faults), and whether an `int` can be stored
there. -/
structure ioctl_env where
  access_ok : Bool
  capable : Bool
  uread : Option Int
  uwrite : Bool
  deriving DecidableEq

/-- Outcome of one control call: the return value, the module parameters afterwards,
and the `int` stored through `arg`, if one was. -/
structure ioctl_result where
  retval : Int
  globals : vault_globals
  uarg : Option Int
  deriving DecidableEq

/-- `__get_user (x, ptr)` for an `int`: status and the new value of `x`; on a fault the
kernel sets `x` to zero. -/
def get_user_nocheck (uread : Option Int) : Int × Int :=
  match uread with
  | some v => (0, wrap_s32 v)
  | none => (-EFAULT, 0)

/-- `__put_user (x, ptr)` for an `int`: status and the value stored at `ptr`. -/
def put_user_nocheck (uwrite : Bool) (x : Int) : Int × Option Int :=
  if uwrite then (0, some x) else (-EFAULT, none)

/-- `put_user (x, ptr)`: as `__put_user`, after an address check of its own that the
same fault verdict covers. -/
def put_user (uwrite : Bool) (x : Int) : Int × Option Int := put_user_nocheck uwrite x

/-- The `err` flag of `vault_ioctl`: set when the command word has a direction bit and
`access_ok` rejects the argument. -/
def access_err (env : ioctl_env) (cmd : Nat) : Bool :=
  if IOC_DIR cmd &&& IOC_READ ≠ 0 then !env.access_ok
  else if IOC_DIR cmd &&& IOC_WRITE ≠ 0 then !env.access_ok
  else false

/-- The control entry point `vault_ioctl (filp, cmd, arg)` on the module parameters
`g`.  `cmd` is the 32-bit command word and `arg` the 64-bit argument; the `switch` is
the chain of comparisons in source order. -/
def vault_ioctl (h : vault_ioctl_h) (env : ioctl_env) (g : vault_globals)
    (cmd arg : Nat) : ioctl_result :=
  if IOC_TYPE cmd ≠ h.VAULT_IOC_MAGIC then ⟨-ENOTTY, g, none⟩ else
  if IOC_NR cmd > h.VAULT_IOC_MAXNR then ⟨-ENOTTY, g, none⟩ else
  if access_err env cmd then ⟨-EFAULT, g, none⟩ else
  if cmd = h.VAULT_IOCRESET then
    ⟨0, { g with vault_quantum := VAULT_QUANTUM, vault_qset := VAULT_QSET }, none⟩
  else if cmd = h.VAULT_IOCSQUANTUM then
    if ! env.capable then ⟨-EPERM, g, none⟩ else
    let got := get_user_nocheck env.uread
    ⟨got.1, { g with vault_quantum := got.2 }, none⟩
  else if cmd = h.VAULT_IOCTQUANTUM then
    if ! env.capable then ⟨-EPERM, g, none⟩ else
    ⟨0, { g with vault_quantum := wrap_s32 arg }, none⟩
  else if cmd = h.VAULT_IOCGQUANTUM then
    let put := put_user_nocheck env.uwrite g.vault_quantum
    ⟨put.1, g, put.2⟩
  else if cmd = h.VAULT_IOCQQUANTUM then
    ⟨g.vault_quantum, g, none⟩
  else if cmd = h.VAULT_IOCXQUANTUM then
    if ! env.capable then ⟨-EPERM, g, none⟩ else
    let tmp := g.vault_quantum
    let got := get_user_nocheck env.uread
    let g := { g with vault_quantum := got.2 }
    if got.1 = 0 then
      let put := put_user_nocheck env.uwrite tmp
      ⟨put.1, g, put.2⟩
    else ⟨got.1, g, none⟩
  else if cmd = h.VAULT_IOCHQUANTUM then
    if ! env.capable then ⟨-EPERM, g, none⟩ else
    let tmp := g.vault_quantum
    ⟨tmp, { g with vault_quantum := wrap_s32 arg }, none⟩
  else if cmd = h.VAULT_IOCSQSET then
    if ! env.capable then ⟨-EPERM, g, none⟩ else
    let got := get_user_nocheck env.uread
    ⟨got.1, { g with vault_qset := got.2 }, none⟩
  else if cmd = h.VAULT_IOCTQSET then
    if ! env.capable then ⟨-EPERM, g, none⟩ else
    ⟨0, { g with vault_qset := wrap_s32 arg }, none⟩
  else if cmd = h.VAULT_IOCGQSET then
    let put := put_user_nocheck env.uwrite g.vault_qset
    ⟨put.1, g, put.2⟩
  else if cmd = h.VAULT_IOCQQSET then
    ⟨g.vault_qset, g, none⟩
  else if cmd = h.VAULT_IOCXQSET then
    if ! env.capable then ⟨-EPERM, g, none⟩ else
    let tmp := g.vault_qset
    let got := get_user_nocheck env.uread
    let g := { g with vault_qset := got.2 }
    if got.1 = 0 then
      let put := put_user env.uwrite tmp
      ⟨put.1, g, put.2⟩
    else ⟨got.1, g, none⟩
  else if cmd = h.VAULT_IOCHQSET then
    if ! env.capable then ⟨-EPERM, g, none⟩ else
    let tmp := g.vault_qset
    ⟨tmp, { g with vault_qset := wrap_s32 arg }, none⟩
  else ⟨-ENOTTY, g, none⟩

/-! ## The module as a whole

The module parameters and the array `vault_devices`, and the entry points as steps on
that state. -/

/-- Module state: the parameters `vault_quantum`, `vault_qset` and the devices. -/
structure vault_system where
  globals : vault_globals
  devices : List vault_dev
  deriving DecidableEq

/-- State after `vault_init_module` with `vault_nr_devs = n`: every device is
initialised from the module parameters. -/
def vault_init_module (g : vault_globals) (n : Nat) : vault_system :=
  ⟨g, List.replicate n (vault_init_dev g)⟩

/-- One call into the driver.  `i` is the index of the device the file refers to. -/
inductive vault_call where
  | open (i : Nat) (env : kenv) (f_flags : Nat)
  | read (i : Nat) (env : kenv) (ucap count : Nat) (f_pos : Int)
  | write (i : Nat) (env : kenv) (buf : List Byte) (count : Nat) (f_pos : Int)
  | trim (i : Nat)
  | llseek (i : Nat) (f_pos off whence : Int)
  | ioctl (env : ioctl_env) (cmd arg : Nat)

/-- Effect of one call on the module state; `none` when the device does not exist or
the call faults. -/
def vault_system.step (h : vault_ioctl_h) (s : vault_system) :
    vault_call → Option vault_system
  | .open i env f_flags =>
    (s.devices[i]?).bind fun dev =>
      (vault_open s.globals env f_flags dev).map fun t =>
        { s with devices := s.devices.set i t.2 }
  | .read i env ucap count f_pos =>
    (s.devices[i]?).bind fun dev =>
      (vault_read env dev ucap count f_pos).map fun r =>
        { s with devices := s.devices.set i r.dev }
  | .write i env buf count f_pos =>
    (s.devices[i]?).bind fun dev =>
      (vault_write env dev buf count f_pos).map fun r =>
        { s with devices := s.devices.set i r.dev }
  | .trim i =>
    (s.devices[i]?).bind fun dev =>
      (vault_trim s.globals dev).map fun t =>
        { s with devices := s.devices.set i t.2 }
  | .llseek i f_pos off whence =>
    (s.devices[i]?).map fun dev =>
      { s with devices := s.devices.set i (vault_llseek dev f_pos off whence).dev }
  | .ioctl env cmd arg =>
    some { s with globals := (vault_ioctl h env s.globals cmd arg).globals }

/-- Effect of a sequence of calls, one after the other. -/
def vault_system.run (h : vault_ioctl_h) (s : vault_system) :
    List vault_call → Option vault_system
  | [] => some s
  | c :: cs => (s.step h c).bind fun s => s.run h cs

/-- File positions are what the kernel hands to `read` and `write`: never negative. -/
def vault_call.valid : vault_call → Prop
  | .read _ _ _ _ f_pos => 0 ≤ f_pos
  | .write _ _ _ _ f_pos => 0 ≤ f_pos
  | _ => True

instance vault_call_valid_decidable : (c : vault_call) → Decidable c.valid
  | .open _ _ _ => isTrue trivial
  | .read _ _ _ _ f_pos => inferInstanceAs (Decidable (0 ≤ f_pos))
  | .write _ _ _ _ f_pos => inferInstanceAs (Decidable (0 ≤ f_pos))
  | .trim _ => isTrue trivial
  | .llseek _ _ _ _ => isTrue trivial
  | .ioctl _ _ _ => isTrue trivial

/-- Both module parameters are values of an `int`. -/
def vault_globals.wf (g : vault_globals) : Prop :=
  -2147483648 ≤ g.vault_quantum ∧ g.vault_quantum < 2147483648 ∧
  -2147483648 ≤ g.vault_qset ∧ g.vault_qset < 2147483648

instance vault_globals_wf_decidable (g : vault_globals) : Decidable g.wf := by
  unfold vault_globals.wf; exact inferInstance

/-- Invariant of the module state: the parameters are values of an `int` and every
device satisfies the driver invariant. -/
def vault_system.inv (s : vault_system) : Prop :=
  s.globals.wf ∧ ∀ d ∈ s.devices, d.inv

instance vault_system_inv_decidable (s : vault_system) : Decidable s.inv := by
  unfold vault_system.inv; exact inferInstance

/-- Segment held in slot `i` of the device, if there is one. -/
def vault_dev.seg_at (d : vault_dev) (i : Nat) : Option (List Byte) :=
  match d.data with
  | some arr =>
    match arr[i]? with
    | some slot => slot
    | none => none
  | none => none

/-- Whether slot `i` of the device holds a segment. -/
def vault_dev.present (d : vault_dev) (i : Nat) : Bool := (d.seg_at i).isSome

/-- Modelled from the spec: the command codes of `vault_ioctl.h`, which the sources at
hand lack.  The spec's command table gives the thirteen commands and their shapes: Set
takes the new value through a pointer (`_IOW`), Get returns through a pointer
(`_IOR`), eXchange does both (`_IOWR`), and Reset, Tell, Query and sHift carry no
pointer (`_IO`).  The magic number and the command numbers are not in the spec; they
are chosen here (letter k, numbers in table order, field by field) to have one
concrete header to evaluate. -/
def vault_ioctl_h_spec : vault_ioctl_h where
  VAULT_IOC_MAGIC := 107
  VAULT_IOC_MAXNR := 14
  VAULT_IOCRESET := IOC IOC_NONE 107 0 0
  VAULT_IOCSQUANTUM := IOC IOC_WRITE 107 1 4
  VAULT_IOCSQSET := IOC IOC_WRITE 107 2 4
  VAULT_IOCTQUANTUM := IOC IOC_NONE 107 3 0
  VAULT_IOCTQSET := IOC IOC_NONE 107 4 0
  VAULT_IOCGQUANTUM := IOC IOC_READ 107 5 4
  VAULT_IOCGQSET := IOC IOC_READ 107 6 4
  VAULT_IOCQQUANTUM := IOC IOC_NONE 107 7 0
  VAULT_IOCQQSET := IOC IOC_NONE 107 8 0
  VAULT_IOCXQUANTUM := IOC (IOC_READ ||| IOC_WRITE) 107 9 4
  VAULT_IOCXQSET := IOC (IOC_READ ||| IOC_WRITE) 107 10 4
  VAULT_IOCHQUANTUM := IOC IOC_NONE 107 11 0
  VAULT_IOCHQSET := IOC IOC_NONE 107 12 0

/-- A privileged caller whose argument points at a readable and writable `int`
holding `v`. -/
def ioctl_env_admin (v : Int) : ioctl_env := ⟨true, true, some v, true⟩

/-- An unprivileged caller with the same argument. -/
def ioctl_env_user (v : Int) : ioctl_env := ⟨true, false, some v, true⟩

/-! ## Machine arithmetic -/

theorem wrap_s32_id (x : Int) (h1 : -2147483648 ≤ x) (h2 : x < 2147483648) : wrap_s32 x = x := by
  unfold wrap_s32; omega

theorem wrap_s64_id (x : Int) (h1 : -9223372036854775808 ≤ x) (h2 : x < 9223372036854775808) :
    wrap_s64 x = x := by
  unfold wrap_s64; omega

theorem wrap_u64_id (n : Nat) (h : n < 18446744073709551616) : wrap_u64 (n : Int) = n := by
  unfold wrap_u64; omega

theorem wrap_s32_lt (x : Int) : wrap_s32 x < 2147483648 := by
  unfold wrap_s32; omega

theorem wrap_s32_nat (n : Nat) (h : n < 2147483648) : wrap_s32 (n : Int) = n :=
  wrap_s32_id _ (by omega) (by omega)

theorem room_nat (Q q : Nat) (hQ : Q < 2147483648) (hq : q < Q) :
    wrap_u64 (wrap_s32 ((Q : Int) - (q : Int))) = Q - q := by
  rw [wrap_s32_id _ (by omega) (by omega)]
  have : (Q : Int) - (q : Int) = ((Q - q : Nat) : Int) := by omega
  rw [this, wrap_u64_id _ (by omega)]

theorem c_div_nat (F Q : Nat) (hQ : 0 < Q) :
    c_div (F : Int) (Q : Int) = some ((F / Q : Nat) : Int) := by
  unfold c_div
  have h1 : ¬ ((Q : Int) = 0 ∨ ((F : Int) = -9223372036854775808 ∧ (Q : Int) = -1)) := by omega
  rw [if_neg h1, Int.ofNat_tdiv]

theorem c_mod_nat (F Q : Nat) (hQ : 0 < Q) :
    c_mod (F : Int) (Q : Int) = some ((F % Q : Nat) : Int) := by
  unfold c_mod
  have h1 : ¬ ((Q : Int) = 0 ∨ ((F : Int) = -9223372036854775808 ∧ (Q : Int) = -1)) := by omega
  rw [if_neg h1, Int.ofNat_tmod]

theorem clamp_quantum_nat (count Q q : Nat) (hQ : Q < 2147483648) (hq : q < Q) :
    clamp_quantum count (Q : Int) (q : Int) = min count (Q - q) := by
  unfold clamp_quantum
  simp only [room_nat Q q hQ hq]
  split <;> omega

theorem update_size_nat (size n : Nat) (h : n < 18446744073709551616) :
    update_size size (n : Int) = max size n := by
  unfold update_size
  rw [wrap_u64_id n h]
  split <;> omega

theorem copy_from_user_snd (buf : List Byte) (count : Nat) :
    (copy_from_user buf count).2 ≠ 0 ↔ buf.length < count := by
  unfold copy_from_user; simp only [ne_eq]; omega

theorem vault_write_locked_eq (env : kenv) (data : Option (List (Option (List Byte)))) (Q : Nat)
    (qset : Int) (size : Nat) (sem : Int) (buf : List Byte) (count : Nat) (F : Nat)
    (hQ : 0 < Q) (hQ31 : Q < 2147483648)
    (hF : (F : Int) < wrap_s32 ((Q : Int) * qset)) :
    vault_write_locked env ⟨data, Q, qset, size, sem⟩ buf count F =
      match write_slots env data qset with
      | none => some ⟨-ENOMEM, ⟨data, Q, qset, size, sem⟩, F, []⟩
      | some arr =>
        match arr[F / Q]? with
        | none => none
        | some slot =>
          match write_seg env slot Q with
          | none => some ⟨-ENOMEM, ⟨some arr, Q, qset, size, sem⟩, F, []⟩
          | some seg =>
            if seg.length < F % Q + min count (Q - F % Q) then none
            else if buf.length < min count (Q - F % Q) then
              some ⟨-EFAULT, ⟨some (arr.set (F / Q)
                  (some (seg_store seg (F % Q) buf (min count (Q - F % Q))))),
                Q, qset, size, sem⟩, F, []⟩
            else
              some ⟨(min count (Q - F % Q) : Nat), ⟨some (arr.set (F / Q)
                  (some (seg_store seg (F % Q) buf (min count (Q - F % Q))))),
                Q, qset, max size (F + min count (Q - F % Q)), sem⟩,
                ((F + min count (Q - F % Q) : Nat) : Int), []⟩ := by
  have hW := wrap_s32_lt ((Q : Int) * qset)
  have hF31 : F < 2147483648 := by omega
  have hs : F / Q < 2147483648 := lt_of_le_of_lt (Nat.div_le_self _ _) hF31
  have hq : F % Q < Q := Nat.mod_lt _ hQ
  have hkle : min count (Q - F % Q) ≤ Q - F % Q := Nat.min_le_right _ _
  have hsz : wrap_s64 ((F : Int) + ((min count (Q - F % Q) : Nat) : Int))
      = ((F + min count (Q - F % Q) : Nat) : Int) := by
    rw [wrap_s64_id _ (by omega) (by omega)]; omega
  have hk64 : wrap_s64 ((min count (Q - F % Q) : Nat) : Int) = ((min count (Q - F % Q) : Nat) : Int) := by
    rw [wrap_s64_id _ (by omega) (by omega)]
  have hnn : ¬ (((F / Q : Nat) : Int) < 0) := not_lt.mpr (Int.ofNat_zero_le _)
  have hnq : ¬ (((F % Q : Nat) : Int) < 0) := not_lt.mpr (Int.ofNat_zero_le _)
  unfold vault_write_locked
  simp only [not_le.mpr hF, if_false, c_div_nat F Q hQ, c_mod_nat F Q hQ, wrap_s32_nat _ hs,
    wrap_s32_nat (F % Q) (by omega), clamp_quantum_nat count Q (F % Q) hQ31 hq, hnn, hnq,
    false_or, Int.toNat_ofNat, hsz, hk64, copy_from_user_snd,
    update_size_nat size (F + min count (Q - F % Q)) (by omega)]
  rfl

theorem clamp_size_nat (count size F : Nat) (hF : F < size) (hsz : size < 18446744073709551616)
    (hc : F + count < 18446744073709551616) :
    clamp_size count size (F : Int) = min count (size - F) := by
  unfold clamp_size
  rw [wrap_u64_id F (by omega)]
  split <;> omega

theorem pos_lt_of_div_lt (F Q : Nat) (hQ : 0 < Q) (hQ31 : Q < 2147483648)
    (hs : F / Q < 2147483648) : F < 4611686018427387904 := by
  have h1 : F < 2147483648 * Q := (Nat.div_lt_iff_lt_mul hQ).mp hs
  have h2 : 2147483648 * Q ≤ 2147483648 * 2147483648 := Nat.mul_le_mul_left _ (by omega)
  omega

theorem copy_to_user_read (ucap : Nat) (seg : List Byte) (q k : Nat) (h : q + k ≤ seg.length) :
    ((copy_to_user ucap ((seg.drop q).take k)).2 ≠ 0 ↔ ucap < k) ∧
    (¬ ucap < k → (copy_to_user ucap ((seg.drop q).take k)).1 = (seg.drop q).take k) := by
  have hlen : ((seg.drop q).take k).length = k := by
    rw [List.length_take, List.length_drop]; omega
  unfold copy_to_user
  constructor
  · simp only [ne_eq, hlen]; omega
  · intro hu
    exact List.take_of_length_le (by omega)

theorem vault_read_locked_eq (data : Option (List (Option (List Byte)))) (Q : Nat)
    (qset : Int) (size : Nat) (sem : Int) (ucap count : Nat) (F : Nat)
    (hQ : 0 < Q) (hQ31 : Q < 2147483648) (hF : F < size) (hsz : size < 18446744073709551616)
    (hc : F + count < 18446744073709551616) (hs : F / Q < 2147483648) :
    vault_read_locked ⟨data, Q, qset, size, sem⟩ ucap count F =
      match data with
      | none => some ⟨0, ⟨data, Q, qset, size, sem⟩, F, []⟩
      | some arr =>
        match arr[F / Q]? with
        | none => none
        | some none => some ⟨0, ⟨data, Q, qset, size, sem⟩, F, []⟩
        | some (some seg) =>
          if seg.length < F % Q + min (min count (size - F)) (Q - F % Q) then none
          else if ucap < min (min count (size - F)) (Q - F % Q) then
            some ⟨-EFAULT, ⟨data, Q, qset, size, sem⟩, F,
              ((seg.drop (F % Q)).take (min (min count (size - F)) (Q - F % Q))).take ucap⟩
          else
            some ⟨(min (min count (size - F)) (Q - F % Q) : Nat), ⟨data, Q, qset, size, sem⟩,
              ((F + min (min count (size - F)) (Q - F % Q) : Nat) : Int),
              (seg.drop (F % Q)).take (min (min count (size - F)) (Q - F % Q))⟩ := by
  have hF62 := pos_lt_of_div_lt F Q hQ hQ31 hs
  have hq : F % Q < Q := Nat.mod_lt _ hQ
  have hkle : min (min count (size - F)) (Q - F % Q) ≤ Q - F % Q := Nat.min_le_right _ _
  have hsz64 : wrap_s64 ((F : Int) + ((min (min count (size - F)) (Q - F % Q) : Nat) : Int))
      = ((F + min (min count (size - F)) (Q - F % Q) : Nat) : Int) := by
    rw [wrap_s64_id _ (by omega) (by omega)]; omega
  have hk64 : wrap_s64 ((min (min count (size - F)) (Q - F % Q) : Nat) : Int)
      = ((min (min count (size - F)) (Q - F % Q) : Nat) : Int) := by
    rw [wrap_s64_id _ (by omega) (by omega)]
  have hnn : ¬ (((F / Q : Nat) : Int) < 0) := not_lt.mpr (Int.ofNat_zero_le _)
  have hnq : ¬ (((F % Q : Nat) : Int) < 0) := not_lt.mpr (Int.ofNat_zero_le _)
  have hlt : ¬ (size ≤ wrap_u64 (F : Int)) := by rw [wrap_u64_id F (by omega)]; omega
  unfold vault_read_locked
  simp only [hlt, if_false, c_div_nat F Q hQ, c_mod_nat F Q hQ, wrap_s32_nat _ hs,
    wrap_s32_nat (F % Q) (by omega), clamp_size_nat count size F hF hsz hc,
    clamp_quantum_nat _ Q (F % Q) hQ31 hq, hnn, hnq, false_or, Int.toNat_ofNat, hsz64, hk64]
  cases data with
  | none => rfl
  | some arr =>
    simp only []
    cases harr : arr[F / Q]? with
    | none => rfl
    | some slot =>
      cases slot with
      | none => rfl
      | some seg =>
        simp only []
        by_cases hlen : seg.length < F % Q + min (min count (size - F)) (Q - F % Q)
        · simp only [hlen, if_true]
        · have hc2 := copy_to_user_read ucap seg (F % Q) (min (min count (size - F)) (Q - F % Q))
            (by omega)
          simp only [hlen, if_false, hc2.1]
          by_cases hu : ucap < min (min count (size - F)) (Q - F % Q)
          · simp only [hu, if_true]; rfl
          · simp only [hu, if_false, hc2.2 hu]

theorem vault_write_eq (env : kenv) (data : Option (List (Option (List Byte)))) (Q : Nat)
    (qset : Int) (size : Nat) (sem : Int) (buf : List Byte) (count : Nat) (F : Nat)
    (hi : env.intr = false) (hQ : 0 < Q) (hQ31 : Q < 2147483648)
    (hF : (F : Int) < wrap_s32 ((Q : Int) * qset)) :
    vault_write env ⟨data, Q, qset, size, sem⟩ buf count F =
      match write_slots env data qset with
      | none => some ⟨-ENOMEM, ⟨data, Q, qset, size, sem⟩, F, []⟩
      | some arr =>
        match arr[F / Q]? with
        | none => none
        | some slot =>
          match write_seg env slot Q with
          | none => some ⟨-ENOMEM, ⟨some arr, Q, qset, size, sem⟩, F, []⟩
          | some seg =>
            if seg.length < F % Q + min count (Q - F % Q) then none
            else if buf.length < min count (Q - F % Q) then
              some ⟨-EFAULT, ⟨some (arr.set (F / Q)
                  (some (seg_store seg (F % Q) buf (min count (Q - F % Q))))),
                Q, qset, size, sem⟩, F, []⟩
            else
              some ⟨(min count (Q - F % Q) : Nat), ⟨some (arr.set (F / Q)
                  (some (seg_store seg (F % Q) buf (min count (Q - F % Q))))),
                Q, qset, max size (F + min count (Q - F % Q)), sem⟩,
                ((F + min count (Q - F % Q) : Nat) : Int), []⟩ := by
  unfold vault_write
  simp only [hi, Bool.false_eq_true, if_false, down,
    vault_write_locked_eq env data Q qset size (sem - 1) buf count F hQ hQ31 hF]
  cases write_slots env data qset with
  | none => simp only [Option.map, up, sub_add_cancel]
  | some arr =>
    simp only []
    cases arr[F / Q]? with
    | none => rfl
    | some slot =>
      simp only []
      cases write_seg env slot Q with
      | none => simp only [Option.map, up, sub_add_cancel]
      | some seg =>
        simp only []
        split
        · rfl
        · split <;> simp only [Option.map, up, sub_add_cancel]

theorem vault_read_eq (env : kenv) (data : Option (List (Option (List Byte)))) (Q : Nat)
    (qset : Int) (size : Nat) (sem : Int) (ucap count : Nat) (F : Nat)
    (hi : env.intr = false)
    (hQ : 0 < Q) (hQ31 : Q < 2147483648) (hF : F < size) (hsz : size < 18446744073709551616)
    (hc : F + count < 18446744073709551616) (hs : F / Q < 2147483648) :
    vault_read env ⟨data, Q, qset, size, sem⟩ ucap count F =
      match data with
      | none => some ⟨0, ⟨data, Q, qset, size, sem⟩, F, []⟩
      | some arr =>
        match arr[F / Q]? with
        | none => none
        | some none => some ⟨0, ⟨data, Q, qset, size, sem⟩, F, []⟩
        | some (some seg) =>
          if seg.length < F % Q + min (min count (size - F)) (Q - F % Q) then none
          else if ucap < min (min count (size - F)) (Q - F % Q) then
            some ⟨-EFAULT, ⟨data, Q, qset, size, sem⟩, F,
              ((seg.drop (F % Q)).take (min (min count (size - F)) (Q - F % Q))).take ucap⟩
          else
            some ⟨(min (min count (size - F)) (Q - F % Q) : Nat), ⟨data, Q, qset, size, sem⟩,
              ((F + min (min count (size - F)) (Q - F % Q) : Nat) : Int),
              (seg.drop (F % Q)).take (min (min count (size - F)) (Q - F % Q))⟩ := by
  unfold vault_read
  simp only [hi, Bool.false_eq_true, if_false, down,
    vault_read_locked_eq data Q qset size (sem - 1) ucap count F hQ hQ31 hF hsz hc hs]
  cases data with
  | none => simp only [Option.map, up, sub_add_cancel]
  | some arr =>
    simp only []
    cases arr[F / Q]? with
    | none => rfl
    | some slot =>
      cases slot with
      | none => simp only [Option.map, up, sub_add_cancel]
      | some seg =>
        simp only []
        split
        · rfl
        · split <;> simp only [Option.map, up, sub_add_cancel]

theorem copy_from_user_fst (buf : List Byte) (count : Nat) (h : count ≤ buf.length) :
    (copy_from_user buf count).1 = buf.take count := by
  unfold copy_from_user
  simp only [Nat.sub_eq_zero_of_le h, List.replicate_zero, List.append_nil]

theorem copy_from_user_length (buf : List Byte) (count : Nat) :
    (copy_from_user buf count).1.length = count := by
  unfold copy_from_user
  simp only [List.length_append, List.length_take, List.length_replicate]
  omega

theorem seg_store_length (seg buf : List Byte) (q k : Nat) (h : q + k ≤ seg.length) :
    (seg_store seg q buf k).length = seg.length := by
  unfold seg_store
  simp only [List.length_append, List.length_take, List.length_drop, copy_from_user_length]
  omega

theorem seg_store_getElem? (seg buf : List Byte) (q k i : Nat) (h : q + k ≤ seg.length)
    (hk : k ≤ buf.length) :
    (seg_store seg q buf k)[i]? =
      if i < q then seg[i]? else if i < q + k then buf[i - q]? else seg[i]? := by
  unfold seg_store
  rw [copy_from_user_fst buf k hk]
  have h1 : (seg.take q).length = q := by rw [List.length_take]; omega
  have h2 : (buf.take k).length = k := by rw [List.length_take]; omega
  by_cases hi : i < q
  · rw [if_pos hi, List.append_assoc, List.getElem?_append_left (by omega), List.getElem?_take,
      if_pos hi]
  · rw [if_neg hi, List.append_assoc, List.getElem?_append_right (by omega), h1]
    by_cases hi2 : i < q + k
    · rw [if_pos hi2, List.getElem?_append_left (by omega), List.getElem?_take,
        if_pos (by omega)]
    · rw [if_neg hi2, List.getElem?_append_right (by omega), h2, List.getElem?_drop]
      congr 1; omega

theorem read_getElem? (seg : List Byte) (q k j : Nat) :
    ((seg.drop q).take k)[j]? = if j < k then seg[q + j]? else none := by
  rw [List.getElem?_take]
  split
  · rw [List.getElem?_drop]
  · rfl

/-! ## One call of `vault_write` or `vault_read` -/

theorem up_down (dev : vault_dev) : up (down dev) = dev := by
  cases dev
  simp only [up, down, sub_add_cancel]

theorem vault_write_intr (env : kenv) (dev : vault_dev) (buf : List Byte) (count : Nat)
    (f_pos : Int) (hi : env.intr = true) :
    vault_write env dev buf count f_pos = some ⟨-ERESTARTSYS, dev, f_pos, []⟩ := by
  unfold vault_write
  rw [if_pos hi]

theorem vault_write_full (env : kenv) (dev : vault_dev) (buf : List Byte) (count : Nat)
    (f_pos : Int) (hi : env.intr = false)
    (hcap : wrap_s32 (dev.quantum * dev.qset) ≤ f_pos) :
    vault_write env dev buf count f_pos = some ⟨0, dev, f_pos, []⟩ := by
  have hlocked : vault_write_locked env (down dev) buf count f_pos
      = some ⟨0, down dev, f_pos, []⟩ := by
    unfold vault_write_locked
    have h : wrap_s32 ((down dev).quantum * (down dev).qset) ≤ f_pos := hcap
    simp only [h, if_true]
  unfold vault_write
  simp only [hi, Bool.false_eq_true, if_false, hlocked, Option.map, up_down]

theorem vault_read_intr (env : kenv) (dev : vault_dev) (ucap count : Nat)
    (f_pos : Int) (hi : env.intr = true) :
    vault_read env dev ucap count f_pos = some ⟨-ERESTARTSYS, dev, f_pos, []⟩ := by
  unfold vault_read
  rw [if_pos hi]

theorem vault_read_eof (env : kenv) (dev : vault_dev) (ucap count : Nat)
    (f_pos : Int) (hi : env.intr = false) (heof : dev.size ≤ wrap_u64 f_pos) :
    vault_read env dev ucap count f_pos = some ⟨0, dev, f_pos, []⟩ := by
  have hlocked : vault_read_locked (down dev) ucap count f_pos
      = some ⟨0, down dev, f_pos, []⟩ := by
    unfold vault_read_locked
    have h : (down dev).size ≤ wrap_u64 f_pos := heof
    simp only [h, if_true]
  unfold vault_read
  simp only [hi, Bool.false_eq_true, if_false, hlocked, Option.map, up_down]

/-- What a call of `vault_write` that stores data leaves behind. -/
theorem vault_write_stored (env : kenv) (data : Option (List (Option (List Byte)))) (Q : Nat)
    (qset : Int) (size : Nat) (sem : Int) (buf : List Byte) (count : Nat) (F : Nat)
    (r : call_result) (hQ : 0 < Q) (hQ31 : Q < 2147483648)
    (hcall : vault_write env ⟨data, Q, qset, size, sem⟩ buf count F = some r)
    (hret : 0 < r.retval ∨ (0 ≤ r.retval ∧ (F : Int) < wrap_s32 ((Q : Int) * qset))) :
    env.intr = false ∧ (F : Int) < wrap_s32 ((Q : Int) * qset) ∧
    ∃ arr slot seg, write_slots env data qset = some arr ∧ arr[F / Q]? = some slot ∧
      write_seg env slot Q = some seg ∧ F % Q + min count (Q - F % Q) ≤ seg.length ∧
      min count (Q - F % Q) ≤ buf.length ∧
      r = ⟨(min count (Q - F % Q) : Nat), ⟨some (arr.set (F / Q)
              (some (seg_store seg (F % Q) buf (min count (Q - F % Q))))),
            Q, qset, max size (F + min count (Q - F % Q)), sem⟩,
          ((F + min count (Q - F % Q) : Nat) : Int), []⟩ := by
  have hi : env.intr = false := by
    cases h : env.intr with
    | false => rfl
    | true =>
      rw [vault_write_intr _ _ _ _ _ h] at hcall
      cases hcall
      simp only [ERESTARTSYS] at hret
      omega
  have hF : (F : Int) < wrap_s32 ((Q : Int) * qset) := by
    by_contra hge
    rw [vault_write_full env _ buf count F hi (not_lt.mp hge)] at hcall
    cases hcall
    simp only [lt_self_iff_false, false_or] at hret
    exact hge hret.2
  refine ⟨hi, hF, ?_⟩
  rw [vault_write_eq env data Q qset size sem buf count F hi hQ hQ31 hF] at hcall
  have hneg : ∀ x : Int, 0 < x → ¬ (0 < -x ∨ (0 ≤ -x ∧ (F : Int) < wrap_s32 ((Q : Int) * qset))) := by
    intro x hx; omega
  cases hs : write_slots env data qset with
  | none =>
    simp only [hs] at hcall
    cases hcall
    exact absurd hret (hneg ENOMEM (by decide))
  | some arr =>
    simp only [hs] at hcall
    cases hslot : arr[F / Q]? with
    | none => simp only [hslot] at hcall; cases hcall
    | some slot =>
      simp only [hslot] at hcall
      cases hseg : write_seg env slot Q with
      | none =>
        simp only [hseg] at hcall
        cases hcall
        exact absurd hret (hneg ENOMEM (by decide))
      | some seg =>
        simp only [hseg] at hcall
        by_cases hlen : seg.length < F % Q + min count (Q - F % Q)
        · simp only [hlen, if_true] at hcall; cases hcall
        · simp only [hlen, if_false] at hcall
          by_cases hb : buf.length < min count (Q - F % Q)
          · simp only [hb, if_true] at hcall
            cases hcall
            exact absurd hret (hneg EFAULT (by decide))
          · simp only [hb, if_false] at hcall
            exact ⟨arr, slot, seg, rfl, hslot, hseg, by omega, by omega, (Option.some.inj hcall).symm⟩

theorem write_slots_wf (env : kenv) (data : Option (List (Option (List Byte)))) (Q qset : Int)
    (arr : List (Option (List Byte))) (hq1 : -2147483648 ≤ qset) (hq2 : qset < 2147483648)
    (hwf : data_wf Q qset data) (h : write_slots env data qset = some arr) :
    (arr.length : Int) = qset ∧ ∀ slot ∈ arr, slot_wf Q slot := by
  cases data with
  | some arr0 =>
    simp only [write_slots, Option.some.injEq] at h
    subst h
    exact hwf
  | none =>
    simp only [write_slots, kmalloc_slots] at h
    split at h
    · rename_i hle
      simp only [Option.some.injEq] at h
      subst h
      constructor
      · rw [List.length_replicate]
        have h1 := hle.1
        unfold KMALLOC_MAX_SIZE wrap_u64 at h1
        unfold wrap_u64
        omega
      · intro slot hmem
        rw [List.eq_of_mem_replicate hmem]
        trivial
    · cases h

theorem write_seg_wf (env : kenv) (slot : Option (List Byte)) (Q : Nat) (seg : List Byte)
    (hQ : Q < 2147483648) (hwf : slot_wf Q slot) (h : write_seg env slot Q = some seg) :
    seg.length = Q := by
  cases slot with
  | some seg0 =>
    simp only [write_seg, Option.some.injEq] at h
    subst h
    exact Int.ofNat.inj hwf
  | none =>
    simp only [write_seg, kmalloc] at h
    split at h
    · cases hg : env.alloc_seg with
      | none => rw [hg] at h; cases h
      | some g =>
        rw [hg] at h
        simp only [Option.map, Option.some.injEq] at h
        subst h
        rw [List.length_map, List.length_range, wrap_u64_id Q (by omega)]
    · cases h

theorem byte_at_mk (data : Option (List (Option (List Byte)))) (Q : Nat) (qset : Int)
    (size : Nat) (sem : Int) (p : Nat) :
    (⟨data, Q, qset, size, sem⟩ : vault_dev).byte_at p =
      match data with
      | none => none
      | some arr =>
        match arr[p / Q]? with
        | some (some seg) => seg[p % Q]?
        | _ => none := by
  unfold vault_dev.byte_at vault_dev.slot_at
  simp only [Int.toNat_ofNat]
  cases data <;> rfl

theorem div_mod_offset (F Q i : Nat) (hQ : 0 < Q) (h : F % Q + i < Q) :
    (F + i) / Q = F / Q ∧ (F + i) % Q = F % Q + i := by
  have h1 : F + i = (F % Q + i) + Q * (F / Q) := by
    have := Nat.mod_add_div F Q
    omega
  rw [h1, Nat.add_mul_div_left _ _ hQ, Nat.add_mul_mod_self_left, Nat.div_eq_of_lt h,
    Nat.mod_eq_of_lt h]
  omega

theorem outside_segment_range (F Q p k : Nat)
    (hp : p < F ∨ F + k ≤ p) (hs : p / Q = F / Q) :
    p % Q < F % Q ∨ F % Q + k ≤ p % Q := by
  have h1 := Nat.mod_add_div F Q
  have h2 := Nat.mod_add_div p Q
  rw [hs] at h2
  omega

/-- Bytes of the device after a successful write: inside the written range. -/
theorem byte_at_written (arr : List (Option (List Byte))) (seg buf : List Byte) (Q : Nat)
    (qset : Int) (size : Nat) (sem : Int) (F k i : Nat) (hQ : 0 < Q)
    (hs : F / Q < arr.length) (hlen : F % Q + k ≤ seg.length) (hkQ : F % Q + k ≤ Q)
    (hk : k ≤ buf.length) (hi : i < k) :
    (⟨some (arr.set (F / Q) (some (seg_store seg (F % Q) buf k))), Q, qset, size, sem⟩ :
      vault_dev).byte_at (F + i) = buf[i]? := by
  obtain ⟨h1, h2⟩ := div_mod_offset F Q i hQ (by omega)
  rw [byte_at_mk]
  simp only [h1, h2, List.getElem?_set, if_true, hs]
  rw [seg_store_getElem? seg buf _ _ _ hlen hk, if_neg (by omega), if_pos (by omega)]
  congr 1
  omega

/-- Bytes of the device after a successful write: outside the written range. -/
theorem byte_at_frame (data : Option (List (Option (List Byte))))
    (arr : List (Option (List Byte))) (slot : Option (List Byte)) (seg buf : List Byte)
    (env : kenv) (Q : Nat) (qset : Int) (size size' : Nat) (sem sem' : Int) (F k p : Nat)
    (x : Byte)
    (harr : write_slots env data qset = some arr) (hslot : arr[F / Q]? = some slot)
    (hseg : write_seg env slot Q = some seg)
    (hlen : F % Q + k ≤ seg.length) (hk : k ≤ buf.length)
    (hp : p < F ∨ F + k ≤ p)
    (hx : (⟨data, Q, qset, size, sem⟩ : vault_dev).byte_at p = some x) :
    (⟨some (arr.set (F / Q) (some (seg_store seg (F % Q) buf k))), Q, qset, size', sem'⟩ :
      vault_dev).byte_at p = some x := by
  rw [byte_at_mk] at hx
  cases data with
  | none => cases hx
  | some arr0 =>
    simp only [write_slots, Option.some.injEq] at harr
    subst harr
    simp only [] at hx
    rw [byte_at_mk]
    simp only [List.getElem?_set]
    by_cases hs : F / Q = p / Q
    · rw [if_pos hs]
      rw [← hs, hslot] at hx
      cases slot with
      | none => cases hx
      | some seg0 =>
        simp only [write_seg, Option.some.injEq] at hseg
        subst hseg
        simp only [] at hx
        have hin : F / Q < arr0.length := by
          rcases Nat.lt_or_ge (F / Q) arr0.length with h | h
          · exact h
          · rw [List.getElem?_eq_none h] at hslot; cases hslot
        rw [if_pos hin]
        simp only []
        rw [seg_store_getElem? _ buf _ _ _ hlen hk]
        rcases outside_segment_range F Q p k hp hs.symm with h | h
        · rw [if_pos h]; exact hx
        · rw [if_neg (by omega), if_neg (by omega)]; exact hx
    · rw [if_neg hs]
      exact hx

/-- Everything a data-storing call of `vault_write` guarantees about the device
it leaves, in one statement. -/
theorem vault_write_post (env : kenv) (data : Option (List (Option (List Byte)))) (Q : Nat)
    (qset : Int) (size : Nat) (sem : Int) (buf : List Byte) (count : Nat) (F : Nat)
    (r : call_result) (hwf : (⟨data, Q, qset, size, sem⟩ : vault_dev).wf) (hQ : 0 < Q)
    (hcall : vault_write env ⟨data, Q, qset, size, sem⟩ buf count F = some r)
    (hret : 0 < r.retval ∨ (0 ≤ r.retval ∧ (F : Int) < wrap_s32 ((Q : Int) * qset))) :
    ∃ data' : List (Option (List Byte)),
      r = ⟨(min count (Q - F % Q) : Nat),
            ⟨some data', Q, qset, max size (F + min count (Q - F % Q)), sem⟩,
            ((F + min count (Q - F % Q) : Nat) : Int), []⟩ ∧
      min count (Q - F % Q) ≤ buf.length ∧
      r.dev.wf ∧
      (F / Q < data'.length) ∧
      (∀ i, i < min count (Q - F % Q) → r.dev.byte_at (F + i) = buf[i]?) ∧
      (∀ p x, (p < F ∨ F + min count (Q - F % Q) ≤ p) →
        (⟨data, Q, qset, size, sem⟩ : vault_dev).byte_at p = some x →
        r.dev.byte_at p = some x) := by
  obtain ⟨hq1, hq2, hs1, hs2, hsz, hdata⟩ := hwf
  simp only at hq1 hq2 hs1 hs2 hsz hdata
  have hQ31 : Q < 2147483648 := by omega
  obtain ⟨_, hF, arr, slot, seg, harr, hslot, hseg, hlen, hk, hr⟩ :=
    vault_write_stored env data Q qset size sem buf count F r hQ hQ31 hcall hret
  have hW := wrap_s32_lt ((Q : Int) * qset)
  have hmod : F % Q < Q := Nat.mod_lt _ hQ
  have hkQ : F % Q + min count (Q - F % Q) ≤ Q := by omega
  obtain ⟨halen, hslots⟩ := write_slots_wf env data Q qset arr hs1 hs2 hdata harr
  have hin : F / Q < arr.length := by
    rcases Nat.lt_or_ge (F / Q) arr.length with h | h
    · exact h
    · rw [List.getElem?_eq_none h] at hslot; cases hslot
  have hslotwf : slot_wf Q slot := hslots slot (List.getElem?_mem hslot)
  have hseglen : seg.length = Q := write_seg_wf env slot Q seg hQ31 hslotwf hseg
  refine ⟨arr.set (F / Q) (some (seg_store seg (F % Q) buf (min count (Q - F % Q)))), hr, hk,
    ?_, ?_, ?_, ?_⟩
  · subst hr
    refine ⟨hq1, hq2, hs1, hs2, ?_, ?_⟩
    · simp only
      omega
    · simp only [data_wf, List.length_set]
      refine ⟨halen, ?_⟩
      intro s hmem
      rcases List.mem_or_eq_of_mem_set hmem with h | h
      · exact hslots s h
      · subst h
        simp only [slot_wf, seg_store_length seg buf _ _ hlen, hseglen]
  · rw [List.length_set]; exact hin
  · intro i hi
    subst hr
    exact byte_at_written arr seg buf Q qset _ sem F _ i hQ hin hlen hkQ hk hi
  · intro p x hp hx
    subst hr
    exact byte_at_frame data arr slot seg buf env Q qset size _ sem sem F _ p x harr hslot
      hseg hlen hk hp hx

/-- A read inside the data whose segment is present. -/
theorem vault_read_present (env : kenv) (arr : List (Option (List Byte))) (seg : List Byte)
    (Q : Nat) (qset : Int) (size : Nat) (sem : Int) (ucap count F : Nat)
    (hi : env.intr = false) (hQ : 0 < Q) (hQ31 : Q < 2147483648) (hF : F < size)
    (hsz : size < 18446744073709551616) (hc : F + count < 18446744073709551616)
    (harr : arr.length < 2147483648) (hslot : arr[F / Q]? = some (some seg))
    (hseg : seg.length = Q) (hu : count ≤ ucap) :
    vault_read env ⟨some arr, Q, qset, size, sem⟩ ucap count F =
      some ⟨(min (min count (size - F)) (Q - F % Q) : Nat), ⟨some arr, Q, qset, size, sem⟩,
        ((F + min (min count (size - F)) (Q - F % Q) : Nat) : Int),
        (seg.drop (F % Q)).take (min (min count (size - F)) (Q - F % Q))⟩ := by
  have hin : F / Q < arr.length := by
    rcases Nat.lt_or_ge (F / Q) arr.length with h | h
    · exact h
    · rw [List.getElem?_eq_none h] at hslot; cases hslot
  have hmod : F % Q < Q := Nat.mod_lt _ hQ
  rw [vault_read_eq env (some arr) Q qset size sem ucap count F hi hQ hQ31 hF hsz hc (by omega)]
  simp only [hslot]
  rw [if_neg (by omega), if_neg (by omega)]

/-- A read inside the data whose segment (or the whole array) is absent. -/
theorem vault_read_absent (env : kenv) (data : Option (List (Option (List Byte))))
    (Q : Nat) (qset : Int) (size : Nat) (sem : Int) (ucap count F : Nat)
    (hi : env.intr = false) (hQ : 0 < Q) (hQ31 : Q < 2147483648) (hF : F < size)
    (hsz : size < 18446744073709551616) (hc : F + count < 18446744073709551616)
    (hs : F / Q < 2147483648)
    (habs : data = none ∨ ∃ arr, data = some arr ∧ arr[F / Q]? = some none) :
    vault_read env ⟨data, Q, qset, size, sem⟩ ucap count F =
      some ⟨0, ⟨data, Q, qset, size, sem⟩, F, []⟩ := by
  rw [vault_read_eq env data Q qset size sem ucap count F hi hQ hQ31 hF hsz hc hs]
  rcases habs with h | ⟨arr, h, hslot⟩
  · subst h; rfl
  · subst h; simp only [hslot]

/-- A read at a stored byte returns the stored bytes that follow it, up to the
end of the request, of the data and of the segment. -/
theorem vault_read_bytes (env : kenv) (data : Option (List (Option (List Byte)))) (Q : Nat)
    (qset : Int) (size : Nat) (sem : Int) (ucap count F : Nat) (x : Byte)
    (hwf : (⟨data, Q, qset, size, sem⟩ : vault_dev).wf) (hQ : 0 < Q)
    (hi : env.intr = false) (hF : F < size) (hu : count ≤ ucap)
    (hc : F + count < 18446744073709551616)
    (hx : (⟨data, Q, qset, size, sem⟩ : vault_dev).byte_at F = some x) :
    ∃ ubuf, vault_read env ⟨data, Q, qset, size, sem⟩ ucap count F =
        some ⟨(min (min count (size - F)) (Q - F % Q) : Nat), ⟨data, Q, qset, size, sem⟩,
          ((F + min (min count (size - F)) (Q - F % Q) : Nat) : Int), ubuf⟩ ∧
      ∀ j, ubuf[j]? = if j < min (min count (size - F)) (Q - F % Q)
        then (⟨data, Q, qset, size, sem⟩ : vault_dev).byte_at (F + j) else none := by
  obtain ⟨hq1, hq2, hs1, hs2, hsz, hdata⟩ := hwf
  simp only at hq1 hq2 hs1 hs2 hsz hdata
  rw [byte_at_mk] at hx
  cases data with
  | none => cases hx
  | some arr =>
    simp only [] at hx
    cases hslot : arr[F / Q]? with
    | none => rw [hslot] at hx; cases hx
    | some slot =>
      cases slot with
      | none => rw [hslot] at hx; cases hx
      | some seg =>
        have hseg : seg.length = Q := Int.ofNat.inj (hdata.2 _ (List.getElem?_mem hslot))
        have hlen : arr.length < 2147483648 := by have := hdata.1; omega
        refine ⟨_, vault_read_present env arr seg Q qset size sem ucap count F hi hQ
          (by omega) hF hsz hc hlen hslot hseg hu, ?_⟩
        intro j
        rw [read_getElem?]
        split
        · rename_i hj
          have hmod : F % Q < Q := Nat.mod_lt _ hQ
          obtain ⟨h1, h2⟩ := div_mod_offset F Q j hQ (by omega)
          rw [byte_at_mk]
          simp only [h1, h2, hslot]
        · rfl

/-! ## Loops over short writes and reads -/

theorem write_all_nil (envs : Nat → kenv) (fuel : Nat) (dev : vault_dev) (f_pos : Int) :
    write_all envs fuel dev [] f_pos = some (dev, f_pos) := by
  cases fuel <;> rfl

/-- What a completed `write_all` leaves behind. -/
theorem write_all_post (envs : Nat → kenv) :
    ∀ (fuel : Nat) (dev : vault_dev) (b : List Byte) (F : Nat) (dev' : vault_dev) (pos' : Int),
      dev.wf → 0 < dev.quantum → write_all envs fuel dev b F = some (dev', pos') →
      dev'.wf ∧ dev'.quantum = dev.quantum ∧ dev'.qset = dev.qset ∧ dev'.sem = dev.sem ∧
      pos' = ((F + b.length : Nat) : Int) ∧
      dev.size ≤ dev'.size ∧ (b ≠ [] → F + b.length ≤ dev'.size) ∧
      (∀ i, i < b.length → dev'.byte_at (F + i) = b[i]?) ∧
      (∀ p x, p < F → dev.byte_at p = some x → dev'.byte_at p = some x) := by
  intro fuel
  induction fuel with
  | zero =>
    intro dev b F dev' pos' hwf hq h
    cases b with
    | nil =>
      rw [write_all_nil] at h
      cases h
      simp
      exact hwf
    | cons c cs => simp only [write_all] at h; cases h
  | succ fuel ih =>
    intro dev b F dev' pos' hwf hq h
    cases b with
    | nil =>
      rw [write_all_nil] at h
      cases h
      simp
      exact hwf
    | cons c cs =>
      simp only [write_all] at h
      cases hcall : vault_write (envs fuel) dev (c :: cs) (cs.length + 1) F with
      | none => rw [hcall] at h; cases h
      | some r =>
        rw [hcall] at h
        simp only [] at h
        by_cases hret : 0 < r.retval
        · rw [if_pos hret] at h
          obtain ⟨data, quantum, qset, size, sem⟩ := dev
          simp only at hq
          lift quantum to ℕ using le_of_lt hq with Q
          have hQ : 0 < Q := by omega
          obtain ⟨data', hr, hk, hwf', hin, hbytes, hframe⟩ :=
            vault_write_post (envs fuel) data Q qset size sem (c :: cs) (cs.length + 1) F r hwf hQ
              hcall (Or.inl hret)
          have hmod : F % Q < Q := Nat.mod_lt _ hQ
          have hk1 : 0 < min (cs.length + 1) (Q - F % Q) := by omega
          subst hr
          simp only [Int.toNat_ofNat] at h hwf' hbytes hframe
          obtain ⟨g1, g2, g3, g4, g5, g6, g7, g8, g9⟩ := ih _ _ _ dev' pos' hwf' (by simpa using hq) h
          simp only [List.length_drop, List.length_cons] at g5 g7 g8
          have g6' : max size (F + min (cs.length + 1) (Q - F % Q)) ≤ dev'.size := g6
          refine ⟨g1, g2, g3, g4, ?_, ?_, ?_, ?_, ?_⟩
          · rw [g5]; simp only [List.length_cons]; congr 1; omega
          · show size ≤ dev'.size
            omega
          · intro _
            simp only [List.length_cons]
            by_cases hrest : List.drop (min (cs.length + 1) (Q - F % Q)) (c :: cs) = []
            · have hlen : (List.drop (min (cs.length + 1) (Q - F % Q)) (c :: cs)).length = 0 := by
                rw [hrest]; rfl
              simp only [List.length_drop, List.length_cons] at hlen
              omega
            · have := g7 hrest
              omega
          · intro i hi
            simp only [List.length_cons] at hi
            by_cases hik : i < min (cs.length + 1) (Q - F % Q)
            · have h1 := hbytes i hik
              have hsome : (c :: cs)[i]? = some ((c :: cs)[i]) := List.getElem?_eq_getElem _
              rw [hsome] at h1 ⊢
              exact g9 _ _ (by omega) h1
            · have h1 := g8 (i - min (cs.length + 1) (Q - F % Q)) (by omega)
              rw [List.getElem?_drop] at h1
              have e1 : F + min (cs.length + 1) (Q - F % Q) + (i - min (cs.length + 1) (Q - F % Q))
                  = F + i := by omega
              have e2 : min (cs.length + 1) (Q - F % Q) + (i - min (cs.length + 1) (Q - F % Q))
                  = i := by omega
              rw [e1, e2] at h1
              exact h1
          · intro p x hp hx
            exact g9 p x (by omega) (hframe p x (Or.inl hp) hx)
        · rw [if_neg hret] at h; cases h

/-- Reading back a range whose bytes are all stored returns those bytes. -/
theorem read_all_bytes (envs : Nat → kenv) (hintr : ∀ i, (envs i).intr = false) :
    ∀ (fuel n : Nat) (dev : vault_dev) (F : Nat) (b : List Byte),
      dev.wf → 0 < dev.quantum → b.length = n → n ≤ fuel → F + n ≤ dev.size →
      (∀ i, i < n → dev.byte_at (F + i) = b[i]?) →
      read_all envs fuel dev F n = some b := by
  intro fuel
  induction fuel with
  | zero =>
    intro n dev F b _ _ hb hn _ _
    have h0 : n = 0 := by omega
    subst h0
    rw [List.length_eq_zero.mp hb]
    rfl
  | succ fuel ih =>
    intro n dev F b hwf hq hb hn hsize hbytes
    cases n with
    | zero =>
      rw [List.length_eq_zero.mp hb]
      rfl
    | succ n =>
      obtain ⟨data, quantum, qset, size, sem⟩ := dev
      simp only at hq hsize
      lift quantum to ℕ using le_of_lt hq with Q
      have hQ : 0 < Q := by omega
      have hmod : F % Q < Q := Nat.mod_lt _ hQ
      have hsz : size < 18446744073709551616 := hwf.2.2.2.2.1
      have h0 := hbytes 0 (by omega)
      have hsome : b[0]? = some (b[0]) := List.getElem?_eq_getElem (by omega)
      rw [hsome, Nat.add_zero] at h0
      obtain ⟨ubuf, hread, hubuf⟩ := vault_read_bytes (envs fuel) data Q qset size sem (n + 1)
        (n + 1) F _ hwf hQ (hintr fuel) (by omega) (le_refl _) (by omega) h0
      have hk1 : 0 < min (min (n + 1) (size - F)) (Q - F % Q) := by omega
      have hkn : min (min (n + 1) (size - F)) (Q - F % Q) ≤ n + 1 := by omega
      have hu : ubuf = b.take (min (min (n + 1) (size - F)) (Q - F % Q)) := by
        apply List.ext_getElem?
        intro j
        rw [hubuf j, List.getElem?_take]
        split
        · exact hbytes j (by omega)
        · rfl
      have hrest := ih (n + 1 - min (min (n + 1) (size - F)) (Q - F % Q))
        ⟨data, Q, qset, size, sem⟩ (F + min (min (n + 1) (size - F)) (Q - F % Q))
        (b.drop (min (min (n + 1) (size - F)) (Q - F % Q))) hwf (by simpa using hq)
        (by rw [List.length_drop, hb]) (by omega) (by simp only; omega)
        (by
          intro i hi
          rw [List.getElem?_drop, Nat.add_assoc]
          exact hbytes _ (by omega))
      simp only [read_all, hread]
      rw [if_pos (by exact_mod_cast hk1)]
      simp only [Int.toNat_ofNat, hrest, Option.map, hu, List.take_append_drop]

/-- With the semaphore acquired and memory granted, a write inside a capacity
that fits an `int` stores data: it returns the clamped count. -/
theorem vault_write_granted (env : kenv) (data : Option (List (Option (List Byte)))) (Q : Nat)
    (qset : Int) (size : Nat) (sem : Int) (buf : List Byte) (count : Nat) (F : Nat)
    (hwf : (⟨data, Q, qset, size, sem⟩ : vault_dev).wf) (hQ : 0 < Q)
    (hg : env.grants ⟨data, Q, qset, size, sem⟩)
    (hno : (Q : Int) * qset < 2147483648) (hF : (F : Int) < (Q : Int) * qset)
    (hc : count ≤ buf.length) :
    ∃ r, vault_write env ⟨data, Q, qset, size, sem⟩ buf count F = some r ∧
      r.retval = ((min count (Q - F % Q) : Nat) : Int) := by
  obtain ⟨hq1, hq2, hs1, hs2, hsz, hdata⟩ := hwf
  obtain ⟨hi, hgd, hgs⟩ := hg
  simp only at hq1 hq2 hs1 hs2 hsz hdata hgd hgs
  have hQ31 : Q < 2147483648 := by omega
  have hW : wrap_s32 ((Q : Int) * qset) = (Q : Int) * qset :=
    wrap_s32_id _ (by omega) hno
  have hF' : (F : Int) < wrap_s32 ((Q : Int) * qset) := by rw [hW]; exact hF
  have hmod : F % Q < Q := Nat.mod_lt _ hQ
  rw [vault_write_eq env data Q qset size sem buf count F hi hQ hQ31 hF']
  have hslots : ∃ arr, write_slots env data qset = some arr := by
    cases data with
    | some arr => exact ⟨arr, rfl⟩
    | none =>
      cases h : kmalloc_slots env.alloc_data (wrap_u64 qset * 8 % 18446744073709551616) with
      | none => exact absurd h hgd
      | some arr => exact ⟨arr, h⟩
  obtain ⟨arr, harr⟩ := hslots
  obtain ⟨halen, hslotswf⟩ := write_slots_wf env data Q qset arr hs1 hs2 hdata harr
  have hin : F / Q < arr.length := by
    have hlt : (F : Int) < (Q : Int) * (arr.length : Int) := by rw [halen]; exact hF
    have hlt' : F < Q * arr.length := by exact_mod_cast hlt
    exact Nat.div_lt_of_lt_mul hlt'
  have hslot : arr[F / Q]? = some (arr[F / Q]) := List.getElem?_eq_getElem hin
  have hsegs : ∃ seg, write_seg env (arr[F / Q]) Q = some seg := by
    cases hsl : arr[F / Q] with
    | some seg => exact ⟨seg, rfl⟩
    | none =>
      cases h : kmalloc env.alloc_seg (wrap_u64 (Q : Int)) with
      | none => exact absurd h hgs
      | some seg => exact ⟨seg, h⟩
  obtain ⟨seg, hseg⟩ := hsegs
  have hseglen : seg.length = Q :=
    write_seg_wf env _ Q seg hQ31 (hslotswf _ (List.getElem?_mem hslot)) hseg
  simp only [harr, hslot, hseg]
  rw [if_neg (by omega), if_neg (by omega)]
  exact ⟨_, rfl, rfl⟩

theorem grants_congr (env : kenv) (d d' : vault_dev) (hq : d'.quantum = d.quantum)
    (hs : d'.qset = d.qset) (hg : env.grants d) : env.grants d' := by
  unfold kenv.grants at hg ⊢
  rw [hq, hs]
  exact hg

/-- With the semaphore acquired and memory granted at every call, `write_all`
consumes every byte of a buffer that fits the capacity, in at most one call per
byte. -/
theorem write_all_total (envs : Nat → kenv) :
    ∀ (fuel : Nat) (dev : vault_dev) (b : List Byte) (F : Nat),
      dev.wf → 0 < dev.quantum → (∀ i, (envs i).grants dev) →
      dev.quantum * dev.qset < 2147483648 →
      ((F + b.length : Nat) : Int) ≤ dev.quantum * dev.qset → b.length ≤ fuel →
      ∃ dev' pos', write_all envs fuel dev b F = some (dev', pos') := by
  intro fuel
  induction fuel with
  | zero =>
    intro dev b F _ _ _ _ _ hfuel
    have hb : b = [] := List.length_eq_zero.mp (by omega)
    subst hb
    exact ⟨dev, F, rfl⟩
  | succ fuel ih =>
    intro dev b F hwf hq hg hno hcap hfuel
    cases b with
    | nil => exact ⟨dev, F, write_all_nil _ _ _ _⟩
    | cons c cs =>
      obtain ⟨data, quantum, qset, size, sem⟩ := dev
      simp only at hq hno hcap
      lift quantum to ℕ using le_of_lt hq with Q
      have hQ : 0 < Q := by omega
      have hmod : F % Q < Q := Nat.mod_lt _ hQ
      simp only [List.length_cons] at hcap hfuel
      obtain ⟨r, hcall, hret⟩ := vault_write_granted (envs fuel) data Q qset size sem (c :: cs)
        (cs.length + 1) F hwf hQ (hg fuel) hno (by push_cast at hcap ⊢; omega) (le_refl _)
      have hk1 : 0 < min (cs.length + 1) (Q - F % Q) := by omega
      have hpos : 0 < r.retval := by rw [hret]; exact_mod_cast hk1
      obtain ⟨data', hr, _, hwf', _, _, _⟩ :=
        vault_write_post (envs fuel) data Q qset size sem (c :: cs) (cs.length + 1) F r hwf hQ
          hcall (Or.inl hpos)
      simp only [write_all, hcall, if_pos hpos]
      subst hr
      simp only [Int.toNat_ofNat]
      apply ih _ _ _ hwf' (by simpa using hq)
      · intro i
        exact grants_congr _ _ _ rfl rfl (hg i)
      · exact hno
      · simp only [List.length_drop, List.length_cons]
        have e : F + min (cs.length + 1) (Q - F % Q) +
            (cs.length + 1 - min (cs.length + 1) (Q - F % Q)) = F + (cs.length + 1) := by omega
        rw [e]
        exact hcap
      · simp only [List.length_drop, List.length_cons]
        omega

/-! ## Every outcome of a write, and the invariant -/

theorem clamp_quantum_le (count : Nat) (quantum q_pos : Int) :
    clamp_quantum count quantum q_pos ≤ count := by
  unfold clamp_quantum
  simp only
  split <;> omega

/-- Every way the critical section of `vault_write` can end, with what it leaves
behind: out of capacity, no memory for the array, no memory for the segment, or
data stored in a segment (completely, or up to a fault of the user copy). -/
theorem vault_write_locked_outcome (env : kenv) (dev : vault_dev) (buf : List Byte)
    (count : Nat) (f_pos : Int) (r : call_result)
    (hcall : vault_write_locked env dev buf count f_pos = some r) :
    (wrap_s32 (dev.quantum * dev.qset) ≤ f_pos ∧ r = ⟨0, dev, f_pos, []⟩) ∨
    (f_pos < wrap_s32 (dev.quantum * dev.qset) ∧
      write_slots env dev.data dev.qset = none ∧ r = ⟨-ENOMEM, dev, f_pos, []⟩) ∨
    (f_pos < wrap_s32 (dev.quantum * dev.qset) ∧ ∃ s arr slot,
      c_div f_pos dev.quantum = some s ∧ write_slots env dev.data dev.qset = some arr ∧
      0 ≤ wrap_s32 s ∧ arr[(wrap_s32 s).toNat]? = some slot ∧
      write_seg env slot dev.quantum = none ∧
      r = ⟨-ENOMEM, { dev with data := some arr }, f_pos, []⟩) ∨
    (f_pos < wrap_s32 (dev.quantum * dev.qset) ∧ ∃ s q arr slot seg,
      c_div f_pos dev.quantum = some s ∧ c_mod f_pos dev.quantum = some q ∧
      write_slots env dev.data dev.qset = some arr ∧
      0 ≤ wrap_s32 s ∧ arr[(wrap_s32 s).toNat]? = some slot ∧
      write_seg env slot dev.quantum = some seg ∧ 0 ≤ wrap_s32 q ∧
      (wrap_s32 q).toNat + clamp_quantum count dev.quantum (wrap_s32 q) ≤ seg.length ∧
      ((buf.length < clamp_quantum count dev.quantum (wrap_s32 q) ∧
          r = ⟨-EFAULT, { dev with data := some (arr.set (wrap_s32 s).toNat (some
              (seg_store seg (wrap_s32 q).toNat buf
                (clamp_quantum count dev.quantum (wrap_s32 q))))) }, f_pos, []⟩) ∨
       (clamp_quantum count dev.quantum (wrap_s32 q) ≤ buf.length ∧
          r = ⟨wrap_s64 (clamp_quantum count dev.quantum (wrap_s32 q)),
            { dev with
              data := some (arr.set (wrap_s32 s).toNat (some
                (seg_store seg (wrap_s32 q).toNat buf
                  (clamp_quantum count dev.quantum (wrap_s32 q))))),
              size := update_size dev.size
                (wrap_s64 (f_pos + clamp_quantum count dev.quantum (wrap_s32 q))) },
            wrap_s64 (f_pos + clamp_quantum count dev.quantum (wrap_s32 q)), []⟩))) := by
  unfold vault_write_locked at hcall
  simp only at hcall
  split at hcall
  · rename_i hfull
    exact Or.inl ⟨hfull, (Option.some.inj hcall).symm⟩
  · rename_i hfull
    have hlt := not_le.mp hfull
    split at hcall
    · rename_i s q hs hq
      split at hcall
      · rename_i harr
        exact Or.inr (Or.inl ⟨hlt, harr, (Option.some.inj hcall).symm⟩)
      · rename_i arr harr
        split at hcall
        · cases hcall
        · rename_i hs0
          split at hcall
          · cases hcall
          · rename_i slot hslot
            split at hcall
            · rename_i hseg
              exact Or.inr (Or.inr (Or.inl ⟨hlt, s, arr, slot, hs, harr, not_lt.mp hs0, hslot,
                hseg, (Option.some.inj hcall).symm⟩))
            · rename_i seg hseg
              split at hcall
              · cases hcall
              · rename_i hoob
                have hq0 : 0 ≤ wrap_s32 q := not_lt.mp (fun h => hoob (Or.inl h))
                have hlen : (wrap_s32 q).toNat + clamp_quantum count dev.quantum (wrap_s32 q)
                    ≤ seg.length := not_lt.mp (fun h => hoob (Or.inr h))
                refine Or.inr (Or.inr (Or.inr ⟨hlt, s, q, arr, slot, seg, hs, hq, harr,
                  not_lt.mp hs0, hslot, hseg, hq0, hlen, ?_⟩))
                split at hcall
                · rename_i hfault
                  exact Or.inl ⟨(copy_from_user_snd _ _).mp hfault, (Option.some.inj hcall).symm⟩
                · rename_i hfault
                  have hb : ¬ buf.length < clamp_quantum count dev.quantum (wrap_s32 q) :=
                    fun h => hfault ((copy_from_user_snd _ _).mpr h)
                  exact Or.inr ⟨not_lt.mp hb, (Option.some.inj hcall).symm⟩
    · cases hcall

theorem write_seg_length (env : kenv) (slot : Option (List Byte)) (quantum : Int)
    (seg : List Byte) (hq1 : -2147483648 ≤ quantum) (hq2 : quantum < 2147483648)
    (hwf : slot_wf quantum slot) (h : write_seg env slot quantum = some seg) :
    (seg.length : Int) = quantum := by
  cases slot with
  | some seg0 =>
    simp only [write_seg, Option.some.injEq] at h
    subst h
    exact hwf
  | none =>
    simp only [write_seg, kmalloc] at h
    split at h
    · rename_i hle
      cases hg : env.alloc_seg with
      | none => rw [hg] at h; cases h
      | some g =>
        rw [hg] at h
        simp only [Option.map, Option.some.injEq] at h
        subst h
        rw [List.length_map, List.length_range]
        unfold KMALLOC_MAX_SIZE wrap_u64 at hle
        unfold wrap_u64
        omega
    · cases h

theorem update_size_lt (size : Nat) (x : Int) (h : size < 18446744073709551616) :
    update_size size x < 18446744073709551616 := by
  unfold update_size wrap_u64
  split <;> omega

/-- The critical section of `vault_write` keeps the device well formed. -/
theorem vault_write_locked_wf (env : kenv) (dev : vault_dev) (buf : List Byte) (count : Nat)
    (f_pos : Int) (r : call_result) (hwf : dev.wf)
    (hcall : vault_write_locked env dev buf count f_pos = some r) : r.dev.wf := by
  obtain ⟨hq1, hq2, hs1, hs2, hsz, hdata⟩ := hwf
  rcases vault_write_locked_outcome env dev buf count f_pos r hcall with
    ⟨_, hr⟩ | ⟨_, _, hr⟩ | ⟨_, s, arr, slot, _, harr, _, _, _, hr⟩ |
    ⟨_, s, q, arr, slot, seg, _, _, harr, _, hslot, hseg, _, hlen, hr⟩
  · subst hr; exact ⟨hq1, hq2, hs1, hs2, hsz, hdata⟩
  · subst hr; exact ⟨hq1, hq2, hs1, hs2, hsz, hdata⟩
  · subst hr
    exact ⟨hq1, hq2, hs1, hs2, hsz, write_slots_wf env dev.data dev.quantum dev.qset arr hs1 hs2
      hdata harr⟩
  · obtain ⟨halen, hslots⟩ := write_slots_wf env dev.data dev.quantum dev.qset arr hs1 hs2
      hdata harr
    have hseglen := write_seg_length env slot dev.quantum seg hq1 hq2
      (hslots slot (List.getElem?_mem hslot)) hseg
    have hdata' : data_wf dev.quantum dev.qset (some (arr.set (wrap_s32 s).toNat (some
        (seg_store seg (wrap_s32 q).toNat buf
          (clamp_quantum count dev.quantum (wrap_s32 q)))))) := by
      simp only [data_wf, List.length_set]
      refine ⟨halen, ?_⟩
      intro sl hmem
      rcases List.mem_or_eq_of_mem_set hmem with h | h
      · exact hslots sl h
      · subst h
        simp only [slot_wf, seg_store_length seg buf _ _ hlen, hseglen]
    rcases hr with ⟨_, hr⟩ | ⟨_, hr⟩
    · subst hr; exact ⟨hq1, hq2, hs1, hs2, hsz, hdata'⟩
    · subst hr; exact ⟨hq1, hq2, hs1, hs2, update_size_lt _ _ hsz, hdata'⟩

theorem down_wf (dev : vault_dev) (h : dev.wf) : (down dev).wf := h

theorem up_wf (dev : vault_dev) (h : dev.wf) : (up dev).wf := h

/-- A call of `vault_write` leaves a well-formed device well formed, however it
ends. -/
theorem vault_write_wf (env : kenv) (dev : vault_dev) (buf : List Byte) (count : Nat)
    (f_pos : Int) (r : call_result) (hwf : dev.wf)
    (hcall : vault_write env dev buf count f_pos = some r) : r.dev.wf := by
  unfold vault_write at hcall
  split at hcall
  · cases hcall; exact hwf
  · cases hl : vault_write_locked env (down dev) buf count f_pos with
    | none => rw [hl] at hcall; cases hcall
    | some r0 =>
      rw [hl] at hcall
      simp only [Option.map, Option.some.injEq] at hcall
      subst hcall
      exact up_wf _ (vault_write_locked_wf env (down dev) buf count f_pos r0 (down_wf dev hwf) hl)

/-- A call of `vault_read` never changes the device. -/
theorem vault_read_dev (env : kenv) (dev : vault_dev) (ucap count : Nat) (f_pos : Int)
    (r : call_result) (hcall : vault_read env dev ucap count f_pos = some r) : r.dev = dev := by
  unfold vault_read at hcall
  split at hcall
  · cases hcall; rfl
  · cases hl : vault_read_locked (down dev) ucap count f_pos with
    | none => rw [hl] at hcall; cases hcall
    | some r0 =>
      rw [hl] at hcall
      simp only [Option.map, Option.some.injEq] at hcall
      subst hcall
      have h0 : r0.dev = down dev := by
        unfold vault_read_locked at hl
        simp only at hl
        split at hl
        · cases hl; rfl
        · split at hl
          · split at hl
            · cases hl; rfl
            · split at hl
              · cases hl
              · split at hl
                · cases hl
                · cases hl; rfl
                · split at hl
                  · cases hl
                  · split at hl
                    · rw [← Option.some.inj hl]
                    · rw [← Option.some.inj hl]
          · cases hl
      simp only [h0, up_down]

theorem write_within_capacity (F Q n c : Nat) (hs : F / Q < n) (hc : F % Q + c ≤ Q) :
    F + c ≤ Q * n := by
  have h1 := Nat.div_add_mod F Q
  have h2 : Q * (F / Q + 1) ≤ Q * n := Nat.mul_le_mul_left Q hs
  rw [Nat.mul_succ] at h2
  omega

/-- The size after the critical section of `vault_write` on a well-formed device
with a positive segment size: unchanged, or raised to the end of the written
range, which lies within the capacity. -/
theorem vault_write_locked_size_pos (env : kenv) (data : Option (List (Option (List Byte))))
    (Q : Nat) (qset : Int) (size : Nat) (sem : Int) (buf : List Byte) (count : Nat) (F : Nat)
    (r : call_result) (hwf : (⟨data, Q, qset, size, sem⟩ : vault_dev).wf) (hQ : 0 < Q)
    (hcall : vault_write_locked env ⟨data, Q, qset, size, sem⟩ buf count F = some r) :
    r.dev.quantum = Q ∧ r.dev.qset = qset ∧
    (r.dev.size = size ∨
      (r.dev.size = max size (F + min count (Q - F % Q)) ∧
        ((F + min count (Q - F % Q) : Nat) : Int) ≤ (Q : Int) * qset)) := by
  obtain ⟨hq1, hq2, hs1, hs2, hsz, hdata⟩ := hwf
  simp only at hq1 hq2 hs1 hs2 hsz hdata
  by_cases hF : (F : Int) < wrap_s32 ((Q : Int) * qset)
  · rw [vault_write_locked_eq env data Q qset size sem buf count F hQ (by omega) hF] at hcall
    cases harr : write_slots env data qset with
    | none =>
      rw [harr] at hcall
      cases hcall
      exact ⟨rfl, rfl, Or.inl rfl⟩
    | some arr =>
      rw [harr] at hcall
      simp only at hcall
      cases hslot : arr[F / Q]? with
      | none => rw [hslot] at hcall; cases hcall
      | some slot =>
        rw [hslot] at hcall
        simp only at hcall
        cases hseg : write_seg env slot Q with
        | none =>
          rw [hseg] at hcall
          cases hcall
          exact ⟨rfl, rfl, Or.inl rfl⟩
        | some seg =>
          rw [hseg] at hcall
          simp only at hcall
          split at hcall
          · cases hcall
          · split at hcall
            · cases hcall
              exact ⟨rfl, rfl, Or.inl rfl⟩
            · rw [← Option.some.inj hcall]
              refine ⟨rfl, rfl, Or.inr ⟨rfl, ?_⟩⟩
              obtain ⟨halen, _⟩ := write_slots_wf env data Q qset arr hs1 hs2 hdata harr
              have hin : F / Q < arr.length := by
                rcases Nat.lt_or_ge (F / Q) arr.length with h | h
                · exact h
                · rw [List.getElem?_eq_none h] at hslot; cases hslot
              have hmod : F % Q < Q := Nat.mod_lt _ hQ
              have hcap := write_within_capacity F Q arr.length (min count (Q - F % Q)) hin
                (by omega)
              rw [← halen]
              exact_mod_cast hcap
  · unfold vault_write_locked at hcall
    simp only at hcall
    rw [if_pos (not_lt.mp hF)] at hcall
    cases hcall
    exact ⟨rfl, rfl, Or.inl rfl⟩

/-- On a well-formed device whose segment size is not positive the critical
section of `vault_write` stores nothing: the sizing fields are as before. -/
theorem vault_write_locked_size_nonpos (env : kenv) (dev : vault_dev) (buf : List Byte)
    (count : Nat) (f_pos : Int) (r : call_result) (hwf : dev.wf) (hq : ¬ 0 < dev.quantum)
    (hcall : vault_write_locked env dev buf count f_pos = some r) :
    r.dev.quantum = dev.quantum ∧ r.dev.qset = dev.qset ∧ r.dev.size = dev.size := by
  obtain ⟨hq1, hq2, hs1, hs2, hsz, hdata⟩ := hwf
  rcases vault_write_locked_outcome env dev buf count f_pos r hcall with
    ⟨_, hr⟩ | ⟨_, _, hr⟩ | ⟨_, s, arr, slot, _, harr, _, _, _, hr⟩ |
    ⟨_, s, q, arr, slot, seg, hs, _, harr, _, hslot, hseg, _, _, _⟩
  · rw [hr]; exact ⟨rfl, rfl, rfl⟩
  · rw [hr]; exact ⟨rfl, rfl, rfl⟩
  · rw [hr]; exact ⟨rfl, rfl, rfl⟩
  · exfalso
    obtain ⟨_, hslots⟩ := write_slots_wf env dev.data dev.quantum dev.qset arr hs1 hs2 hdata harr
    have hseglen := write_seg_length env slot dev.quantum seg hq1 hq2
      (hslots slot (List.getElem?_mem hslot)) hseg
    have hqne : dev.quantum ≠ 0 := by
      intro h
      unfold c_div at hs
      rw [if_pos (Or.inl h)] at hs
      cases hs
    have h0 : (0 : Int) ≤ (seg.length : Int) := Int.ofNat_zero_le _
    omega

/-- The critical section of `vault_write` at a non-negative position keeps the
driver's invariant. -/
theorem vault_write_locked_inv (env : kenv) (dev : vault_dev) (buf : List Byte) (count : Nat)
    (f_pos : Int) (r : call_result) (hinv : dev.inv) (h0 : 0 ≤ f_pos)
    (hcall : vault_write_locked env dev buf count f_pos = some r) : r.dev.inv := by
  refine ⟨vault_write_locked_wf env dev buf count f_pos r hinv.1 hcall, ?_⟩
  obtain ⟨hwf, hsize⟩ := hinv
  by_cases hq : 0 < dev.quantum
  · obtain ⟨data, quantum, qset, size, sem⟩ := dev
    lift quantum to ℕ using le_of_lt hq with Q
    lift f_pos to ℕ using h0 with F
    have hQ : 0 < Q := by exact_mod_cast hq
    obtain ⟨g1, g2, g3⟩ :=
      vault_write_locked_size_pos env data Q qset size sem buf count F r hwf hQ hcall
    intro hpos
    rw [g1, g2]
    refine ⟨hq, ?_⟩
    rcases g3 with g | ⟨g, hcap⟩
    · rw [g] at hpos ⊢
      exact (hsize hpos).2
    · rw [g]
      rcases Nat.eq_zero_or_pos size with h | h
      · rw [h, Nat.zero_max]
        exact hcap
      · have h1 : ((size : Nat) : Int) ≤ (Q : Int) * qset := (hsize h).2
        omega
  · obtain ⟨g1, g2, g3⟩ := vault_write_locked_size_nonpos env dev buf count f_pos r hwf hq hcall
    rw [g1, g2, g3]
    exact hsize

/-- A call of `vault_write` at a non-negative position keeps the driver's
invariant, however it ends. -/
theorem vault_write_inv (env : kenv) (dev : vault_dev) (buf : List Byte) (count : Nat)
    (f_pos : Int) (r : call_result) (hinv : dev.inv) (h0 : 0 ≤ f_pos)
    (hcall : vault_write env dev buf count f_pos = some r) : r.dev.inv := by
  unfold vault_write at hcall
  split at hcall
  · cases hcall; exact hinv
  · cases hl : vault_write_locked env (down dev) buf count f_pos with
    | none => rw [hl] at hcall; cases hcall
    | some r0 =>
      rw [hl] at hcall
      simp only [Option.map, Option.some.injEq] at hcall
      subst hcall
      have h : r0.dev.inv := vault_write_locked_inv env (down dev) buf count f_pos r0 hinv h0 hl
      exact h

/-- A freshly initialised device satisfies the invariant when the module
parameters are in the range of `int`. -/
theorem vault_init_dev_inv (g : vault_globals)
    (h1 : -2147483648 ≤ g.vault_quantum) (h2 : g.vault_quantum < 2147483648)
    (h3 : -2147483648 ≤ g.vault_qset) (h4 : g.vault_qset < 2147483648) :
    (vault_init_dev g).inv :=
  ⟨⟨h1, h2, h3, h4, (by decide : (0 : Nat) < 18446744073709551616), trivial⟩,
    fun h => absurd h (lt_irrefl _)⟩

/-- The device left by `vault_trim` satisfies the invariant when the module
parameters are in the range of `int`. -/
theorem vault_trim_inv (g : vault_globals) (dev : vault_dev) (t : Int × vault_dev)
    (h1 : -2147483648 ≤ g.vault_quantum) (h2 : g.vault_quantum < 2147483648)
    (h3 : -2147483648 ≤ g.vault_qset) (h4 : g.vault_qset < 2147483648)
    (hcall : vault_trim g dev = some t) : t.2.inv := by
  unfold vault_trim at hcall
  simp only at hcall
  split at hcall
  · split at hcall
    · cases hcall
    · cases hcall
      exact ⟨⟨h1, h2, h3, h4, (by decide : (0 : Nat) < 18446744073709551616), trivial⟩,
    fun h => absurd h (lt_irrefl _)⟩
  · cases hcall
    exact ⟨⟨h1, h2, h3, h4, (by decide : (0 : Nat) < 18446744073709551616), trivial⟩,
    fun h => absurd h (lt_irrefl _)⟩

/-- The device left by `vault_open` satisfies the invariant when the device it
was given does and the module parameters are in the range of `int`. -/
theorem vault_open_inv (g : vault_globals) (env : kenv) (f_flags : Nat) (dev : vault_dev)
    (t : Int × vault_dev) (hinv : dev.inv)
    (h1 : -2147483648 ≤ g.vault_quantum) (h2 : g.vault_quantum < 2147483648)
    (h3 : -2147483648 ≤ g.vault_qset) (h4 : g.vault_qset < 2147483648)
    (hcall : vault_open g env f_flags dev = some t) : t.2.inv := by
  unfold vault_open at hcall
  split at hcall
  · split at hcall
    · cases hcall; exact hinv
    · cases ht : vault_trim g (down dev) with
      | none => rw [ht] at hcall; cases hcall
      | some t0 =>
        rw [ht] at hcall
        simp only [Option.map, Option.some.injEq] at hcall
        subst hcall
        have h : t0.2.inv := vault_trim_inv g (down dev) t0 h1 h2 h3 h4 ht
        exact h
  · cases hcall; exact hinv

/-! ## Seeking -/

/-- When the requested position is representable, `vault_llseek` tests and
stores exactly that position. -/
theorem vault_llseek_exact (dev : vault_dev) (f_pos off whence : Int)
    (hw : whence = 0 ∨ whence = 1 ∨ whence = 2)
    (hlo : -9223372036854775808 ≤ llseek_target dev f_pos off whence)
    (hhi : llseek_target dev f_pos off whence < 9223372036854775808) :
    vault_llseek dev f_pos off whence =
      if llseek_target dev f_pos off whence < 0 then ⟨-EINVAL, dev, f_pos, []⟩
      else ⟨llseek_target dev f_pos off whence, dev, llseek_target dev f_pos off whence, []⟩ := by
  rcases hw with h | h | h
  · subst h
    simp only [vault_llseek, llseek_target, if_true]
  · subst h
    have ht : llseek_target dev f_pos off 1 = f_pos + off := by
      simp only [llseek_target, one_ne_zero, if_false, if_true]
    rw [ht] at hlo hhi ⊢
    simp only [vault_llseek, one_ne_zero, if_false, if_true, wrap_s64_id _ hlo hhi]
  · subst h
    have ht : llseek_target dev f_pos off 2 = (dev.size : Int) + off := by
      simp only [llseek_target, OfNat.ofNat_ne_zero, OfNat.ofNat_ne_one, if_false]
    rw [ht] at hlo hhi ⊢
    simp only [vault_llseek, OfNat.ofNat_ne_zero, OfNat.ofNat_ne_one, if_false, if_true,
      wrap_s64_id _ hlo hhi]

/-- No call of `vault_llseek` changes the device. -/
theorem vault_llseek_dev (dev : vault_dev) (f_pos off whence : Int) :
    (vault_llseek dev f_pos off whence).dev = dev := by
  unfold vault_llseek
  simp only
  split
  · rfl
  · split <;> rfl

/-! ## Further facts about single calls -/

theorem slot_at_mk (data : Option (List (Option (List Byte)))) (Q : Nat) (qset : Int)
    (size : Nat) (sem : Int) (p : Nat) :
    (⟨data, Q, qset, size, sem⟩ : vault_dev).slot_at p =
      match data with
      | none => none
      | some arr => arr[p / Q]? := by
  unfold vault_dev.slot_at
  simp only [Int.toNat_ofNat]

/-- The size after the critical section of `vault_write`, by the way it ends. -/
theorem vault_write_locked_size (env : kenv) (dev : vault_dev) (buf : List Byte) (count : Nat)
    (f_pos : Int) (r : call_result) (h0 : 0 ≤ f_pos) (h63 : f_pos < 9223372036854775808)
    (hc : count < 9223372036854775808)
    (hcall : vault_write_locked env dev buf count f_pos = some r) :
    (r.retval < 0 → r.dev.size = dev.size) ∧
    (wrap_s32 (dev.quantum * dev.qset) ≤ f_pos → r.retval = 0 ∧ r.dev.size = dev.size) ∧
    (f_pos < wrap_s32 (dev.quantum * dev.qset) → 0 ≤ r.retval →
      (r.dev.size : Int) = max (dev.size : Int) (f_pos + r.retval)) := by
  have hENOMEM : ¬ (0 ≤ -ENOMEM) := by decide
  have hEFAULT : ¬ (0 ≤ -EFAULT) := by decide
  rcases vault_write_locked_outcome env dev buf count f_pos r hcall with
    ⟨hfull, hr⟩ | ⟨hlt, _, hr⟩ | ⟨hlt, _, _, _, _, _, _, _, _, hr⟩ |
    ⟨hlt, s, q, _, _, _, _, _, _, _, _, _, _, _, ⟨_, hr⟩ | ⟨_, hr⟩⟩
  · subst hr
    exact ⟨fun _ => rfl, fun _ => ⟨rfl, rfl⟩, fun h => absurd hfull (not_le.mpr h)⟩
  · subst hr
    exact ⟨fun _ => rfl, fun h => absurd hlt (not_lt.mpr h), fun _ h => absurd h hENOMEM⟩
  · subst hr
    exact ⟨fun _ => rfl, fun h => absurd hlt (not_lt.mpr h), fun _ h => absurd h hENOMEM⟩
  · subst hr
    exact ⟨fun _ => rfl, fun h => absurd hlt (not_lt.mpr h), fun _ h => absurd h hEFAULT⟩
  · have hle := clamp_quantum_le count dev.quantum (wrap_s32 q)
    generalize clamp_quantum count dev.quantum (wrap_s32 q) = c at hle hr
    subst hr
    simp only
    refine ⟨?_, fun h => absurd hlt (not_lt.mpr h), ?_⟩
    · intro hneg
      unfold update_size wrap_u64
      unfold wrap_s64 at hneg ⊢
      split <;> omega
    · intro _ hpos
      unfold update_size wrap_u64
      unfold wrap_s64 at hpos ⊢
      split <;> omega

theorem vault_trim_wf (g : vault_globals) (dev : vault_dev) (hwf : dev.wf) :
    vault_trim g dev = some (0, ⟨none, g.vault_quantum, g.vault_qset, 0, dev.sem⟩) := by
  obtain ⟨data, quantum, qset, size, sem⟩ := dev
  have hdata : data_wf quantum qset data := hwf.2.2.2.2.2
  unfold vault_trim
  cases data with
  | none => rfl
  | some arr =>
    have hlen : (arr.length : Int) = qset := hdata.1
    simp only [hlen, lt_self_iff_false, if_false]

theorem vault_read_empty (env : kenv) (dev : vault_dev) (ucap count : Nat) (f_pos : Int)
    (hsize : dev.size = 0) :
    ∃ r, vault_read env dev ucap count f_pos = some r ∧ r.ubuf = [] ∧ r.dev = dev ∧
      r.f_pos = f_pos ∧ (env.intr = false → r.retval = 0) := by
  cases hi : env.intr with
  | true =>
    exact ⟨_, vault_read_intr env dev ucap count f_pos hi, rfl, rfl, rfl, fun h => by cases h⟩
  | false =>
    exact ⟨_, vault_read_eof env dev ucap count f_pos hi (by rw [hsize]; exact Nat.zero_le _),
      rfl, rfl, rfl, fun _ => rfl⟩

/-! ## The claims -/

/-- Claim C1 (round trip).  On a well-formed device with `quantum > 0`, whenever a
byte sequence `b` has been written at `offset` by repeating `vault_write` until
every byte is consumed, repeating `vault_read` from `offset` for `len(b)` bytes
(semaphore acquired at each call) returns exactly `b`, in at most `len(b)`
calls.  Moreover the write loop does consume every byte, in at most `len(b)`
calls, when the semaphore and memory are granted at each call and
`offset + len(b) ≤ quantum × qset` with `quantum × qset` representable as an
`int`. -/
theorem round_trip (wenvs renvs : Nat → kenv) (dev : vault_dev) (b : List Byte) (offset : Nat)
    (hwf : dev.wf) (hq : 0 < dev.quantum) (hr : ∀ i, (renvs i).intr = false) :
    (∀ fuel dev' pos', write_all wenvs fuel dev b offset = some (dev', pos') →
      read_all renvs b.length dev' offset b.length = some b) ∧
    ((∀ i, (wenvs i).grants dev) → dev.quantum * dev.qset < 2147483648 →
      ((offset + b.length : Nat) : Int) ≤ dev.quantum * dev.qset →
      ∃ dev' pos', write_all wenvs b.length dev b offset = some (dev', pos')) := by
  constructor
  · intro fuel dev' pos' hw
    obtain ⟨g1, g2, _, _, _, _, g7, g8, _⟩ := write_all_post wenvs fuel dev b offset dev' pos' hwf hq hw
    cases b with
    | nil => rfl
    | cons c cs =>
      exact read_all_bytes renvs hr _ _ dev' offset (c :: cs) g1 (by rw [g2]; exact hq) rfl
        (le_refl _) (g7 (by simp)) g8
  · intro hg hno hcap
    exact write_all_total wenvs b.length dev b offset hwf hq hg hno hcap (le_refl _)

/-- An instance of `round_trip`: six bytes written at offset 2 of a device with
segments of 4 bytes, in two calls, and read back. -/
theorem round_trip_witness :
    dev_small.wf ∧ 0 < dev_small.quantum ∧
    write_all (fun _ => env_granted) 6 dev_small [1, 2, 3, 4, 5, 6] (2 : Nat) =
      some (dev_small_written, 8) ∧
    read_all (fun _ => env_granted) 6 dev_small_written (2 : Nat) 6 = some [1, 2, 3, 4, 5, 6] :=
  ⟨by decide, by decide, by decide,
    (round_trip (fun _ => env_granted) (fun _ => env_granted) dev_small [1, 2, 3, 4, 5, 6] 2
      (by decide) (by decide) (fun _ => rfl)).1 6 dev_small_written 8 (by decide)⟩

/-- Claim C3 (short-read contract).  On a device satisfying the driver's
invariant, a `vault_read` of `n` bytes at an offset below `size` (semaphore
acquired, user buffer with room for the request) returns 0 bytes when there is
no segment array or the segment `offset / quantum` is absent, and otherwise
returns exactly `min(n, size − offset, quantum − offset mod quantum)` bytes,
which are the bytes of that segment from `offset mod quantum` on; it reads
neither past `size` nor past the end of the segment, and leaves the device as
it was. -/
theorem short_read_contract (env : kenv) (dev : vault_dev) (ucap n offset : Nat)
    (hinv : dev.inv) (hi : env.intr = false) (hlt : offset < dev.size)
    (hn : n < 9223372036854775808) (hu : n ≤ ucap) :
    ∃ r, vault_read env dev ucap n offset = some r ∧ r.dev = dev ∧
      ((dev.slot_at offset = none ∨ dev.slot_at offset = some none) →
        r.retval = 0 ∧ r.ubuf = [] ∧ r.f_pos = offset) ∧
      (∀ seg, dev.slot_at offset = some (some seg) →
        r.retval = min (n : Int)
          (min ((dev.size : Int) - offset) (dev.quantum - (offset : Int) % dev.quantum)) ∧
        r.ubuf = (seg.drop (offset % dev.quantum.toNat)).take r.retval.toNat ∧
        (r.ubuf.length : Int) = r.retval ∧
        r.f_pos = (offset : Int) + r.retval ∧
        (offset : Int) + r.retval ≤ dev.size ∧
        (offset : Int) % dev.quantum + r.retval ≤ dev.quantum) := by
  obtain ⟨data, quantum, qset, size, sem⟩ := dev
  obtain ⟨hwf, hsize⟩ := hinv
  simp only at hlt hsize ⊢
  obtain ⟨hq, hcap⟩ := hsize (by omega)
  obtain ⟨hq1, hq2, hs1, hs2, hsz, hdata⟩ := hwf
  simp only at hq1 hq2 hs1 hs2 hsz hdata
  lift quantum to ℕ using le_of_lt hq with Q
  have hQ : 0 < Q := by omega
  have hqs : 0 ≤ qset := by
    by_contra h
    have : (Q : Int) * qset ≤ 0 :=
      mul_nonpos_of_nonneg_of_nonpos (le_of_lt hq) (le_of_lt (not_le.mp h))
    omega
  lift qset to ℕ using hqs with qs
  have hFc : offset < Q * qs := by
    have : (offset : Int) < ((Q * qs : Nat) : Int) := by push_cast; omega
    exact_mod_cast this
  have hs : offset / Q < qs := Nat.div_lt_of_lt_mul hFc
  have hprod : Q * qs ≤ 2147483648 * 2147483648 := Nat.mul_le_mul (by omega) (by omega)
  have hmod : offset % Q < Q := Nat.mod_lt _ hQ
  have hcast : ((offset : Int) % (Q : Int)) = ((offset % Q : Nat) : Int) := by
    rw [Int.ofNat_emod]
  simp only [slot_at_mk, Int.toNat_ofNat, hcast]
  cases data with
  | none =>
    refine ⟨_, vault_read_absent env none Q qs size sem ucap n offset hi hQ (by omega) hlt hsz
      (by omega) (by omega) (Or.inl rfl), rfl, ?_, ?_⟩
    · intro _; exact ⟨rfl, rfl, rfl⟩
    · intro seg h; cases h
  | some arr =>
    have halen : arr.length = qs := by exact_mod_cast hdata.1
    have hin : offset / Q < arr.length := by omega
    have hslot : arr[offset / Q]? = some (arr[offset / Q]) := List.getElem?_eq_getElem hin
    cases hsl : arr[offset / Q] with
    | none =>
      rw [hsl] at hslot
      refine ⟨_, vault_read_absent env (some arr) Q qs size sem ucap n offset hi hQ (by omega)
        hlt hsz (by omega) (by omega) (Or.inr ⟨arr, rfl, hslot⟩), rfl, ?_, ?_⟩
      · intro _; exact ⟨rfl, rfl, rfl⟩
      · intro seg h
        simp only [hslot] at h
        cases h
    | some seg =>
      rw [hsl] at hslot
      have hseg : seg.length = Q := Int.ofNat.inj (hdata.2 _ (List.getElem?_mem hslot))
      refine ⟨_, vault_read_present env arr seg Q qs size sem ucap n offset hi hQ (by omega) hlt
        hsz (by omega) (by omega) hslot hseg hu, rfl, ?_, ?_⟩
      · intro h
        simp only [hslot] at h
        rcases h with h | h <;> cases h
      · intro seg' h
        simp only [hslot, Option.some.injEq] at h
        subst h
        simp only [Int.toNat_ofNat, List.length_take, List.length_drop]
        refine ⟨by omega, trivial, by omega, by push_cast; omega, by omega, by omega⟩

/-- An instance of `short_read_contract`: ten bytes requested at offset 2 of a
device of size 8 with segments of 4 bytes; the call returns 2. -/
theorem short_read_contract_witness :
    dev_small_written.inv ∧ (2 : Nat) < dev_small_written.size ∧
    ∃ r, vault_read env_granted dev_small_written 10 10 ((2 : Nat) : Int) = some r ∧
      r.retval = 2 ∧ r.ubuf = [1, 2] := by
  obtain ⟨r, h1, _, _, h4⟩ := short_read_contract env_granted dev_small_written 10 10 2
    (by decide) rfl (by decide) (by decide) (by decide)
  obtain ⟨g1, g2, _⟩ := h4 [170, 170, 1, 2] (by decide)
  refine ⟨by decide, by decide, r, h1, ?_, ?_⟩
  · rw [g1]; decide
  · have e : r.retval = 2 := by rw [g1]; decide
    rw [g2, e]; decide

/-- Claim C4 (concrete scenario).  On an empty device with `quantum = 4000` and
`qset = 1000`, with the semaphore and memory granted: writing 5000 bytes at
offset 0 returns 4000, writing the remaining 1000 bytes at offset 4000 returns
1000, the size is then 5000; reading 5000 bytes at offset 0 returns 4000 bytes,
the following read at offset 4000 (of the 1000 bytes left, or more) returns
1000 bytes, and the two results concatenated are the 5000 bytes written. -/
theorem concrete_scenario (e1 e2 e3 e4 : kenv) (sem : Int) (b : List Byte) (n2 : Nat)
    (hb : b.length = 5000)
    (h1 : e1.grants ⟨none, 4000, 1000, 0, sem⟩) (h2 : e2.grants ⟨none, 4000, 1000, 0, sem⟩)
    (h3 : e3.intr = false) (h4 : e4.intr = false)
    (hn2 : 1000 ≤ n2) (hn2' : n2 < 9223372036854775808) :
    ∃ w1 w2 r1 r2,
      vault_write e1 ⟨none, 4000, 1000, 0, sem⟩ b 5000 0 = some w1 ∧
      w1.retval = 4000 ∧ w1.f_pos = 4000 ∧
      vault_write e2 w1.dev (b.drop 4000) 1000 w1.f_pos = some w2 ∧
      w2.retval = 1000 ∧ w2.f_pos = 5000 ∧ w2.dev.size = 5000 ∧
      vault_read e3 w2.dev 5000 5000 0 = some r1 ∧
      r1.retval = 4000 ∧ r1.ubuf.length = 4000 ∧ r1.f_pos = 4000 ∧
      vault_read e4 r1.dev n2 n2 r1.f_pos = some r2 ∧
      r2.retval = 1000 ∧ r2.ubuf.length = 1000 ∧
      r1.ubuf ++ r2.ubuf = b := by
  have hwf0 : (⟨none, ((4000 : Nat) : Int), 1000, 0, sem⟩ : vault_dev).wf := by
    refine ⟨?_, ?_, ?_, ?_, ?_, trivial⟩ <;> simp only <;> decide
  -- first write
  obtain ⟨w1, hc1, hr1⟩ := vault_write_granted e1 none 4000 1000 0 sem b 5000 0 hwf0
    (by decide) h1 (by decide) (by decide) (by omega)
  have hk1 : min 5000 (4000 - 0 % 4000) = 4000 := by decide
  rw [hk1] at hr1
  obtain ⟨data1, hw1, _, hwf1, _, hbytes1, _⟩ := vault_write_post e1 none 4000 1000 0 sem b 5000 0
    w1 hwf0 (by decide) hc1 (Or.inl (by rw [hr1]; decide))
  rw [hk1] at hw1 hbytes1
  have hsz1 : max 0 (0 + 4000) = 4000 := by decide
  rw [hsz1] at hw1
  subst hw1
  simp only [Nat.zero_add] at hbytes1
  -- second write
  have hlen2 : (b.drop 4000).length = 1000 := by rw [List.length_drop, hb]
  obtain ⟨w2, hc2, hr2⟩ := vault_write_granted e2 (some data1) 4000 1000 4000 sem (b.drop 4000)
    1000 4000 hwf1 (by decide) (grants_congr e2 _ _ rfl rfl h2) (by decide) (by decide)
    (by omega)
  have hk2 : min 1000 (4000 - 4000 % 4000) = 1000 := by decide
  rw [hk2] at hr2
  obtain ⟨data2, hw2, _, hwf2, _, hbytes2, hframe2⟩ := vault_write_post e2 (some data1) 4000 1000
    4000 sem (b.drop 4000) 1000 4000 w2 hwf1 (by decide) hc2 (Or.inl (by rw [hr2]; decide))
  rw [hk2] at hw2 hbytes2 hframe2
  have hsz2 : max 4000 (4000 + 1000) = 5000 := by decide
  rw [hsz2] at hw2
  subst hw2
  -- bytes of the device after both writes
  have hall : ∀ i, i < 5000 →
      (⟨some data2, ((4000 : Nat) : Int), 1000, 5000, sem⟩ : vault_dev).byte_at i = b[i]? := by
    intro i hi
    by_cases h : i < 4000
    · have hsome : b[i]? = some (b[i]) := List.getElem?_eq_getElem (by omega)
      rw [hsome]
      exact hframe2 i _ (Or.inl h) (by rw [hbytes1 i h, hsome])
    · have := hbytes2 (i - 4000) (by omega)
      rw [List.getElem?_drop] at this
      have e1 : 4000 + (i - 4000) = i := by omega
      rw [e1] at this
      exact this
  -- first read
  have hb0 : b[0]? = some (b[0]) := List.getElem?_eq_getElem (by omega)
  obtain ⟨u1, hread1, hu1⟩ := vault_read_bytes e3 (some data2) 4000 1000 5000 sem 5000 5000 0
    (b[0]) hwf2 (by decide) h3 (by decide) (le_refl _) (by decide)
    (by rw [hall 0 (by decide), hb0])
  have hk3 : min (min 5000 (5000 - 0)) (4000 - 0 % 4000) = 4000 := by decide
  rw [hk3] at hread1 hu1
  have hu1' : u1 = b.take 4000 := by
    apply List.ext_getElem?
    intro j
    rw [hu1 j, List.getElem?_take]
    split
    · rw [Nat.zero_add]; exact hall j (by omega)
    · rfl
  -- second read
  have hb4 : b[4000]? = some (b[4000]) := List.getElem?_eq_getElem (by omega)
  obtain ⟨u2, hread2, hu2⟩ := vault_read_bytes e4 (some data2) 4000 1000 5000 sem n2 n2 4000
    (b[4000]) hwf2 (by decide) h4 (by decide) (le_refl _) (by omega)
    (by rw [hall 4000 (by decide), hb4])
  have hk4 : min (min n2 (5000 - 4000)) (4000 - 4000 % 4000) = 1000 := by
    have e1 : 4000 - 4000 % 4000 = 4000 := by decide
    have e2 : 5000 - 4000 = 1000 := by decide
    rw [e1, e2]; omega
  rw [hk4] at hread2 hu2
  have hu2' : u2 = b.drop 4000 := by
    apply List.ext_getElem?
    intro j
    rw [hu2 j, List.getElem?_drop]
    split
    · exact hall _ (by omega)
    · rename_i hj
      symm
      exact List.getElem?_eq_none (by omega)
  refine ⟨_, _, _, _, hc1, rfl, rfl, hc2, rfl, rfl, rfl, hread1, rfl, ?_, rfl, hread2, rfl, ?_, ?_⟩
  · show u1.length = 4000
    rw [hu1', List.length_take, hb]; decide
  · show u2.length = 1000
    rw [hu2', hlen2]
  · show u1 ++ u2 = b
    rw [hu1', hu2', List.take_append_drop]

/-- An instance of `concrete_scenario`: 5000 bytes of value 7 on a fresh device
with the default parameters. -/
theorem concrete_scenario_witness :
    ∃ w1 w2 r1 r2,
      vault_write env_granted ⟨none, 4000, 1000, 0, 1⟩ (List.replicate 5000 7) 5000 0 = some w1 ∧
      w1.retval = 4000 ∧ w1.f_pos = 4000 ∧
      vault_write env_granted w1.dev ((List.replicate 5000 7).drop 4000) 1000 w1.f_pos = some w2 ∧
      w2.retval = 1000 ∧ w2.f_pos = 5000 ∧ w2.dev.size = 5000 ∧
      vault_read env_granted w2.dev 5000 5000 0 = some r1 ∧
      r1.retval = 4000 ∧ r1.ubuf.length = 4000 ∧ r1.f_pos = 4000 ∧
      vault_read env_granted r1.dev 1000 1000 r1.f_pos = some r2 ∧
      r2.retval = 1000 ∧ r2.ubuf.length = 1000 ∧
      r1.ubuf ++ r2.ubuf = List.replicate 5000 7 :=
  concrete_scenario env_granted env_granted env_granted env_granted 1 (List.replicate 5000 7) 1000
    (List.length_replicate _ _) (by decide) (by decide) rfl rfl (by decide) (by decide)

/-- Claim C5 (size update).  For every device and every call of `vault_write`
at a file position and for a count that are non-negative in their signed
64-bit types: a call that is within capacity and returns `written ≥ 0` (in
particular every call that returns `written > 0`) leaves
`size = max(size before, offset + written)`; a call that fails (negative return
value) and a call that finds the offset out of capacity (returning 0 when the
semaphore was acquired) leave `size` unchanged. -/
theorem write_updates_size (env : kenv) (dev : vault_dev) (buf : List Byte) (count : Nat)
    (f_pos : Int) (r : call_result) (h0 : 0 ≤ f_pos) (h63 : f_pos < 9223372036854775808)
    (hc : count < 9223372036854775808)
    (hcall : vault_write env dev buf count f_pos = some r) :
    (0 < r.retval → (r.dev.size : Int) = max (dev.size : Int) (f_pos + r.retval)) ∧
    (f_pos < wrap_s32 (dev.quantum * dev.qset) → 0 ≤ r.retval →
      (r.dev.size : Int) = max (dev.size : Int) (f_pos + r.retval)) ∧
    (r.retval < 0 → r.dev.size = dev.size) ∧
    (wrap_s32 (dev.quantum * dev.qset) ≤ f_pos →
      r.dev.size = dev.size ∧ (env.intr = false → r.retval = 0)) := by
  unfold vault_write at hcall
  cases hi : env.intr with
  | true =>
    simp only [hi, if_true, Option.some.injEq] at hcall
    subst hcall
    have hneg : ¬ (0 ≤ -ERESTARTSYS) := by decide
    exact ⟨fun h => absurd (le_of_lt h) hneg, fun _ h => absurd h hneg, fun _ => rfl,
      fun _ => ⟨rfl, fun h => by cases h⟩⟩
  | false =>
    simp only [hi, Bool.false_eq_true, if_false] at hcall
    cases hl : vault_write_locked env (down dev) buf count f_pos with
    | none => rw [hl] at hcall; cases hcall
    | some r0 =>
      rw [hl] at hcall
      simp only [Option.map, Option.some.injEq] at hcall
      subst hcall
      obtain ⟨g1, g2, g3⟩ := vault_write_locked_size env (down dev) buf count f_pos r0 h0 h63 hc hl
      refine ⟨?_, fun h1 h2 => g3 h1 h2, fun h => g1 h, fun h => ⟨(g2 h).2, fun _ => (g2 h).1⟩⟩
      intro hpos
      rcases lt_or_le f_pos (wrap_s32 ((down dev).quantum * (down dev).qset)) with h | h
      · exact g3 h (le_of_lt hpos)
      · have := (g2 h).1
        simp only at hpos
        omega

/-- An instance of `write_updates_size`: a write of 2 bytes at offset 2 of an
empty device leaves size 4. -/
theorem write_updates_size_witness :
    (0 : Int) ≤ 2 ∧ (2 : Int) < wrap_s32 (dev_small.quantum * dev_small.qset) ∧
    ((4 : Nat) : Int) = max ((dev_small.size : Nat) : Int) (2 + 2) :=
  ⟨by decide, by decide,
    (write_updates_size env_granted dev_small [1, 2, 3, 4, 5, 6] 6 2
      ⟨2, ⟨some [some [170, 170, 1, 2], none, none], 4, 3, 4, 1⟩, 4, []⟩
      (by decide) (by decide) (by decide) (by decide)).2.1 (by decide) (by decide)⟩

/-- Where the out-of-capacity write behaves as specified: on every device whose
product `quantum × qset` is at least −2^31, so on every device whose `quantum` and
`qset` are both positive, however large, a `vault_write` (semaphore acquired) at any
offset `≥ quantum × qset` returns 0 and leaves the device (segment array, segments,
size, semaphore) and the file position unchanged, whatever the allocator would have
granted: no allocation takes place.  A product of 2^31 or more wraps to an `int`
below 2^31, which the offset still reaches. -/
theorem write_out_of_capacity (env : kenv) (dev : vault_dev) (buf : List Byte) (count : Nat)
    (f_pos : Int) (hi : env.intr = false)
    (hlo : -2147483648 ≤ dev.quantum * dev.qset)
    (hcap : dev.quantum * dev.qset ≤ f_pos) :
    vault_write env dev buf count f_pos = some ⟨0, dev, f_pos, []⟩ := by
  apply vault_write_full env dev buf count f_pos hi
  by_cases hhi : dev.quantum * dev.qset < 2147483648
  · rw [wrap_s32_id _ hlo hhi]
    exact hcap
  · have := wrap_s32_lt (dev.quantum * dev.qset)
    omega

/-- An instance of `write_out_of_capacity`: a write at offset 12 of a device of
capacity 12. -/
theorem write_out_of_capacity_witness :
    -2147483648 ≤ dev_small.quantum * dev_small.qset ∧
    dev_small.quantum * dev_small.qset ≤ 12 ∧
    vault_write env_granted dev_small [1, 2, 3] 3 12 = some ⟨0, dev_small, 12, []⟩ :=
  ⟨by decide, by decide,
    write_out_of_capacity env_granted dev_small [1, 2, 3] 3 12 rfl (by decide) (by decide)⟩

/-- An instance of `write_out_of_capacity` on a large device: with
`quantum = qset = 65536` the product 2^32 wraps to 0, and a write at offset 2^32
returns 0 and changes nothing. -/
theorem write_out_of_capacity_large :
    vault_write env_granted dev_overflow [7] 1 4294967296
      = some ⟨0, dev_overflow, 4294967296, []⟩ :=
  write_out_of_capacity env_granted dev_overflow [7] 1 4294967296 rfl (by decide) (by decide)

/-- C6 (out-of-capacity write): what the code does where the claim fails.  From the
compiled-in defaults, a privileged `VAULT_IOCTQUANTUM` with the argument −2147483647
(as an `unsigned long`), a privileged `VAULT_IOCTQSET` with the argument 2 and a
write-only `vault_open` leave the device `dev_negative` (`quantum = −2147483647`,
`qset = 2`, no data).  Its product −4294967294 wraps to the `int` 2, so a write at
offset 0, which is `≥ quantum × qset`, passes the capacity test, allocates the segment
array and fails with `-ENOMEM` on the segment, instead of returning 0 with the device
unchanged. -/
theorem write_out_of_capacity_overflow :
    (vault_init_module vault_globals_default 1).run vault_ioctl_h_spec
        [.ioctl (ioctl_env_admin 0) vault_ioctl_h_spec.VAULT_IOCTQUANTUM 18446744071562067969,
         .ioctl (ioctl_env_admin 0) vault_ioctl_h_spec.VAULT_IOCTQSET 2,
         .open 0 env_granted O_WRONLY]
      = some ⟨globals_negative, [dev_negative]⟩ ∧
    vault_open globals_negative env_granted O_WRONLY (vault_init_dev vault_globals_default) =
      some (0, dev_negative) ∧
    dev_negative.inv ∧
    dev_negative.quantum * dev_negative.qset ≤ 0 ∧
    vault_write env_granted dev_negative [7] 1 0 =
      some ⟨-ENOMEM, ⟨some [none, none], -2147483647, 2, 0, 1⟩, 0, []⟩ ∧
    vault_write env_granted dev_negative [7] 1 0 ≠ some ⟨0, dev_negative, 0, []⟩ := by
  decide

/-- Claim C7 (trim).  On every well-formed device `vault_trim` returns 0 and
leaves the device with no segment array, `size = 0`, and `quantum` / `qset`
equal to the current module parameters `vault_quantum` / `vault_qset`; a
`vault_read` at any offset with any length right after it returns no bytes (0
when the semaphore is acquired) and changes nothing; and trimming twice gives
the same state as trimming once. -/
theorem trim_resets (g : vault_globals) (dev : vault_dev) (hwf : dev.wf) :
    vault_trim g dev = some (0, ⟨none, g.vault_quantum, g.vault_qset, 0, dev.sem⟩) ∧
    (∀ (env : kenv) (ucap n : Nat) (f_pos : Int),
      ∃ r, vault_read env ⟨none, g.vault_quantum, g.vault_qset, 0, dev.sem⟩ ucap n f_pos = some r ∧
        r.ubuf = [] ∧ r.dev = ⟨none, g.vault_quantum, g.vault_qset, 0, dev.sem⟩ ∧
        r.f_pos = f_pos ∧ (env.intr = false → r.retval = 0)) ∧
    (vault_trim g dev).bind (fun t => vault_trim g t.2) = vault_trim g dev := by
  refine ⟨vault_trim_wf g dev hwf, ?_, ?_⟩
  · intro env ucap n f_pos
    exact vault_read_empty env _ ucap n f_pos rfl
  · rw [vault_trim_wf g dev hwf]
    rfl

/-- An instance of `trim_resets`: trimming a device that holds data, under the
default module parameters. -/
theorem trim_resets_witness :
    dev_small_written.wf ∧
    vault_trim vault_globals_default dev_small_written = some (0, ⟨none, 4000, 1000, 0, 1⟩) :=
  ⟨by decide, (trim_resets vault_globals_default dev_small_written (by decide)).1⟩

/-- Claim C8 (open write-only truncates).  On every well-formed device, in
particular one that holds written data: `vault_open` with access mode
`O_WRONLY` (semaphore acquired) returns 0 and leaves an empty device, on which a
`vault_read` at offset 0 with any length returns no bytes (0 when its semaphore
is acquired); `vault_open` with any other access mode returns 0 and leaves the
device (segment data, quantum, qset, size) unchanged. -/
theorem open_wronly_truncates (g : vault_globals) (env : kenv) (f_flags : Nat)
    (dev : vault_dev) (hwf : dev.wf) :
    (f_flags &&& O_ACCMODE = O_WRONLY → env.intr = false →
      vault_open g env f_flags dev =
        some (0, ⟨none, g.vault_quantum, g.vault_qset, 0, dev.sem⟩) ∧
      ∀ (renv : kenv) (ucap n : Nat),
        ∃ r, vault_read renv ⟨none, g.vault_quantum, g.vault_qset, 0, dev.sem⟩ ucap n 0 = some r ∧
          r.ubuf = [] ∧ (renv.intr = false → r.retval = 0)) ∧
    (f_flags &&& O_ACCMODE ≠ O_WRONLY → vault_open g env f_flags dev = some (0, dev)) := by
  constructor
  · intro hmode hi
    constructor
    · have hwf' : (down dev).wf := hwf
      unfold vault_open
      rw [if_pos hmode, vault_trim_wf g (down dev) hwf']
      simp only [hi, Bool.false_eq_true, if_false, Option.map, up, down, sub_add_cancel]
    · intro renv ucap n
      obtain ⟨r, h1, h2, _, _, h5⟩ := vault_read_empty renv
        ⟨none, g.vault_quantum, g.vault_qset, 0, dev.sem⟩ ucap n 0 rfl
      exact ⟨r, h1, h2, h5⟩
  · intro hmode
    unfold vault_open
    rw [if_neg hmode]

/-- Instances of `open_wronly_truncates`: opening a device that holds data with
`O_WRONLY` (1) and with `O_RDWR` (2). -/
theorem open_wronly_truncates_witness :
    dev_small_written.wf ∧ 1 &&& O_ACCMODE = O_WRONLY ∧
    vault_open vault_globals_default env_granted 1 dev_small_written =
      some (0, ⟨none, 4000, 1000, 0, 1⟩) ∧
    vault_open vault_globals_default env_granted 2 dev_small_written =
      some (0, dev_small_written) :=
  ⟨by decide, by decide,
    ((open_wronly_truncates vault_globals_default env_granted 1 dev_small_written
      (by decide)).1 (by decide) rfl).1,
    (open_wronly_truncates vault_globals_default env_granted 2 dev_small_written
      (by decide)).2 (by decide)⟩

/-- Claim C9 (sparse read).  For every device and every position `p ≥ size`
(a valid `loff_t`): `vault_llseek` to `p`, in any of the three modes, succeeds
and stores `p`; no call of `vault_llseek` changes the device; and a following
`vault_read` at `p` with any length returns no bytes (0 when the semaphore is
acquired) and leaves the position and the device unchanged, whether or not `p`
is below the capacity `quantum × qset`. -/
theorem sparse_read (dev : vault_dev) (p : Int) (hp : (dev.size : Int) ≤ p)
    (hp63 : p < 9223372036854775808) :
    (∀ f_pos off whence, (whence = 0 ∨ whence = 1 ∨ whence = 2) →
      llseek_target dev f_pos off whence = p →
      vault_llseek dev f_pos off whence = ⟨p, dev, p, []⟩) ∧
    (∀ f_pos off whence, (vault_llseek dev f_pos off whence).dev = dev) ∧
    (∀ (env : kenv) (ucap n : Nat),
      ∃ r, vault_read env dev ucap n p = some r ∧ r.ubuf = [] ∧ r.dev = dev ∧ r.f_pos = p ∧
        (env.intr = false → r.retval = 0)) := by
  have hp0 : 0 ≤ p := le_trans (Int.ofNat_zero_le _) hp
  refine ⟨?_, vault_llseek_dev dev, ?_⟩
  · intro f_pos off whence hw ht
    rw [vault_llseek_exact dev f_pos off whence hw (by rw [ht]; omega) (by rw [ht]; exact hp63),
      ht, if_neg (not_lt.mpr hp0)]
  · intro env ucap n
    cases hi : env.intr with
    | true =>
      exact ⟨_, vault_read_intr env dev ucap n p hi, rfl, rfl, rfl, fun h => by cases h⟩
    | false =>
      have heof : dev.size ≤ wrap_u64 p := by
        unfold wrap_u64
        omega
      exact ⟨_, vault_read_eof env dev ucap n p hi heof, rfl, rfl, rfl, fun _ => rfl⟩

/-- An instance of `sparse_read`: seeking to position 10 on a device of size 8
with capacity 12. -/
theorem sparse_read_witness :
    ((dev_small_written.size : Nat) : Int) ≤ 10 ∧
    vault_llseek dev_small_written 0 10 0 = ⟨10, dev_small_written, 10, []⟩ ∧
    vault_read env_granted dev_small_written 5 5 10 = some ⟨0, dev_small_written, 10, []⟩ :=
  ⟨by decide,
    (sparse_read dev_small_written 10 (by decide) (by decide)).1 0 10 0 (Or.inl rfl) (by decide),
    by decide⟩

/-- Claim C10 (seek), amended.  For every current position, delta and mode in
{SEEK_SET, SEEK_CUR, SEEK_END}, when the exact new position (`delta`,
`currentPos + delta`, `size + delta`) is representable as a `loff_t`,
`vault_llseek` fails with `-EINVAL` and leaves the position unchanged if and
only if the new position is negative, and otherwise returns the new position
and stores it as the position; the device is never changed. -/
theorem llseek_contract (dev : vault_dev) (f_pos off whence : Int)
    (hw : whence = 0 ∨ whence = 1 ∨ whence = 2)
    (hlo : -9223372036854775808 ≤ llseek_target dev f_pos off whence)
    (hhi : llseek_target dev f_pos off whence < 9223372036854775808) :
    (llseek_target dev f_pos off whence < 0 →
      vault_llseek dev f_pos off whence = ⟨-EINVAL, dev, f_pos, []⟩) ∧
    (0 ≤ llseek_target dev f_pos off whence →
      vault_llseek dev f_pos off whence =
        ⟨llseek_target dev f_pos off whence, dev, llseek_target dev f_pos off whence, []⟩) ∧
    ((vault_llseek dev f_pos off whence).retval = -EINVAL ↔
      llseek_target dev f_pos off whence < 0) := by
  rw [vault_llseek_exact dev f_pos off whence hw hlo hhi]
  refine ⟨fun h => by rw [if_pos h], fun h => by rw [if_neg (not_lt.mpr h)], ?_⟩
  by_cases h : llseek_target dev f_pos off whence < 0
  · rw [if_pos h]; exact ⟨fun _ => h, fun _ => rfl⟩
  · rw [if_neg h]
    constructor
    · intro he
      simp only [EINVAL] at he
      omega
    · intro h'; exact absurd h' h

/-- Instances of `llseek_contract`: a seek from the end that succeeds and a
relative seek to a negative position that fails. -/
theorem llseek_contract_witness :
    llseek_target dev_small_written 5 (-3) 2 = 5 ∧
    vault_llseek dev_small_written 5 (-3) 2 = ⟨5, dev_small_written, 5, []⟩ ∧
    vault_llseek dev_small_written 5 (-9) 1 = ⟨-EINVAL, dev_small_written, 5, []⟩ :=
  ⟨by decide,
    (llseek_contract dev_small_written 5 (-3) 2 (by decide) (by decide) (by decide)).2.1
      (by decide),
    (llseek_contract dev_small_written 5 (-9) 1 (by decide) (by decide) (by decide)).1
      (by decide)⟩

/-- Claim C10 as stated fails when the new position is not representable.  The
device `dev_one_byte` is what writing one byte leaves; on it SEEK_END with delta
2^63 − 1 asks for position 2^63, which is not negative, yet the sum wraps to
−2^63 and the call fails with `-EINVAL`. -/
theorem llseek_overflow :
    vault_write env_granted dev_small [7] 1 0 = some ⟨1, dev_one_byte, 1, []⟩ ∧
    ¬ (llseek_target dev_one_byte 0 9223372036854775807 2 < 0) ∧
    vault_llseek dev_one_byte 0 9223372036854775807 2 = ⟨-EINVAL, dev_one_byte, 0, []⟩ := by
  decide

/-! ## Control commands, one by one -/

/-- Distinct case labels, in both orientations, and the two header checks, as `simp`
can use them. -/
theorem vault_ioctl_h_wf_iff (h : vault_ioctl_h) :
    h.wf ↔ (h.codes.Pairwise (· ≠ ·) ∧ h.codes.reverse.Pairwise (· ≠ ·)) ∧
      ∀ c ∈ h.codes, IOC_TYPE c = h.VAULT_IOC_MAGIC ∧ ¬ h.VAULT_IOC_MAXNR < IOC_NR c := by
  unfold vault_ioctl_h.wf List.Nodup
  constructor
  · rintro ⟨h1, h2⟩
    exact ⟨⟨h1, List.nodup_reverse.mpr h1⟩, fun c hc => ⟨(h2 c hc).1, Nat.not_lt.mpr (h2 c hc).2⟩⟩
  · rintro ⟨⟨h1, _⟩, h2⟩
    exact ⟨h1, fun c hc => ⟨(h2 c hc).1, Nat.not_lt.mp (h2 c hc).2⟩⟩

/-- Reset, once the command word is accepted. -/
theorem vault_ioctl_reset (h : vault_ioctl_h) (hwf : h.wf) (env : ioctl_env)
    (g : vault_globals) (arg : Nat) (hacc : access_err env h.VAULT_IOCRESET = false) :
    vault_ioctl h env g h.VAULT_IOCRESET arg =
      ⟨0, { g with vault_quantum := VAULT_QUANTUM, vault_qset := VAULT_QSET }, none⟩ := by
  obtain ⟨⟨hnd, hnd2⟩, hm⟩ := (vault_ioctl_h_wf_iff h).mp hwf
  simp only [vault_ioctl_h.codes, List.pairwise_cons, List.mem_cons, List.mem_singleton,
    List.not_mem_nil, List.Pairwise.nil, and_true, forall_eq_or_imp, forall_eq,
    List.reverse_cons, List.reverse_nil, List.nil_append, List.cons_append,
    List.singleton_append, ne_eq, false_imp_iff, implies_true, IsEmpty.forall_iff] at hnd hnd2 hm
  unfold vault_ioctl
  simp only [hm, hnd, hnd2, hacc, ne_eq, not_true_eq_false, if_false, if_true,
    Bool.false_eq_true, gt_iff_lt]

/-- Set on `vault_quantum`, once the command word is accepted. -/
theorem vault_ioctl_squantum (h : vault_ioctl_h) (hwf : h.wf) (env : ioctl_env)
    (g : vault_globals) (arg : Nat) (hacc : access_err env h.VAULT_IOCSQUANTUM = false) :
    vault_ioctl h env g h.VAULT_IOCSQUANTUM arg =
      if env.capable then
        ⟨(get_user_nocheck env.uread).1, { g with vault_quantum := (get_user_nocheck env.uread).2 }, none⟩
      else ⟨-EPERM, g, none⟩ := by
  obtain ⟨⟨hnd, hnd2⟩, hm⟩ := (vault_ioctl_h_wf_iff h).mp hwf
  simp only [vault_ioctl_h.codes, List.pairwise_cons, List.mem_cons, List.mem_singleton,
    List.not_mem_nil, List.Pairwise.nil, and_true, forall_eq_or_imp, forall_eq,
    List.reverse_cons, List.reverse_nil, List.nil_append, List.cons_append,
    List.singleton_append, ne_eq, false_imp_iff, implies_true, IsEmpty.forall_iff] at hnd hnd2 hm
  unfold vault_ioctl
  simp only [hm, hnd, hnd2, hacc, ne_eq, not_true_eq_false, if_false, if_true,
    Bool.false_eq_true, gt_iff_lt]
  cases env.capable <;> simp [put_user]

/-- Tell on `vault_quantum`, once the command word is accepted. -/
theorem vault_ioctl_tquantum (h : vault_ioctl_h) (hwf : h.wf) (env : ioctl_env)
    (g : vault_globals) (arg : Nat) (hacc : access_err env h.VAULT_IOCTQUANTUM = false) :
    vault_ioctl h env g h.VAULT_IOCTQUANTUM arg =
      if env.capable then
        ⟨0, { g with vault_quantum := wrap_s32 arg }, none⟩
      else ⟨-EPERM, g, none⟩ := by
  obtain ⟨⟨hnd, hnd2⟩, hm⟩ := (vault_ioctl_h_wf_iff h).mp hwf
  simp only [vault_ioctl_h.codes, List.pairwise_cons, List.mem_cons, List.mem_singleton,
    List.not_mem_nil, List.Pairwise.nil, and_true, forall_eq_or_imp, forall_eq,
    List.reverse_cons, List.reverse_nil, List.nil_append, List.cons_append,
    List.singleton_append, ne_eq, false_imp_iff, implies_true, IsEmpty.forall_iff] at hnd hnd2 hm
  unfold vault_ioctl
  simp only [hm, hnd, hnd2, hacc, ne_eq, not_true_eq_false, if_false, if_true,
    Bool.false_eq_true, gt_iff_lt]
  cases env.capable <;> simp [put_user]

/-- Get on `vault_quantum`, once the command word is accepted. -/
theorem vault_ioctl_gquantum (h : vault_ioctl_h) (hwf : h.wf) (env : ioctl_env)
    (g : vault_globals) (arg : Nat) (hacc : access_err env h.VAULT_IOCGQUANTUM = false) :
    vault_ioctl h env g h.VAULT_IOCGQUANTUM arg =
      ⟨(put_user_nocheck env.uwrite g.vault_quantum).1, g, (put_user_nocheck env.uwrite g.vault_quantum).2⟩ := by
  obtain ⟨⟨hnd, hnd2⟩, hm⟩ := (vault_ioctl_h_wf_iff h).mp hwf
  simp only [vault_ioctl_h.codes, List.pairwise_cons, List.mem_cons, List.mem_singleton,
    List.not_mem_nil, List.Pairwise.nil, and_true, forall_eq_or_imp, forall_eq,
    List.reverse_cons, List.reverse_nil, List.nil_append, List.cons_append,
    List.singleton_append, ne_eq, false_imp_iff, implies_true, IsEmpty.forall_iff] at hnd hnd2 hm
  unfold vault_ioctl
  simp only [hm, hnd, hnd2, hacc, ne_eq, not_true_eq_false, if_false, if_true,
    Bool.false_eq_true, gt_iff_lt]

/-- Query on `vault_quantum`, once the command word is accepted. -/
theorem vault_ioctl_qquantum (h : vault_ioctl_h) (hwf : h.wf) (env : ioctl_env)
    (g : vault_globals) (arg : Nat) (hacc : access_err env h.VAULT_IOCQQUANTUM = false) :
    vault_ioctl h env g h.VAULT_IOCQQUANTUM arg =
      ⟨g.vault_quantum, g, none⟩ := by
  obtain ⟨⟨hnd, hnd2⟩, hm⟩ := (vault_ioctl_h_wf_iff h).mp hwf
  simp only [vault_ioctl_h.codes, List.pairwise_cons, List.mem_cons, List.mem_singleton,
    List.not_mem_nil, List.Pairwise.nil, and_true, forall_eq_or_imp, forall_eq,
    List.reverse_cons, List.reverse_nil, List.nil_append, List.cons_append,
    List.singleton_append, ne_eq, false_imp_iff, implies_true, IsEmpty.forall_iff] at hnd hnd2 hm
  unfold vault_ioctl
  simp only [hm, hnd, hnd2, hacc, ne_eq, not_true_eq_false, if_false, if_true,
    Bool.false_eq_true, gt_iff_lt]

/-- eXchange on `vault_quantum`, once the command word is accepted. -/
theorem vault_ioctl_xquantum (h : vault_ioctl_h) (hwf : h.wf) (env : ioctl_env)
    (g : vault_globals) (arg : Nat) (hacc : access_err env h.VAULT_IOCXQUANTUM = false) :
    vault_ioctl h env g h.VAULT_IOCXQUANTUM arg =
      if env.capable then
        if (get_user_nocheck env.uread).1 = 0 then
          ⟨(put_user_nocheck env.uwrite g.vault_quantum).1,
           { g with vault_quantum := (get_user_nocheck env.uread).2 },
           (put_user_nocheck env.uwrite g.vault_quantum).2⟩
        else ⟨(get_user_nocheck env.uread).1,
           { g with vault_quantum := (get_user_nocheck env.uread).2 }, none⟩
      else ⟨-EPERM, g, none⟩ := by
  obtain ⟨⟨hnd, hnd2⟩, hm⟩ := (vault_ioctl_h_wf_iff h).mp hwf
  simp only [vault_ioctl_h.codes, List.pairwise_cons, List.mem_cons, List.mem_singleton,
    List.not_mem_nil, List.Pairwise.nil, and_true, forall_eq_or_imp, forall_eq,
    List.reverse_cons, List.reverse_nil, List.nil_append, List.cons_append,
    List.singleton_append, ne_eq, false_imp_iff, implies_true, IsEmpty.forall_iff] at hnd hnd2 hm
  unfold vault_ioctl
  simp only [hm, hnd, hnd2, hacc, ne_eq, not_true_eq_false, if_false, if_true,
    Bool.false_eq_true, gt_iff_lt]
  cases env.capable <;> simp [put_user]

/-- sHift on `vault_quantum`, once the command word is accepted. -/
theorem vault_ioctl_hquantum (h : vault_ioctl_h) (hwf : h.wf) (env : ioctl_env)
    (g : vault_globals) (arg : Nat) (hacc : access_err env h.VAULT_IOCHQUANTUM = false) :
    vault_ioctl h env g h.VAULT_IOCHQUANTUM arg =
      if env.capable then
        ⟨g.vault_quantum, { g with vault_quantum := wrap_s32 arg }, none⟩
      else ⟨-EPERM, g, none⟩ := by
  obtain ⟨⟨hnd, hnd2⟩, hm⟩ := (vault_ioctl_h_wf_iff h).mp hwf
  simp only [vault_ioctl_h.codes, List.pairwise_cons, List.mem_cons, List.mem_singleton,
    List.not_mem_nil, List.Pairwise.nil, and_true, forall_eq_or_imp, forall_eq,
    List.reverse_cons, List.reverse_nil, List.nil_append, List.cons_append,
    List.singleton_append, ne_eq, false_imp_iff, implies_true, IsEmpty.forall_iff] at hnd hnd2 hm
  unfold vault_ioctl
  simp only [hm, hnd, hnd2, hacc, ne_eq, not_true_eq_false, if_false, if_true,
    Bool.false_eq_true, gt_iff_lt]
  cases env.capable <;> simp [put_user]

/-- Set on `vault_qset`, once the command word is accepted. -/
theorem vault_ioctl_sqset (h : vault_ioctl_h) (hwf : h.wf) (env : ioctl_env)
    (g : vault_globals) (arg : Nat) (hacc : access_err env h.VAULT_IOCSQSET = false) :
    vault_ioctl h env g h.VAULT_IOCSQSET arg =
      if env.capable then
        ⟨(get_user_nocheck env.uread).1, { g with vault_qset := (get_user_nocheck env.uread).2 }, none⟩
      else ⟨-EPERM, g, none⟩ := by
  obtain ⟨⟨hnd, hnd2⟩, hm⟩ := (vault_ioctl_h_wf_iff h).mp hwf
  simp only [vault_ioctl_h.codes, List.pairwise_cons, List.mem_cons, List.mem_singleton,
    List.not_mem_nil, List.Pairwise.nil, and_true, forall_eq_or_imp, forall_eq,
    List.reverse_cons, List.reverse_nil, List.nil_append, List.cons_append,
    List.singleton_append, ne_eq, false_imp_iff, implies_true, IsEmpty.forall_iff] at hnd hnd2 hm
  unfold vault_ioctl
  simp only [hm, hnd, hnd2, hacc, ne_eq, not_true_eq_false, if_false, if_true,
    Bool.false_eq_true, gt_iff_lt]
  cases env.capable <;> simp [put_user]

/-- Tell on `vault_qset`, once the command word is accepted. -/
theorem vault_ioctl_tqset (h : vault_ioctl_h) (hwf : h.wf) (env : ioctl_env)
    (g : vault_globals) (arg : Nat) (hacc : access_err env h.VAULT_IOCTQSET = false) :
    vault_ioctl h env g h.VAULT_IOCTQSET arg =
      if env.capable then
        ⟨0, { g with vault_qset := wrap_s32 arg }, none⟩
      else ⟨-EPERM, g, none⟩ := by
  obtain ⟨⟨hnd, hnd2⟩, hm⟩ := (vault_ioctl_h_wf_iff h).mp hwf
  simp only [vault_ioctl_h.codes, List.pairwise_cons, List.mem_cons, List.mem_singleton,
    List.not_mem_nil, List.Pairwise.nil, and_true, forall_eq_or_imp, forall_eq,
    List.reverse_cons, List.reverse_nil, List.nil_append, List.cons_append,
    List.singleton_append, ne_eq, false_imp_iff, implies_true, IsEmpty.forall_iff] at hnd hnd2 hm
  unfold vault_ioctl
  simp only [hm, hnd, hnd2, hacc, ne_eq, not_true_eq_false, if_false, if_true,
    Bool.false_eq_true, gt_iff_lt]
  cases env.capable <;> simp [put_user]

/-- Get on `vault_qset`, once the command word is accepted. -/
theorem vault_ioctl_gqset (h : vault_ioctl_h) (hwf : h.wf) (env : ioctl_env)
    (g : vault_globals) (arg : Nat) (hacc : access_err env h.VAULT_IOCGQSET = false) :
    vault_ioctl h env g h.VAULT_IOCGQSET arg =
      ⟨(put_user_nocheck env.uwrite g.vault_qset).1, g, (put_user_nocheck env.uwrite g.vault_qset).2⟩ := by
  obtain ⟨⟨hnd, hnd2⟩, hm⟩ := (vault_ioctl_h_wf_iff h).mp hwf
  simp only [vault_ioctl_h.codes, List.pairwise_cons, List.mem_cons, List.mem_singleton,
    List.not_mem_nil, List.Pairwise.nil, and_true, forall_eq_or_imp, forall_eq,
    List.reverse_cons, List.reverse_nil, List.nil_append, List.cons_append,
    List.singleton_append, ne_eq, false_imp_iff, implies_true, IsEmpty.forall_iff] at hnd hnd2 hm
  unfold vault_ioctl
  simp only [hm, hnd, hnd2, hacc, ne_eq, not_true_eq_false, if_false, if_true,
    Bool.false_eq_true, gt_iff_lt]

/-- Query on `vault_qset`, once the command word is accepted. -/
theorem vault_ioctl_qqset (h : vault_ioctl_h) (hwf : h.wf) (env : ioctl_env)
    (g : vault_globals) (arg : Nat) (hacc : access_err env h.VAULT_IOCQQSET = false) :
    vault_ioctl h env g h.VAULT_IOCQQSET arg =
      ⟨g.vault_qset, g, none⟩ := by
  obtain ⟨⟨hnd, hnd2⟩, hm⟩ := (vault_ioctl_h_wf_iff h).mp hwf
  simp only [vault_ioctl_h.codes, List.pairwise_cons, List.mem_cons, List.mem_singleton,
    List.not_mem_nil, List.Pairwise.nil, and_true, forall_eq_or_imp, forall_eq,
    List.reverse_cons, List.reverse_nil, List.nil_append, List.cons_append,
    List.singleton_append, ne_eq, false_imp_iff, implies_true, IsEmpty.forall_iff] at hnd hnd2 hm
  unfold vault_ioctl
  simp only [hm, hnd, hnd2, hacc, ne_eq, not_true_eq_false, if_false, if_true,
    Bool.false_eq_true, gt_iff_lt]

/-- eXchange on `vault_qset`, once the command word is accepted. -/
theorem vault_ioctl_xqset (h : vault_ioctl_h) (hwf : h.wf) (env : ioctl_env)
    (g : vault_globals) (arg : Nat) (hacc : access_err env h.VAULT_IOCXQSET = false) :
    vault_ioctl h env g h.VAULT_IOCXQSET arg =
      if env.capable then
        if (get_user_nocheck env.uread).1 = 0 then
          ⟨(put_user_nocheck env.uwrite g.vault_qset).1,
           { g with vault_qset := (get_user_nocheck env.uread).2 },
           (put_user_nocheck env.uwrite g.vault_qset).2⟩
        else ⟨(get_user_nocheck env.uread).1,
           { g with vault_qset := (get_user_nocheck env.uread).2 }, none⟩
      else ⟨-EPERM, g, none⟩ := by
  obtain ⟨⟨hnd, hnd2⟩, hm⟩ := (vault_ioctl_h_wf_iff h).mp hwf
  simp only [vault_ioctl_h.codes, List.pairwise_cons, List.mem_cons, List.mem_singleton,
    List.not_mem_nil, List.Pairwise.nil, and_true, forall_eq_or_imp, forall_eq,
    List.reverse_cons, List.reverse_nil, List.nil_append, List.cons_append,
    List.singleton_append, ne_eq, false_imp_iff, implies_true, IsEmpty.forall_iff] at hnd hnd2 hm
  unfold vault_ioctl
  simp only [hm, hnd, hnd2, hacc, ne_eq, not_true_eq_false, if_false, if_true,
    Bool.false_eq_true, gt_iff_lt]
  cases env.capable <;> simp [put_user]

/-- sHift on `vault_qset`, once the command word is accepted. -/
theorem vault_ioctl_hqset (h : vault_ioctl_h) (hwf : h.wf) (env : ioctl_env)
    (g : vault_globals) (arg : Nat) (hacc : access_err env h.VAULT_IOCHQSET = false) :
    vault_ioctl h env g h.VAULT_IOCHQSET arg =
      if env.capable then
        ⟨g.vault_qset, { g with vault_qset := wrap_s32 arg }, none⟩
      else ⟨-EPERM, g, none⟩ := by
  obtain ⟨⟨hnd, hnd2⟩, hm⟩ := (vault_ioctl_h_wf_iff h).mp hwf
  simp only [vault_ioctl_h.codes, List.pairwise_cons, List.mem_cons, List.mem_singleton,
    List.not_mem_nil, List.Pairwise.nil, and_true, forall_eq_or_imp, forall_eq,
    List.reverse_cons, List.reverse_nil, List.nil_append, List.cons_append,
    List.singleton_append, ne_eq, false_imp_iff, implies_true, IsEmpty.forall_iff] at hnd hnd2 hm
  unfold vault_ioctl
  simp only [hm, hnd, hnd2, hacc, ne_eq, not_true_eq_false, if_false, if_true,
    Bool.false_eq_true, gt_iff_lt]
  cases env.capable <;> simp [put_user]

/-- A command of the header whose argument fails the address check is refused with
`-EFAULT` before the `switch`. -/
theorem vault_ioctl_access_err (h : vault_ioctl_h) (hwf : h.wf) (env : ioctl_env)
    (g : vault_globals) (cmd arg : Nat) (hcmd : cmd ∈ h.codes)
    (hacc : access_err env cmd = true) :
    vault_ioctl h env g cmd arg = ⟨-EFAULT, g, none⟩ := by
  obtain ⟨_, hm⟩ := (vault_ioctl_h_wf_iff h).mp hwf
  unfold vault_ioctl
  simp only [(hm cmd hcmd).1, (hm cmd hcmd).2, hacc, ne_eq, not_true_eq_false, if_false,
    if_true, gt_iff_lt]

/-- Without a direction bit in the command word no address check is made. -/
theorem access_err_none (env : ioctl_env) (cmd : Nat) (hdir : IOC_DIR cmd = 0) :
    access_err env cmd = false := by
  unfold access_err
  simp [hdir]

/-- An argument that `access_ok` accepts passes the check of every command word. -/
theorem access_err_ok (env : ioctl_env) (cmd : Nat) (hok : env.access_ok = true) :
    access_err env cmd = false := by
  unfold access_err
  simp [hok]

/-- Being values of an `int` passes through a two-way branch. -/
theorem ite_globals_wf {c : Prop} [Decidable c] {a b : ioctl_result}
    (ha : a.globals.wf) (hb : b.globals.wf) : (if c then a else b).globals.wf := by
  split <;> assumption

/-- Every control command leaves both module parameters values of an `int`. -/
theorem vault_ioctl_globals_wf (h : vault_ioctl_h) (env : ioctl_env) (g : vault_globals)
    (cmd arg : Nat) (hg : g.wf) : (vault_ioctl h env g cmd arg).globals.wf := by
  have hw : ∀ x : Int, -2147483648 ≤ wrap_s32 x ∧ wrap_s32 x < 2147483648 := by
    intro x
    unfold wrap_s32
    omega
  have hgot : -2147483648 ≤ (get_user_nocheck env.uread).2 ∧
      (get_user_nocheck env.uread).2 < 2147483648 := by
    unfold get_user_nocheck
    cases env.uread with
    | none => simp
    | some v => exact hw v
  have harg := hw (arg : Int)
  have hq : ∀ x : Int, (-2147483648 ≤ x ∧ x < 2147483648) →
      ({ g with vault_quantum := x } : vault_globals).wf := by
    intro x hx
    unfold vault_globals.wf at hg ⊢
    exact ⟨hx.1, hx.2, hg.2.2⟩
  have hs : ∀ x : Int, (-2147483648 ≤ x ∧ x < 2147483648) →
      ({ g with vault_qset := x } : vault_globals).wf := by
    intro x hx
    unfold vault_globals.wf at hg ⊢
    exact ⟨hg.1, hg.2.1, hx.1, hx.2⟩
  unfold vault_ioctl
  refine ite_globals_wf hg ?_
  refine ite_globals_wf hg ?_
  refine ite_globals_wf hg ?_
  refine ite_globals_wf (by unfold vault_globals.wf VAULT_QUANTUM VAULT_QSET; decide) ?_
  refine ite_globals_wf (ite_globals_wf hg (hq _ hgot)) ?_
  refine ite_globals_wf (ite_globals_wf hg (hq _ harg)) ?_
  refine ite_globals_wf hg ?_
  refine ite_globals_wf hg ?_
  refine ite_globals_wf (ite_globals_wf hg (ite_globals_wf (hq _ hgot) (hq _ hgot))) ?_
  refine ite_globals_wf (ite_globals_wf hg (hq _ harg)) ?_
  refine ite_globals_wf (ite_globals_wf hg (hs _ hgot)) ?_
  refine ite_globals_wf (ite_globals_wf hg (hs _ harg)) ?_
  refine ite_globals_wf hg ?_
  refine ite_globals_wf hg ?_
  refine ite_globals_wf (ite_globals_wf hg (ite_globals_wf (hs _ hgot) (hs _ hgot))) ?_
  refine ite_globals_wf (ite_globals_wf hg (hs _ harg)) ?_
  exact hg

/-! ## Calls as steps of the module state -/

/-- The two ways a call of `vault_write` ends: interrupted before the lock is taken, or
the locked body run on the device with the lock held and the lock released after. -/
theorem vault_write_some (env : kenv) (dev : vault_dev) (buf : List Byte) (count : Nat)
    (f_pos : Int) (r : call_result)
    (hcall : vault_write env dev buf count f_pos = some r) :
    (env.intr = true ∧ r = ⟨-ERESTARTSYS, dev, f_pos, []⟩) ∨
    (env.intr = false ∧ ∃ r0, vault_write_locked env (down dev) buf count f_pos = some r0 ∧
      r = ⟨r0.retval, up r0.dev, r0.f_pos, r0.ubuf⟩) := by
  unfold vault_write at hcall
  cases hi : env.intr with
  | true =>
    rw [hi] at hcall
    exact Or.inl ⟨rfl, (Option.some.inj hcall).symm⟩
  | false =>
    rw [hi] at hcall
    simp only [Bool.false_eq_true, if_false, Option.map_eq_some'] at hcall
    obtain ⟨r0, h0, hr⟩ := hcall
    exact Or.inr ⟨rfl, r0, h0, hr.symm⟩

/-- The two ways a call of `vault_read` ends, as for `vault_write`. -/
theorem vault_read_some (env : kenv) (dev : vault_dev) (ucap count : Nat)
    (f_pos : Int) (r : call_result)
    (hcall : vault_read env dev ucap count f_pos = some r) :
    (env.intr = true ∧ r = ⟨-ERESTARTSYS, dev, f_pos, []⟩) ∨
    (env.intr = false ∧ ∃ r0, vault_read_locked (down dev) ucap count f_pos = some r0 ∧
      r = ⟨r0.retval, up r0.dev, r0.f_pos, r0.ubuf⟩) := by
  unfold vault_read at hcall
  cases hi : env.intr with
  | true =>
    rw [hi] at hcall
    exact Or.inl ⟨rfl, (Option.some.inj hcall).symm⟩
  | false =>
    rw [hi] at hcall
    simp only [Bool.false_eq_true, if_false, Option.map_eq_some'] at hcall
    obtain ⟨r0, h0, hr⟩ := hcall
    exact Or.inr ⟨rfl, r0, h0, hr.symm⟩

/-- The locked body of `vault_write` never touches `quantum`, `qset` or the
semaphore. -/
theorem vault_write_locked_params (env : kenv) (dev : vault_dev) (buf : List Byte)
    (count : Nat) (f_pos : Int) (r : call_result)
    (hcall : vault_write_locked env dev buf count f_pos = some r) :
    r.dev.quantum = dev.quantum ∧ r.dev.qset = dev.qset ∧ r.dev.sem = dev.sem := by
  rcases vault_write_locked_outcome env dev buf count f_pos r hcall with
    ⟨_, hr⟩ | ⟨_, _, hr⟩ | ⟨_, _, _, _, _, _, _, _, _, hr⟩ |
    ⟨_, _, _, _, _, _, _, _, _, _, _, _, _, _, ⟨_, hr⟩ | ⟨_, hr⟩⟩ <;>
  · rw [hr]
    exact ⟨rfl, rfl, rfl⟩

/-- A call of `vault_write` leaves `quantum`, `qset` and the semaphore count as they
were. -/
theorem vault_write_params (env : kenv) (dev : vault_dev) (buf : List Byte)
    (count : Nat) (f_pos : Int) (r : call_result)
    (hcall : vault_write env dev buf count f_pos = some r) :
    r.dev.quantum = dev.quantum ∧ r.dev.qset = dev.qset ∧ r.dev.sem = dev.sem := by
  rcases vault_write_some env dev buf count f_pos r hcall with ⟨_, hr⟩ | ⟨_, r0, h0, hr⟩
  · rw [hr]
    exact ⟨rfl, rfl, rfl⟩
  · obtain ⟨h1, h2, h3⟩ := vault_write_locked_params env (down dev) buf count f_pos r0 h0
    rw [hr]
    refine ⟨h1, h2, ?_⟩
    show r0.dev.sem + 1 = dev.sem
    rw [h3]
    show dev.sem - 1 + 1 = dev.sem
    omega

/-- The two ways `vault_trim` ends without a fault leave the same device. -/
theorem vault_trim_some (g : vault_globals) (dev : vault_dev) (t : Int × vault_dev)
    (hcall : vault_trim g dev = some t) :
    t = (0, ⟨none, g.vault_quantum, g.vault_qset, 0, dev.sem⟩) := by
  unfold vault_trim at hcall
  cases hd : dev.data with
  | none =>
    rw [hd] at hcall
    exact (Option.some.inj hcall).symm
  | some arr =>
    rw [hd] at hcall
    simp only at hcall
    split at hcall
    · exact absurd hcall (by simp)
    · exact (Option.some.inj hcall).symm

/-- The ways `vault_open` ends: the device untouched (not write-only, or interrupted),
or trimmed with the semaphore count restored. -/
theorem vault_open_some (g : vault_globals) (env : kenv) (f_flags : Nat) (dev : vault_dev)
    (t : Int × vault_dev) (hcall : vault_open g env f_flags dev = some t) :
    (f_flags &&& O_ACCMODE ≠ O_WRONLY ∧ t = (0, dev)) ∨
    (f_flags &&& O_ACCMODE = O_WRONLY ∧ env.intr = true ∧ t = (-ERESTARTSYS, dev)) ∨
    (f_flags &&& O_ACCMODE = O_WRONLY ∧ env.intr = false ∧
      t = (0, ⟨none, g.vault_quantum, g.vault_qset, 0, dev.sem⟩)) := by
  unfold vault_open at hcall
  by_cases hw : f_flags &&& O_ACCMODE = O_WRONLY
  · rw [if_pos hw] at hcall
    cases hi : env.intr with
    | true =>
      rw [hi] at hcall
      exact Or.inr (Or.inl ⟨hw, rfl, (Option.some.inj hcall).symm⟩)
    | false =>
      rw [hi] at hcall
      simp only [Bool.false_eq_true, if_false, Option.map_eq_some'] at hcall
      obtain ⟨t0, h0, ht⟩ := hcall
      have := vault_trim_some g (down dev) t0 h0
      rw [this] at ht
      refine Or.inr (Or.inr ⟨hw, rfl, ?_⟩)
      rw [← ht]
      show (0, (⟨none, g.vault_quantum, g.vault_qset, 0, dev.sem - 1 + 1⟩ : vault_dev)) = _
      have : dev.sem - 1 + 1 = dev.sem := by omega
      rw [this]
  · rw [if_neg hw] at hcall
    exact Or.inl ⟨hw, (Option.some.inj hcall).symm⟩

/-- Replacing one device by one that satisfies a property keeps the property of all
devices. -/
theorem forall_mem_set {P : vault_dev → Prop} (l : List vault_dev) (i : Nat) (x : vault_dev)
    (hl : ∀ d ∈ l, P d) (hx : P x) : ∀ d ∈ l.set i x, P d := by
  intro d hd
  rcases List.mem_or_eq_of_mem_set hd with h | h
  · exact hl d h
  · rw [h]
    exact hx

/-- Every call with a file position the kernel can pass keeps the invariant of the
module state. -/
theorem vault_system_step_inv (h : vault_ioctl_h) (s s' : vault_system) (c : vault_call)
    (hinv : s.inv) (hc : c.valid) (hstep : s.step h c = some s') : s'.inv := by
  obtain ⟨hg, hd⟩ := hinv
  have hg' := hg
  unfold vault_globals.wf at hg'
  obtain ⟨g1, g2, g3, g4⟩ := hg'
  cases c with
  | «open» i env f_flags =>
    simp only [vault_system.step, Option.bind_eq_some, Option.map_eq_some'] at hstep
    obtain ⟨dev, hdev, t, ht, hs⟩ := hstep
    rw [← hs]
    exact ⟨hg, forall_mem_set _ _ _ hd
      (vault_open_inv s.globals env f_flags dev t (hd dev (List.getElem?_mem hdev))
        g1 g2 g3 g4 ht)⟩
  | read i env ucap count f_pos =>
    simp only [vault_system.step, Option.bind_eq_some, Option.map_eq_some'] at hstep
    obtain ⟨dev, hdev, r, hr, hs⟩ := hstep
    rw [← hs]
    refine ⟨hg, forall_mem_set _ _ _ hd ?_⟩
    rw [vault_read_dev env dev ucap count f_pos r hr]
    exact hd dev (List.getElem?_mem hdev)
  | write i env buf count f_pos =>
    simp only [vault_system.step, Option.bind_eq_some, Option.map_eq_some'] at hstep
    obtain ⟨dev, hdev, r, hr, hs⟩ := hstep
    rw [← hs]
    exact ⟨hg, forall_mem_set _ _ _ hd
      (vault_write_inv env dev buf count f_pos r (hd dev (List.getElem?_mem hdev)) hc hr)⟩
  | trim i =>
    simp only [vault_system.step, Option.bind_eq_some, Option.map_eq_some'] at hstep
    obtain ⟨dev, hdev, t, ht, hs⟩ := hstep
    rw [← hs]
    exact ⟨hg, forall_mem_set _ _ _ hd (vault_trim_inv s.globals dev t g1 g2 g3 g4 ht)⟩
  | llseek i f_pos off whence =>
    simp only [vault_system.step, Option.map_eq_some'] at hstep
    obtain ⟨dev, hdev, hs⟩ := hstep
    rw [← hs]
    refine ⟨hg, forall_mem_set _ _ _ hd ?_⟩
    rw [vault_llseek_dev]
    exact hd dev (List.getElem?_mem hdev)
  | ioctl env cmd arg =>
    simp only [vault_system.step] at hstep
    rw [← Option.some.inj hstep]
    exact ⟨vault_ioctl_globals_wf h env s.globals cmd arg hg, hd⟩

/-- Every sequence of such calls keeps the invariant of the module state. -/
theorem vault_system_run_inv (h : vault_ioctl_h) (calls : List vault_call) :
    ∀ s s' : vault_system, s.inv → (∀ c ∈ calls, c.valid) → s.run h calls = some s' → s'.inv := by
  induction calls with
  | nil =>
    intro s s' hinv _ hrun
    rw [← Option.some.inj hrun]
    exact hinv
  | cons c cs ih =>
    intro s s' hinv hv hrun
    simp only [vault_system.run, Option.bind_eq_some] at hrun
    obtain ⟨s1, h1, h2⟩ := hrun
    exact ih s1 s' (vault_system_step_inv h s s1 c hinv (hv c (List.mem_cons_self _ _)) h1)
      (fun c' hc' => hv c' (List.mem_cons_of_mem _ hc')) h2

/-- The state `vault_init_module` leaves satisfies the invariant. -/
theorem vault_init_module_inv (g : vault_globals) (n : Nat) (hg : g.wf) :
    (vault_init_module g n).inv := by
  refine ⟨hg, ?_⟩
  intro d hd
  have hg' := hg
  unfold vault_globals.wf at hg'
  rw [List.eq_of_mem_replicate hd]
  exact vault_init_dev_inv g hg'.1 hg'.2.1 hg'.2.2.1 hg'.2.2.2

/-- After one device of the array is replaced, a device read back is the new one, at
the replaced index, or the one that was there. -/
theorem getElem?_set_cases (l : List vault_dev) (i j : Nat) (x d d' : vault_dev)
    (hd : l[j]? = some d) (hd' : (l.set i x)[j]? = some d') :
    (j = i ∧ d' = x) ∨ d' = d := by
  by_cases hij : i = j
  · subst hij
    have hlt : i < l.length := by
      rcases List.getElem?_eq_some.mp hd with ⟨hl, _⟩
      exact hl
    rw [List.getElem?_set_self hlt] at hd'
    exact Or.inl ⟨rfl, (Option.some.inj hd').symm⟩
  · rw [List.getElem?_set_ne hij] at hd'
    rw [hd] at hd'
    exact Or.inr (Option.some.inj hd').symm

/-! ## Failed allocations -/

/-- A device without a segment array holds no byte and no segment. -/
theorem no_data_no_byte (dev : vault_dev) (hd : dev.data = none) :
    (∀ p, dev.byte_at p = none) ∧ (∀ i, dev.seg_at i = none) := by
  constructor
  · intro p
    unfold vault_dev.byte_at vault_dev.slot_at
    rw [hd]
  · intro i
    unfold vault_dev.seg_at
    rw [hd]

/-- With a segment array in place `vault_write` allocates none. -/
theorem write_slots_some (env : kenv) (a arr : List (Option (List Byte))) (qset : Int)
    (h : write_slots env (some a) qset = some arr) : arr = a :=
  (Option.some.inj h).symm

/-- The device after a failed segment allocation: the one before, or the one before
with a fresh array in place of none. -/
theorem nomem_dev (env : kenv) (dev : vault_dev) (arr : List (Option (List Byte)))
    (h : write_slots env dev.data dev.qset = some arr) :
    dev.data = none ∨ up { down dev with data := some arr } = dev := by
  cases hd : dev.data with
  | none => exact Or.inl rfl
  | some a =>
    right
    rw [hd] at h
    rw [write_slots_some env a arr dev.qset h, ← hd]
    exact up_down dev

/-- Where the locked body of `vault_write` can fault: the division traps, or, with the
segment array at hand, the slot index or the byte range is out of range. -/
theorem vault_write_locked_fault (env : kenv) (dev : vault_dev) (buf : List Byte)
    (count : Nat) (f_pos : Int)
    (hcall : vault_write_locked env dev buf count f_pos = none) :
    c_div f_pos dev.quantum = none ∨ c_mod f_pos dev.quantum = none ∨
    ∃ s q arr, c_div f_pos dev.quantum = some s ∧ c_mod f_pos dev.quantum = some q ∧
      write_slots env dev.data dev.qset = some arr ∧
      (wrap_s32 s < 0 ∨ arr[(wrap_s32 s).toNat]? = none ∨
        ∃ slot seg, arr[(wrap_s32 s).toNat]? = some slot ∧
          write_seg env slot dev.quantum = some seg) := by
  unfold vault_write_locked at hcall
  simp only at hcall
  split at hcall
  · exact absurd hcall (by simp)
  · split at hcall
    · rename_i s q hs hq
      split at hcall
      · exact absurd hcall (by simp)
      · rename_i arr harr
        refine Or.inr (Or.inr ⟨s, q, arr, hs, hq, harr, ?_⟩)
        split at hcall
        · rename_i hs0
          exact Or.inl hs0
        · split at hcall
          · rename_i hslot
            exact Or.inr (Or.inl hslot)
          · rename_i slot hslot
            split at hcall
            · exact absurd hcall (by simp)
            · rename_i seg hseg
              exact Or.inr (Or.inr ⟨slot, seg, hslot, hseg⟩)
    · rename_i hno
      cases hs : c_div f_pos dev.quantum with
      | none => exact Or.inl rfl
      | some s =>
        cases hq : c_mod f_pos dev.quantum with
        | none => exact Or.inr (Or.inl rfl)
        | some q => exact absurd hq (hno s q hs)

/-- At a non-negative offset that passes the capacity test neither division traps. -/
theorem c_div_mod_some (dev : vault_dev) (f_pos : Int) (h0 : 0 ≤ f_pos)
    (hlt : f_pos < wrap_s32 (dev.quantum * dev.qset)) :
    c_div f_pos dev.quantum = some (Int.tdiv f_pos dev.quantum) ∧
    c_mod f_pos dev.quantum = some (Int.tmod f_pos dev.quantum) := by
  have hq : dev.quantum ≠ 0 := by
    intro h
    rw [h, zero_mul] at hlt
    have : wrap_s32 0 = 0 := by decide
    omega
  have hg : ¬ (dev.quantum = 0 ∨ (f_pos = -9223372036854775808 ∧ dev.quantum = -1)) := by
    rintro (h | ⟨h, _⟩)
    · exact hq h
    · omega
  unfold c_div c_mod
  rw [if_neg hg, if_neg hg]
  exact ⟨rfl, rfl⟩

/-- Releasing the lock after the body replaced the array gives the device with that
array and the count it had. -/
theorem up_down_data (dev : vault_dev) (arr : List (Option (List Byte))) :
    up { down dev with data := some arr } = { dev with data := some arr } := by
  obtain ⟨data, quantum, qset, size, sem⟩ := dev
  show (⟨some arr, quantum, qset, size, sem - 1 + 1⟩ : vault_dev) = ⟨some arr, quantum, qset, size, sem⟩
  have : sem - 1 + 1 = sem := by omega
  rw [this]

/-- A write within capacity whose allocation of the segment array fails returns
`-ENOMEM` and leaves the device and the file position as they were. -/
theorem vault_write_nomem_array (env : kenv) (dev : vault_dev) (buf : List Byte)
    (count : Nat) (f_pos : Int) (hi : env.intr = false) (h0 : 0 ≤ f_pos)
    (hlt : f_pos < wrap_s32 (dev.quantum * dev.qset))
    (hslots : write_slots env dev.data dev.qset = none) :
    vault_write env dev buf count f_pos = some ⟨-ENOMEM, dev, f_pos, []⟩ := by
  obtain ⟨hs, hq⟩ := c_div_mod_some dev f_pos h0 hlt
  have hlocked : vault_write_locked env (down dev) buf count f_pos
      = some ⟨-ENOMEM, down dev, f_pos, []⟩ := by
    cases hres : vault_write_locked env (down dev) buf count f_pos with
    | none =>
      exfalso
      rcases vault_write_locked_fault env (down dev) buf count f_pos hres with
        h | h | ⟨_, _, arr, _, _, harr, _⟩
      · have h' : c_div f_pos dev.quantum = none := h
        rw [hs] at h'
        exact absurd h' (by simp)
      · have h' : c_mod f_pos dev.quantum = none := h
        rw [hq] at h'
        exact absurd h' (by simp)
      · have harr' : write_slots env dev.data dev.qset = some arr := harr
        rw [hslots] at harr'
        exact absurd harr' (by simp)
    | some r0 =>
      rcases vault_write_locked_outcome env (down dev) buf count f_pos r0 hres with
        ⟨hfull, _⟩ | ⟨_, _, hr0⟩ | ⟨_, _, arr, _, _, harr, _⟩ |
        ⟨_, _, _, arr, _, _, _, _, harr, _⟩
      · have hfull' : wrap_s32 (dev.quantum * dev.qset) ≤ f_pos := hfull
        omega
      · rw [hr0]
      · have harr' : write_slots env dev.data dev.qset = some arr := harr
        rw [hslots] at harr'
        exact absurd harr' (by simp)
      · have harr' : write_slots env dev.data dev.qset = some arr := harr
        rw [hslots] at harr'
        exact absurd harr' (by simp)
  unfold vault_write
  simp only [hi, Bool.false_eq_true, if_false, hlocked, Option.map, up_down]

/-- A write within capacity whose allocation of the target segment fails returns
`-ENOMEM` and leaves the file position and, but for a segment array allocated by this
call, the device as they were. -/
theorem vault_write_nomem_seg (env : kenv) (dev : vault_dev) (buf : List Byte)
    (count : Nat) (f_pos : Int) (arr : List (Option (List Byte))) (slot : Option (List Byte))
    (hi : env.intr = false) (h0 : 0 ≤ f_pos)
    (hlt : f_pos < wrap_s32 (dev.quantum * dev.qset))
    (hslots : write_slots env dev.data dev.qset = some arr)
    (hs0 : 0 ≤ wrap_s32 (Int.tdiv f_pos dev.quantum))
    (hslot : arr[(wrap_s32 (Int.tdiv f_pos dev.quantum)).toNat]? = some slot)
    (hseg : write_seg env slot dev.quantum = none) :
    vault_write env dev buf count f_pos
      = some ⟨-ENOMEM, { dev with data := some arr }, f_pos, []⟩ := by
  obtain ⟨hs, hq⟩ := c_div_mod_some dev f_pos h0 hlt
  have hlocked : vault_write_locked env (down dev) buf count f_pos
      = some ⟨-ENOMEM, { down dev with data := some arr }, f_pos, []⟩ := by
    cases hres : vault_write_locked env (down dev) buf count f_pos with
    | none =>
      exfalso
      rcases vault_write_locked_fault env (down dev) buf count f_pos hres with
        h | h | ⟨s2, _, arr2, hs2, _, harr, hneg | hnone | ⟨slot2, seg2, hslot2, hseg2⟩⟩
      · have h' : c_div f_pos dev.quantum = none := h
        rw [hs] at h'
        exact absurd h' (by simp)
      · have h' : c_mod f_pos dev.quantum = none := h
        rw [hq] at h'
        exact absurd h' (by simp)
      · have hs2' : c_div f_pos dev.quantum = some s2 := hs2
        rw [hs] at hs2'
        have e := Option.some.inj hs2'
        subst e
        omega
      · have hs2' : c_div f_pos dev.quantum = some s2 := hs2
        have harr' : write_slots env dev.data dev.qset = some arr2 := harr
        rw [hs] at hs2'
        rw [hslots] at harr'
        have e1 := Option.some.inj hs2'
        have e2 := Option.some.inj harr'
        subst e1
        subst e2
        rw [hslot] at hnone
        exact absurd hnone (by simp)
      · have hs2' : c_div f_pos dev.quantum = some s2 := hs2
        have harr' : write_slots env dev.data dev.qset = some arr2 := harr
        have hseg2' : write_seg env slot2 dev.quantum = some seg2 := hseg2
        rw [hs] at hs2'
        rw [hslots] at harr'
        have e1 := Option.some.inj hs2'
        have e2 := Option.some.inj harr'
        subst e1
        subst e2
        rw [hslot] at hslot2
        have e3 := Option.some.inj hslot2
        subst e3
        rw [hseg] at hseg2'
        exact absurd hseg2' (by simp)
    | some r0 =>
      rcases vault_write_locked_outcome env (down dev) buf count f_pos r0 hres with
        ⟨hfull, _⟩ | ⟨_, hnone, _⟩ | ⟨_, s2, arr2, slot2, hs2, harr, _, hslot2, _, hr0⟩ |
        ⟨_, s2, _, arr2, slot2, seg2, hs2, _, harr, _, hslot2, hseg2, _⟩
      · have hfull' : wrap_s32 (dev.quantum * dev.qset) ≤ f_pos := hfull
        omega
      · have hnone' : write_slots env dev.data dev.qset = none := hnone
        rw [hslots] at hnone'
        exact absurd hnone' (by simp)
      · have harr' : write_slots env dev.data dev.qset = some arr2 := harr
        rw [hslots] at harr'
        have e2 := Option.some.inj harr'
        subst e2
        rw [hr0]
      · exfalso
        have hs2' : c_div f_pos dev.quantum = some s2 := hs2
        have harr' : write_slots env dev.data dev.qset = some arr2 := harr
        have hseg2' : write_seg env slot2 dev.quantum = some seg2 := hseg2
        rw [hs] at hs2'
        rw [hslots] at harr'
        have e1 := Option.some.inj hs2'
        have e2 := Option.some.inj harr'
        subst e1
        subst e2
        rw [hslot] at hslot2
        have e3 := Option.some.inj hslot2
        subst e3
        rw [hseg] at hseg2'
        exact absurd hseg2' (by simp)
  unfold vault_write
  simp only [hi, Bool.false_eq_true, if_false, hlocked, Option.map, up_down_data]

/-- A call of `vault_write` with a count below 2^63 returns `-ENOMEM` exactly when it
is not interrupted, the offset is within capacity, and an allocation fails; and what
such a call leaves as it was. -/
theorem vault_write_nomem_frame (env : kenv) (dev : vault_dev) (buf : List Byte) (count : Nat)
    (f_pos : Int) (r : call_result) (hc : count < 9223372036854775808)
    (hcall : vault_write env dev buf count f_pos = some r) :
    ((env.intr = false ∧ f_pos < wrap_s32 (dev.quantum * dev.qset) ∧
        (write_slots env dev.data dev.qset = none ∨
          ∃ s arr slot, c_div f_pos dev.quantum = some s ∧
            write_slots env dev.data dev.qset = some arr ∧
            arr[(wrap_s32 s).toNat]? = some slot ∧ write_seg env slot dev.quantum = none))
      ↔ r.retval = -ENOMEM) ∧
    (r.retval = -ENOMEM →
      r.dev.size = dev.size ∧ r.f_pos = f_pos ∧ r.dev.quantum = dev.quantum ∧
      r.dev.qset = dev.qset ∧ r.dev.sem = dev.sem ∧
      (∀ i seg, dev.seg_at i = some seg → r.dev.seg_at i = some seg) ∧
      (∀ p x, dev.byte_at p = some x → r.dev.byte_at p = some x) ∧
      (dev.data ≠ none → r.dev = dev)) := by
  have hsame : r.dev = dev → r.f_pos = f_pos →
      r.dev.size = dev.size ∧ r.f_pos = f_pos ∧ r.dev.quantum = dev.quantum ∧
      r.dev.qset = dev.qset ∧ r.dev.sem = dev.sem ∧
      (∀ i seg, dev.seg_at i = some seg → r.dev.seg_at i = some seg) ∧
      (∀ p x, dev.byte_at p = some x → r.dev.byte_at p = some x) ∧
      (dev.data ≠ none → r.dev = dev) := by
    intro h1 h2
    rw [h1]
    exact ⟨rfl, h2, rfl, rfl, rfl, fun _ _ h => h, fun _ _ h => h, fun _ => rfl⟩
  have e1 : (-ERESTARTSYS : Int) ≠ -ENOMEM := by decide
  have e2 : (0 : Int) ≠ -ENOMEM := by decide
  have e3 : (-EFAULT : Int) ≠ -ENOMEM := by decide
  rcases vault_write_some env dev buf count f_pos r hcall with ⟨hi, hr⟩ | ⟨hi, r0, h0, hr⟩
  · have hne : r.retval ≠ -ENOMEM := by
      rw [hr]
      exact e1
    refine ⟨⟨fun h => ?_, fun h => absurd h hne⟩, fun h => absurd h hne⟩
    rw [hi] at h
    exact absurd h.1 (by decide)
  · rcases vault_write_locked_outcome env (down dev) buf count f_pos r0 h0 with
      ⟨hfull, hr0⟩ | ⟨hlt, hslots, hr0⟩ | ⟨hlt, s, arr, slot, hs, hslots, hs0, hslot, hseg, hr0⟩ |
      ⟨hlt, s, q, arr, slot, seg, hs, hq, hslots, hs0, hslot, hseg, hq0, hlen, hres⟩
    · have hfull' : wrap_s32 (dev.quantum * dev.qset) ≤ f_pos := hfull
      have hne : r.retval ≠ -ENOMEM := by
        rw [hr, hr0]
        exact e2
      refine ⟨⟨fun h => ?_, fun h => absurd h hne⟩, fun h => absurd h hne⟩
      exact absurd hfull' (not_le.mpr h.2.1)
    · have hlt' : f_pos < wrap_s32 (dev.quantum * dev.qset) := hlt
      have hslots' : write_slots env dev.data dev.qset = none := hslots
      have hret : r.retval = -ENOMEM := by
        rw [hr, hr0]
      refine ⟨⟨fun _ => hret, fun _ => ⟨hi, hlt', Or.inl hslots'⟩⟩, fun _ => ?_⟩
      apply hsame
      · rw [hr, hr0]
        exact up_down dev
      · rw [hr, hr0]
    · have hlt' : f_pos < wrap_s32 (dev.quantum * dev.qset) := hlt
      have hslots' : write_slots env dev.data dev.qset = some arr := hslots
      have hs' : c_div f_pos dev.quantum = some s := hs
      have hseg' : write_seg env slot dev.quantum = none := hseg
      have hret : r.retval = -ENOMEM := by
        rw [hr, hr0]
      refine ⟨⟨fun _ => hret,
        fun _ => ⟨hi, hlt', Or.inr ⟨s, arr, slot, hs', hslots', hslot, hseg'⟩⟩⟩, fun _ => ?_⟩
      have hdev : r.dev = up { down dev with data := some arr } := by
        rw [hr, hr0]
      have hpos : r.f_pos = f_pos := by
        rw [hr, hr0]
      rcases nomem_dev env dev arr hslots' with hnone | hkeep
      · obtain ⟨hb, hsg⟩ := no_data_no_byte dev hnone
        refine ⟨?_, hpos, ?_, ?_, ?_, ?_, ?_, fun h => absurd hnone h⟩
        · rw [hdev]
          rfl
        · rw [hdev]
          rfl
        · rw [hdev]
          rfl
        · rw [hdev]
          show dev.sem - 1 + 1 = dev.sem
          omega
        · intro i sg h
          rw [hsg i] at h
          exact absurd h (by simp)
        · intro p x h
          rw [hb p] at h
          exact absurd h (by simp)
      · exact hsame (hdev.trans hkeep) hpos
    · have hlt' : f_pos < wrap_s32 (dev.quantum * dev.qset) := hlt
      have hslots' : write_slots env dev.data dev.qset = some arr := hslots
      have hs' : c_div f_pos dev.quantum = some s := hs
      have hseg' : write_seg env slot dev.quantum = some seg := hseg
      have hle := clamp_quantum_le count (down dev).quantum (wrap_s32 q)
      have hne : r.retval ≠ -ENOMEM := by
        rcases hres with ⟨_, hr0⟩ | ⟨_, hr0⟩
        · rw [hr, hr0]
          exact e3
        · rw [hr, hr0]
          generalize clamp_quantum count (down dev).quantum (wrap_s32 q) = c at hle
          show wrap_s64 (c : Int) ≠ -ENOMEM
          rw [wrap_s64_id _ (by omega) (by omega)]
          unfold ENOMEM
          omega
      refine ⟨⟨fun h => ?_, fun h => absurd h hne⟩, fun h => absurd h hne⟩
      exfalso
      rcases h.2.2 with hn | ⟨s2, arr2, slot2, hs2, ha2, hsl2, hsg2⟩
      · rw [hn] at hslots'
        exact absurd hslots' (by simp)
      · rw [hs'] at hs2
        rw [hslots'] at ha2
        have e1 := Option.some.inj hs2
        have e2 := Option.some.inj ha2
        subst e1
        subst e2
        rw [hslot] at hsl2
        have e3 := Option.some.inj hsl2
        subst e3
        rw [hseg'] at hsg2
        exact absurd hsg2 (by simp)

/-! ## Index safety -/

/-- Within the data of a well-formed device the locked body of `vault_read` faults
nowhere, whatever count is asked for. -/
theorem vault_read_locked_safe (data : Option (List (Option (List Byte)))) (Q n : Nat)
    (size : Nat) (sem : Int) (ucap count F : Nat)
    (hwf : (⟨data, Q, n, size, sem⟩ : vault_dev).wf) (hQ : 0 < Q) (hF : F < size)
    (hcap : size ≤ Q * n) :
    ∃ r, vault_read_locked ⟨data, Q, n, size, sem⟩ ucap count F = some r := by
  obtain ⟨_, hQ31, _, hn31, hsz, hdata⟩ := hwf
  simp only at hQ31 hn31 hsz hdata
  have hQ31' : Q < 2147483648 := by omega
  have hidx : F / Q < n := (Nat.div_lt_iff_lt_mul hQ).mpr (by rw [Nat.mul_comm]; omega)
  have hs : F / Q < 2147483648 := by omega
  have hq : F % Q < Q := Nat.mod_lt _ hQ
  have hnn : ¬ (((F / Q : Nat) : Int) < 0) := not_lt.mpr (Int.ofNat_zero_le _)
  have hnq : ¬ (((F % Q : Nat) : Int) < 0) := not_lt.mpr (Int.ofNat_zero_le _)
  have hlt : ¬ (size ≤ wrap_u64 (F : Int)) := by rw [wrap_u64_id F (by omega)]; omega
  unfold vault_read_locked
  simp only [hlt, if_false, c_div_nat F Q hQ, c_mod_nat F Q hQ, wrap_s32_nat _ hs,
    wrap_s32_nat (F % Q) (by omega), clamp_quantum_nat _ Q (F % Q) hQ31' hq, hnn, hnq,
    false_or, Int.toNat_ofNat]
  cases data with
  | none => exact ⟨_, rfl⟩
  | some arr =>
    obtain ⟨hlen, hslots⟩ := hdata
    have hlen' : F / Q < arr.length := by
      have : arr.length = n := by exact_mod_cast hlen
      omega
    simp only [List.getElem?_eq_getElem hlen']
    have hslot := hslots _ (List.getElem_mem hlen')
    cases hsl : arr[F / Q] with
    | none => exact ⟨_, rfl⟩
    | some seg =>
      rw [hsl] at hslot
      have hseg : seg.length = Q := by
        unfold slot_wf at hslot
        exact_mod_cast hslot
      have hk := Nat.min_le_right (clamp_size count size (F : Int)) (Q - F % Q)
      have hok : ¬ (seg.length < F % Q + min (clamp_size count size (F : Int)) (Q - F % Q)) := by
        omega
      simp only [hok, if_false]
      split <;> exact ⟨_, rfl⟩

/-- Within the capacity of a well-formed device the locked body of `vault_write` faults
nowhere, whatever the allocator answers and whatever count is given. -/
theorem vault_write_locked_safe (env : kenv) (data : Option (List (Option (List Byte))))
    (Q n : Nat) (size : Nat) (sem : Int) (buf : List Byte) (count F : Nat)
    (hwf : (⟨data, Q, n, size, sem⟩ : vault_dev).wf) (hQ : 0 < Q) (hF : F < Q * n) :
    ∃ r, vault_write_locked env ⟨data, Q, n, size, sem⟩ buf count F = some r := by
  obtain ⟨_, hQ31, hn0, hn31, hsz, hdata⟩ := hwf
  simp only at hQ31 hn0 hn31 hsz hdata
  have hQ31' : Q < 2147483648 := by omega
  by_cases hW : (F : Int) < wrap_s32 ((Q : Int) * (n : Int))
  · rw [vault_write_locked_eq env data Q n size sem buf count F hQ hQ31' hW]
    have hidx : F / Q < n := (Nat.div_lt_iff_lt_mul hQ).mpr (by rw [Nat.mul_comm]; omega)
    cases harr : write_slots env data (n : Int) with
    | none => exact ⟨_, rfl⟩
    | some arr =>
      obtain ⟨hlen, hslots⟩ := write_slots_wf env data Q n arr hn0 hn31 hdata harr
      have hlen' : F / Q < arr.length := by
        have : arr.length = n := by exact_mod_cast hlen
        omega
      simp only [List.getElem?_eq_getElem hlen']
      cases hseg : write_seg env arr[F / Q] (Q : Int) with
      | none => exact ⟨_, rfl⟩
      | some seg =>
        have hsl := write_seg_wf env arr[F / Q] Q seg hQ31' (hslots _ (List.getElem_mem hlen')) hseg
        have hq : F % Q < Q := Nat.mod_lt _ hQ
        have hk := Nat.min_le_right count (Q - F % Q)
        have hok : ¬ (seg.length < F % Q + min count (Q - F % Q)) := by omega
        simp only [hok, if_false]
        split <;> exact ⟨_, rfl⟩
  · unfold vault_write_locked
    simp only [not_lt.mp hW, if_true]
    exact ⟨_, rfl⟩

/-! ## What a write leaves alone -/

/-- A successful `vault_write` on a well-formed device whose `quantum` is not positive,
or at an offset outside the capacity test, leaves the device as it was. -/
theorem vault_write_kept (env : kenv) (dev : vault_dev) (buf : List Byte) (count : Nat)
    (f_pos : Int) (r : call_result) (hwf : dev.wf)
    (hcall : vault_write env dev buf count f_pos = some r) (hok : 0 ≤ r.retval)
    (h : ¬ 0 < dev.quantum ∨ wrap_s32 (dev.quantum * dev.qset) ≤ f_pos) : r.dev = dev := by
  have e2 : ¬ (0 : Int) ≤ -ENOMEM := by decide
  have e3 : ¬ (0 : Int) ≤ -EFAULT := by decide
  rcases vault_write_some env dev buf count f_pos r hcall with ⟨_, hr⟩ | ⟨_, r0, h0, hr⟩
  · rw [hr]
  · rcases vault_write_locked_outcome env (down dev) buf count f_pos r0 h0 with
      ⟨_, hr0⟩ | ⟨_, _, hr0⟩ | ⟨_, _, _, _, _, _, _, _, _, hr0⟩ |
      ⟨hlt, s, q, arr, slot, seg, hs, _, harr, _, hslot, hseg, _, _, hres⟩
    · rw [hr, hr0]
      exact up_down dev
    · rw [hr, hr0] at hok
      exact absurd hok e2
    · rw [hr, hr0] at hok
      exact absurd hok e2
    · exfalso
      rcases h with hq | hfull
      · obtain ⟨hq1, hq2, hs1, hs2, _, hdata⟩ := hwf
        have harr' : write_slots env dev.data dev.qset = some arr := harr
        have hseg' : write_seg env slot dev.quantum = some seg := hseg
        have hs' : c_div f_pos dev.quantum = some s := hs
        obtain ⟨_, hslots⟩ :=
          write_slots_wf env dev.data dev.quantum dev.qset arr hs1 hs2 hdata harr'
        have hseglen := write_seg_length env slot dev.quantum seg hq1 hq2
          (hslots slot (List.getElem?_mem hslot)) hseg'
        have hqne : dev.quantum ≠ 0 := by
          intro h
          unfold c_div at hs'
          rw [if_pos (Or.inl h)] at hs'
          exact absurd hs' (by simp)
        have h0 : (0 : Int) ≤ (seg.length : Int) := Int.ofNat_zero_le _
        omega
      · have hlt' : f_pos < wrap_s32 (dev.quantum * dev.qset) := hlt
        omega

/-- The segments of the array `vault_write` works on are those of the device: a fresh
array holds none. -/
theorem write_slots_seg_at (env : kenv) (data : Option (List (Option (List Byte))))
    (quantum qset : Int) (size : Nat) (sem : Int) (arr : List (Option (List Byte)))
    (h : write_slots env data qset = some arr) (i : Nat) :
    (match arr[i]? with
      | some slot => slot
      | none => none) = (⟨data, quantum, qset, size, sem⟩ : vault_dev).seg_at i := by
  unfold vault_dev.seg_at
  cases data with
  | some a =>
    have harr := write_slots_some env a arr qset h
    subst harr
    rfl
  | none =>
    simp only [write_slots, kmalloc_slots] at h
    split at h
    · rw [← Option.some.inj h]
      simp only [List.getElem?_replicate]
      by_cases hi : i < wrap_u64 qset * 8 % 18446744073709551616 / 8
      · simp only [hi, if_true]
      · simp only [hi, if_false]
    · exact absurd h (by simp)

/-! ## The claims on control commands, failures and invariants -/

/-- C11: control round trip.  For every header whose codes reach the `switch`, every
pair of module parameters and every `int` value `N`: a privileged `VAULT_IOCSQUANTUM`
whose argument is readable and holds `N` returns 0, a following `VAULT_IOCQQUANTUM`
returns `N`, and `vault_qset` is as before; likewise `VAULT_IOCSQSET` followed by
`VAULT_IOCQQSET` returns `N` and leaves `vault_quantum` as before. -/
theorem control_round_trip (h : vault_ioctl_h) (hwf : h.wf) (env env2 : ioctl_env)
    (g : vault_globals) (N : Int) (arg arg2 : Nat)
    (hN : -2147483648 ≤ N ∧ N < 2147483648)
    (hpriv : env.capable = true) (hread : env.uread = some N)
    (hsq : access_err env h.VAULT_IOCSQUANTUM = false)
    (hss : access_err env h.VAULT_IOCSQSET = false)
    (hqq : access_err env2 h.VAULT_IOCQQUANTUM = false)
    (hqs : access_err env2 h.VAULT_IOCQQSET = false) :
    ((vault_ioctl h env g h.VAULT_IOCSQUANTUM arg).retval = 0 ∧
      (vault_ioctl h env2 (vault_ioctl h env g h.VAULT_IOCSQUANTUM arg).globals
        h.VAULT_IOCQQUANTUM arg2).retval = N ∧
      (vault_ioctl h env g h.VAULT_IOCSQUANTUM arg).globals.vault_qset = g.vault_qset) ∧
    ((vault_ioctl h env g h.VAULT_IOCSQSET arg).retval = 0 ∧
      (vault_ioctl h env2 (vault_ioctl h env g h.VAULT_IOCSQSET arg).globals
        h.VAULT_IOCQQSET arg2).retval = N ∧
      (vault_ioctl h env g h.VAULT_IOCSQSET arg).globals.vault_quantum = g.vault_quantum) := by
  have hgot : get_user_nocheck env.uread = (0, N) := by
    rw [hread]
    show (0, wrap_s32 N) = (0, N)
    rw [wrap_s32_id N hN.1 hN.2]
  rw [vault_ioctl_squantum h hwf env g arg hsq, vault_ioctl_sqset h hwf env g arg hss,
    vault_ioctl_qquantum h hwf env2 _ arg2 hqq, vault_ioctl_qqset h hwf env2 _ arg2 hqs]
  simp [hpriv, hgot]

/-- An instance of `control_round_trip`: from the defaults, Set 512 and Query, on
either parameter, with the header modelled on the command table. -/
theorem control_round_trip_witness :
    ((vault_ioctl vault_ioctl_h_spec (ioctl_env_admin 512) vault_globals_default
        vault_ioctl_h_spec.VAULT_IOCSQUANTUM 0).retval = 0 ∧
      (vault_ioctl vault_ioctl_h_spec (ioctl_env_user 0)
        (vault_ioctl vault_ioctl_h_spec (ioctl_env_admin 512) vault_globals_default
          vault_ioctl_h_spec.VAULT_IOCSQUANTUM 0).globals
        vault_ioctl_h_spec.VAULT_IOCQQUANTUM 0).retval = 512 ∧
      (vault_ioctl vault_ioctl_h_spec (ioctl_env_admin 512) vault_globals_default
        vault_ioctl_h_spec.VAULT_IOCSQUANTUM 0).globals.vault_qset
        = vault_globals_default.vault_qset) ∧
    ((vault_ioctl vault_ioctl_h_spec (ioctl_env_admin 512) vault_globals_default
        vault_ioctl_h_spec.VAULT_IOCSQSET 0).retval = 0 ∧
      (vault_ioctl vault_ioctl_h_spec (ioctl_env_user 0)
        (vault_ioctl vault_ioctl_h_spec (ioctl_env_admin 512) vault_globals_default
          vault_ioctl_h_spec.VAULT_IOCSQSET 0).globals
        vault_ioctl_h_spec.VAULT_IOCQQSET 0).retval = 512 ∧
      (vault_ioctl vault_ioctl_h_spec (ioctl_env_admin 512) vault_globals_default
        vault_ioctl_h_spec.VAULT_IOCSQSET 0).globals.vault_quantum
        = vault_globals_default.vault_quantum) :=
  control_round_trip vault_ioctl_h_spec (by decide) (ioctl_env_admin 512) (ioctl_env_user 0)
    vault_globals_default 512 0 0 (by decide) (by decide) (by decide) (by decide)
    (by decide) (by decide) (by decide)

/-- C12, as stated, fails: with the header modelled on the command table, an
unprivileged `VAULT_IOCSQUANTUM` whose argument `access_ok` rejects returns `-EFAULT`,
not `-EPERM`, because the address check comes before the privilege check; and an
unprivileged `VAULT_IOCGQUANTUM` whose argument cannot be written returns `-EFAULT`
rather than succeeding. -/
theorem privilege_gate_bad_address :
    vault_ioctl_h_spec.wf ∧
    vault_ioctl vault_ioctl_h_spec ⟨false, false, none, false⟩ vault_globals_default
        vault_ioctl_h_spec.VAULT_IOCSQUANTUM 18446744073709551615
      = ⟨-EFAULT, vault_globals_default, none⟩ ∧
    -EFAULT ≠ -EPERM ∧
    vault_ioctl vault_ioctl_h_spec ⟨true, false, none, false⟩ vault_globals_default
        vault_ioctl_h_spec.VAULT_IOCGQUANTUM 0
      = ⟨-EFAULT, vault_globals_default, none⟩ := by
  decide

/-- C12, amended: the privilege gate.  For every header whose codes reach the `switch`,
every pair of module parameters, every argument and every caller without the
privilege: each of Set, Tell, eXchange and sHift, on either parameter, leaves both
parameters unchanged and stores nothing, and returns `-EPERM` when the argument passes
the address check made for the command word and `-EFAULT` when it does not.  When the
argument passes that check, Query returns the parameter and Reset returns 0 and
installs the defaults, and Get returns 0 and stores the parameter when the argument is
writable and returns `-EFAULT` when it is not; Get and Query leave both parameters
unchanged. -/
theorem privilege_gate (h : vault_ioctl_h) (hwf : h.wf) (env : ioctl_env)
    (g : vault_globals) (arg : Nat) (hunpriv : env.capable = false) :
    (∀ cmd ∈ [h.VAULT_IOCSQUANTUM, h.VAULT_IOCTQUANTUM, h.VAULT_IOCXQUANTUM,
        h.VAULT_IOCHQUANTUM, h.VAULT_IOCSQSET, h.VAULT_IOCTQSET, h.VAULT_IOCXQSET,
        h.VAULT_IOCHQSET],
      vault_ioctl h env g cmd arg
        = ⟨if access_err env cmd then -EFAULT else -EPERM, g, none⟩) ∧
    (access_err env h.VAULT_IOCQQUANTUM = false →
      vault_ioctl h env g h.VAULT_IOCQQUANTUM arg = ⟨g.vault_quantum, g, none⟩) ∧
    (access_err env h.VAULT_IOCQQSET = false →
      vault_ioctl h env g h.VAULT_IOCQQSET arg = ⟨g.vault_qset, g, none⟩) ∧
    (access_err env h.VAULT_IOCRESET = false →
      vault_ioctl h env g h.VAULT_IOCRESET arg = ⟨0, ⟨VAULT_QUANTUM, VAULT_QSET⟩, none⟩) ∧
    (access_err env h.VAULT_IOCGQUANTUM = false →
      vault_ioctl h env g h.VAULT_IOCGQUANTUM arg
        = if env.uwrite then ⟨0, g, some g.vault_quantum⟩ else ⟨-EFAULT, g, none⟩) ∧
    (access_err env h.VAULT_IOCGQSET = false →
      vault_ioctl h env g h.VAULT_IOCGQSET arg
        = if env.uwrite then ⟨0, g, some g.vault_qset⟩ else ⟨-EFAULT, g, none⟩) := by
  refine ⟨?_, ?_, ?_, ?_, ?_, ?_⟩
  · intro cmd hcmd
    cases hacc : access_err env cmd with
    | true =>
      have hmem : cmd ∈ h.codes := by
        simp only [List.mem_cons, List.mem_singleton, List.not_mem_nil, or_false] at hcmd
        simp only [vault_ioctl_h.codes, List.mem_cons, List.mem_singleton,
          List.not_mem_nil, or_false]
        tauto
      rw [vault_ioctl_access_err h hwf env g cmd arg hmem hacc]
      rfl
    | false =>
      simp only [List.mem_cons, List.mem_singleton, List.not_mem_nil, or_false] at hcmd
      rcases hcmd with rfl | rfl | rfl | rfl | rfl | rfl | rfl | rfl
      · rw [vault_ioctl_squantum h hwf env g arg hacc]; simp [hunpriv]
      · rw [vault_ioctl_tquantum h hwf env g arg hacc]; simp [hunpriv]
      · rw [vault_ioctl_xquantum h hwf env g arg hacc]; simp [hunpriv]
      · rw [vault_ioctl_hquantum h hwf env g arg hacc]; simp [hunpriv]
      · rw [vault_ioctl_sqset h hwf env g arg hacc]; simp [hunpriv]
      · rw [vault_ioctl_tqset h hwf env g arg hacc]; simp [hunpriv]
      · rw [vault_ioctl_xqset h hwf env g arg hacc]; simp [hunpriv]
      · rw [vault_ioctl_hqset h hwf env g arg hacc]; simp [hunpriv]
  · intro hacc
    rw [vault_ioctl_qquantum h hwf env g arg hacc]
  · intro hacc
    rw [vault_ioctl_qqset h hwf env g arg hacc]
  · intro hacc
    rw [vault_ioctl_reset h hwf env g arg hacc]
  · intro hacc
    rw [vault_ioctl_gquantum h hwf env g arg hacc]
    cases env.uwrite <;> simp [put_user_nocheck]
  · intro hacc
    rw [vault_ioctl_gqset h hwf env g arg hacc]
    cases env.uwrite <;> simp [put_user_nocheck]

/-- An instance of `privilege_gate`: an unprivileged Tell is refused and an
unprivileged Get succeeds. -/
theorem privilege_gate_witness :
    vault_ioctl_h_spec.wf ∧ (ioctl_env_user 7).capable = false ∧
    vault_ioctl vault_ioctl_h_spec (ioctl_env_user 7) vault_globals_default
        vault_ioctl_h_spec.VAULT_IOCTQUANTUM 7
      = ⟨-EPERM, vault_globals_default, none⟩ ∧
    vault_ioctl vault_ioctl_h_spec (ioctl_env_user 7) vault_globals_default
        vault_ioctl_h_spec.VAULT_IOCGQSET 7
      = ⟨0, vault_globals_default, some 1000⟩ :=
  ⟨by decide, by decide,
    (privilege_gate vault_ioctl_h_spec (by decide) (ioctl_env_user 7) vault_globals_default 7
      (by decide)).1 vault_ioctl_h_spec.VAULT_IOCTQUANTUM (by decide),
    (privilege_gate vault_ioctl_h_spec (by decide) (ioctl_env_user 7) vault_globals_default 7
      (by decide)).2.2.2.2.2 (by decide)⟩

/-- C13: exchange.  For every header whose codes reach the `switch`, every pair of
module parameters and every `int` value `K`: a privileged `VAULT_IOCXQUANTUM` whose
argument is readable, holds `K` and is writable returns 0, stores the previous
`vault_quantum` through the argument, sets `vault_quantum` to `K` and leaves
`vault_qset` as it was, and a following `VAULT_IOCQQUANTUM` returns `K`; likewise
`VAULT_IOCXQSET` and `VAULT_IOCQQSET` with the two parameters exchanged. -/
theorem exchange_command (h : vault_ioctl_h) (hwf : h.wf) (env env2 : ioctl_env)
    (g : vault_globals) (K : Int) (arg arg2 : Nat)
    (hK : -2147483648 ≤ K ∧ K < 2147483648)
    (hpriv : env.capable = true) (hread : env.uread = some K) (hwrite : env.uwrite = true)
    (hxq : access_err env h.VAULT_IOCXQUANTUM = false)
    (hxs : access_err env h.VAULT_IOCXQSET = false)
    (hqq : access_err env2 h.VAULT_IOCQQUANTUM = false)
    (hqs : access_err env2 h.VAULT_IOCQQSET = false) :
    (vault_ioctl h env g h.VAULT_IOCXQUANTUM arg
        = ⟨0, ⟨K, g.vault_qset⟩, some g.vault_quantum⟩ ∧
      (vault_ioctl h env2 ⟨K, g.vault_qset⟩ h.VAULT_IOCQQUANTUM arg2).retval = K) ∧
    (vault_ioctl h env g h.VAULT_IOCXQSET arg
        = ⟨0, ⟨g.vault_quantum, K⟩, some g.vault_qset⟩ ∧
      (vault_ioctl h env2 ⟨g.vault_quantum, K⟩ h.VAULT_IOCQQSET arg2).retval = K) := by
  have hgot : get_user_nocheck env.uread = (0, K) := by
    rw [hread]
    show (0, wrap_s32 K) = (0, K)
    rw [wrap_s32_id K hK.1 hK.2]
  have hput : ∀ x : Int, put_user_nocheck env.uwrite x = (0, some x) := by
    intro x
    rw [hwrite]
    rfl
  rw [vault_ioctl_xquantum h hwf env g arg hxq, vault_ioctl_xqset h hwf env g arg hxs,
    vault_ioctl_qquantum h hwf env2 _ arg2 hqq, vault_ioctl_qqset h hwf env2 _ arg2 hqs]
  simp [hpriv, hgot, hput]

/-- An instance of `exchange_command`: from the defaults, eXchange with 512 and
Query, on either parameter. -/
theorem exchange_command_witness :
    (vault_ioctl vault_ioctl_h_spec (ioctl_env_admin 512) vault_globals_default
        vault_ioctl_h_spec.VAULT_IOCXQUANTUM 0
        = ⟨0, ⟨512, vault_globals_default.vault_qset⟩,
            some vault_globals_default.vault_quantum⟩ ∧
      (vault_ioctl vault_ioctl_h_spec (ioctl_env_user 0)
        ⟨512, vault_globals_default.vault_qset⟩
        vault_ioctl_h_spec.VAULT_IOCQQUANTUM 0).retval = 512) ∧
    (vault_ioctl vault_ioctl_h_spec (ioctl_env_admin 512) vault_globals_default
        vault_ioctl_h_spec.VAULT_IOCXQSET 0
        = ⟨0, ⟨vault_globals_default.vault_quantum, 512⟩,
            some vault_globals_default.vault_qset⟩ ∧
      (vault_ioctl vault_ioctl_h_spec (ioctl_env_user 0)
        ⟨vault_globals_default.vault_quantum, 512⟩
        vault_ioctl_h_spec.VAULT_IOCQQSET 0).retval = 512) :=
  exchange_command vault_ioctl_h_spec (by decide) (ioctl_env_admin 512) (ioctl_env_user 0)
    vault_globals_default 512 0 0 (by decide) (by decide) (by decide) (by decide)
    (by decide) (by decide) (by decide) (by decide)

/-- C14: allocation-failure atomicity.  For every device state, every non-negative
offset and every count below 2^63: a call of `vault_write` that is not interrupted, at
an offset within capacity, returns `-ENOMEM` when the allocation of the segment array
fails, and when the allocation of the target segment fails; and a call returns
`-ENOMEM` in no other case.  After such a call the size, the file position, `quantum`,
`qset` and the semaphore count are as before, every segment present before is present
with the same contents, every byte stored before is stored with the same value, and a
device that had a segment array is left exactly as it was. -/
theorem alloc_failure_atomic (env : kenv) (dev : vault_dev) (buf : List Byte) (count : Nat)
    (f_pos : Int) (h0 : 0 ≤ f_pos) (hc : count < 9223372036854775808) :
    (env.intr = false → f_pos < wrap_s32 (dev.quantum * dev.qset) →
      write_slots env dev.data dev.qset = none →
      vault_write env dev buf count f_pos = some ⟨-ENOMEM, dev, f_pos, []⟩) ∧
    (env.intr = false → f_pos < wrap_s32 (dev.quantum * dev.qset) →
      ∀ arr slot, write_slots env dev.data dev.qset = some arr →
        0 ≤ wrap_s32 (Int.tdiv f_pos dev.quantum) →
        arr[(wrap_s32 (Int.tdiv f_pos dev.quantum)).toNat]? = some slot →
        write_seg env slot dev.quantum = none →
        vault_write env dev buf count f_pos
          = some ⟨-ENOMEM, { dev with data := some arr }, f_pos, []⟩) ∧
    (∀ r, vault_write env dev buf count f_pos = some r →
      ((env.intr = false ∧ f_pos < wrap_s32 (dev.quantum * dev.qset) ∧
          (write_slots env dev.data dev.qset = none ∨
            ∃ s arr slot, c_div f_pos dev.quantum = some s ∧
              write_slots env dev.data dev.qset = some arr ∧
              arr[(wrap_s32 s).toNat]? = some slot ∧ write_seg env slot dev.quantum = none))
        ↔ r.retval = -ENOMEM) ∧
      (r.retval = -ENOMEM →
        r.dev.size = dev.size ∧ r.f_pos = f_pos ∧ r.dev.quantum = dev.quantum ∧
        r.dev.qset = dev.qset ∧ r.dev.sem = dev.sem ∧
        (∀ i seg, dev.seg_at i = some seg → r.dev.seg_at i = some seg) ∧
        (∀ p x, dev.byte_at p = some x → r.dev.byte_at p = some x) ∧
        (dev.data ≠ none → r.dev = dev))) :=
  ⟨fun hi hlt hslots => vault_write_nomem_array env dev buf count f_pos hi h0 hlt hslots,
    fun hi hlt arr slot hslots hs0 hslot hseg =>
      vault_write_nomem_seg env dev buf count f_pos arr slot hi h0 hlt hslots hs0 hslot hseg,
    fun r hcall => vault_write_nomem_frame env dev buf count f_pos r hc hcall⟩

/-- An instance of `alloc_failure_atomic`: a write into an absent segment whose
allocation fails. -/
theorem alloc_failure_atomic_witness :
    (0 : Int) ≤ 4 ∧ (6 : Nat) < 9223372036854775808 ∧
    vault_write ⟨false, true, none⟩ dev_one_byte [1, 2, 3, 4, 5, 6] 6 4
      = some ⟨-ENOMEM, { dev_one_byte with data := some [some [7, 170, 170, 170], none, none] },
          4, []⟩ :=
  ⟨by decide, by decide,
    (alloc_failure_atomic ⟨false, true, none⟩ dev_one_byte [1, 2, 3, 4, 5, 6] 6 4
      (by decide) (by decide)).2.1 rfl (by decide) [some [7, 170, 170, 170], none, none] none
      (by decide) (by decide) (by decide) (by decide)⟩

/-- C15: changing the module parameters does not resize an existing store.  A control
call, with any command word, argument and privilege, returns and leaves the array of
devices as it was, so every device keeps its `quantum`, `qset`, `size` and segment
data.  After every call into the driver that returns, each device has the `quantum`
and `qset` it had, unless the call is `vault_trim` on that device or a write-only
`vault_open` of it, which calls `vault_trim`, and then the device is the empty store
with the module parameters of that moment.  Calls of `vault_read`, `vault_write` and
`vault_llseek` leave the `quantum` and `qset` of their device unchanged. -/
theorem params_change_only_by_trim (h : vault_ioctl_h) (s s' : vault_system)
    (c : vault_call) (hstep : s.step h c = some s') :
    (∀ env cmd arg, s.step h (.ioctl env cmd arg)
      = some ⟨(vault_ioctl h env s.globals cmd arg).globals, s.devices⟩) ∧
    (∀ env cmd arg, c = .ioctl env cmd arg → s'.devices = s.devices) ∧
    (∀ i d d', s.devices[i]? = some d → s'.devices[i]? = some d' →
      (d'.quantum = d.quantum ∧ d'.qset = d.qset) ∨
      ((c = .trim i ∨
          ∃ env f_flags, c = .open i env f_flags ∧ f_flags &&& O_ACCMODE = O_WRONLY) ∧
        d' = ⟨none, s.globals.vault_quantum, s.globals.vault_qset, 0, d.sem⟩)) ∧
    (∀ env dev ucap count f_pos r, vault_read env dev ucap count f_pos = some r →
      r.dev.quantum = dev.quantum ∧ r.dev.qset = dev.qset) ∧
    (∀ env dev buf count f_pos r, vault_write env dev buf count f_pos = some r →
      r.dev.quantum = dev.quantum ∧ r.dev.qset = dev.qset) ∧
    (∀ dev f_pos off whence,
      (vault_llseek dev f_pos off whence).dev.quantum = dev.quantum ∧
      (vault_llseek dev f_pos off whence).dev.qset = dev.qset) := by
  have hread : ∀ env dev ucap count f_pos r, vault_read env dev ucap count f_pos = some r →
      r.dev.quantum = dev.quantum ∧ r.dev.qset = dev.qset := by
    intro env dev ucap count f_pos r hr
    rw [vault_read_dev env dev ucap count f_pos r hr]
    exact ⟨rfl, rfl⟩
  have hwrite : ∀ env dev buf count f_pos r, vault_write env dev buf count f_pos = some r →
      r.dev.quantum = dev.quantum ∧ r.dev.qset = dev.qset := by
    intro env dev buf count f_pos r hr
    have := vault_write_params env dev buf count f_pos r hr
    exact ⟨this.1, this.2.1⟩
  refine ⟨fun _ _ _ => rfl, ?_, ?_, hread, hwrite, ?_⟩
  · intro env cmd arg hc
    rw [hc] at hstep
    simp only [vault_system.step] at hstep
    rw [← Option.some.inj hstep]
  · intro i d d' hd hd'
    cases c with
    | «open» i0 env f_flags =>
      simp only [vault_system.step, Option.bind_eq_some, Option.map_eq_some'] at hstep
      obtain ⟨dev, hdev, t, ht, hs⟩ := hstep
      rw [← hs] at hd'
      rcases getElem?_set_cases _ _ _ _ _ _ hd hd' with ⟨hi, hx⟩ | hx
      · subst hi
        rw [hd] at hdev
        have hdd := Option.some.inj hdev
        subst hdd
        rcases vault_open_some s.globals env f_flags d t ht with
          ⟨_, h1⟩ | ⟨_, _, h1⟩ | ⟨hw, _, h1⟩
        · rw [hx, h1]
          exact Or.inl ⟨rfl, rfl⟩
        · rw [hx, h1]
          exact Or.inl ⟨rfl, rfl⟩
        · rw [hx, h1]
          exact Or.inr ⟨Or.inr ⟨env, f_flags, rfl, hw⟩, rfl⟩
      · rw [hx]
        exact Or.inl ⟨rfl, rfl⟩
    | read i0 env ucap count f_pos =>
      simp only [vault_system.step, Option.bind_eq_some, Option.map_eq_some'] at hstep
      obtain ⟨dev, hdev, r, hr, hs⟩ := hstep
      rw [← hs] at hd'
      rcases getElem?_set_cases _ _ _ _ _ _ hd hd' with ⟨hi, hx⟩ | hx
      · subst hi
        rw [hd] at hdev
        have hdd := Option.some.inj hdev
        subst hdd
        rw [hx]
        exact Or.inl (hread env d ucap count f_pos r hr)
      · rw [hx]
        exact Or.inl ⟨rfl, rfl⟩
    | write i0 env buf count f_pos =>
      simp only [vault_system.step, Option.bind_eq_some, Option.map_eq_some'] at hstep
      obtain ⟨dev, hdev, r, hr, hs⟩ := hstep
      rw [← hs] at hd'
      rcases getElem?_set_cases _ _ _ _ _ _ hd hd' with ⟨hi, hx⟩ | hx
      · subst hi
        rw [hd] at hdev
        have hdd := Option.some.inj hdev
        subst hdd
        rw [hx]
        exact Or.inl (hwrite env d buf count f_pos r hr)
      · rw [hx]
        exact Or.inl ⟨rfl, rfl⟩
    | trim i0 =>
      simp only [vault_system.step, Option.bind_eq_some, Option.map_eq_some'] at hstep
      obtain ⟨dev, hdev, t, ht, hs⟩ := hstep
      rw [← hs] at hd'
      rcases getElem?_set_cases _ _ _ _ _ _ hd hd' with ⟨hi, hx⟩ | hx
      · subst hi
        rw [hd] at hdev
        have hdd := Option.some.inj hdev
        subst hdd
        rw [hx, vault_trim_some s.globals d t ht]
        exact Or.inr ⟨Or.inl rfl, rfl⟩
      · rw [hx]
        exact Or.inl ⟨rfl, rfl⟩
    | llseek i0 f_pos off whence =>
      simp only [vault_system.step, Option.map_eq_some'] at hstep
      obtain ⟨dev, hdev, hs⟩ := hstep
      rw [← hs] at hd'
      rcases getElem?_set_cases _ _ _ _ _ _ hd hd' with ⟨hi, hx⟩ | hx
      · subst hi
        rw [hd] at hdev
        have hdd := Option.some.inj hdev
        subst hdd
        rw [hx, vault_llseek_dev]
        exact Or.inl ⟨rfl, rfl⟩
      · rw [hx]
        exact Or.inl ⟨rfl, rfl⟩
    | ioctl env cmd arg =>
      simp only [vault_system.step] at hstep
      rw [← Option.some.inj hstep] at hd'
      rw [hd] at hd'
      rw [← Option.some.inj hd']
      exact Or.inl ⟨rfl, rfl⟩
  · intro dev f_pos off whence
    rw [vault_llseek_dev]
    exact ⟨rfl, rfl⟩

/-- An instance of `params_change_only_by_trim`: a privileged Set of `vault_quantum` to
8 while a device of segment size 4 holds 8 bytes. -/
theorem params_change_only_by_trim_witness :
    (⟨vault_globals_default, [dev_small_written]⟩ : vault_system).step vault_ioctl_h_spec
        (.ioctl (ioctl_env_admin 8) vault_ioctl_h_spec.VAULT_IOCSQUANTUM 0)
      = some ⟨⟨8, 1000⟩, [dev_small_written]⟩ ∧
    (⟨⟨8, 1000⟩, [dev_small_written]⟩ : vault_system).devices
      = (⟨vault_globals_default, [dev_small_written]⟩ : vault_system).devices :=
  ⟨by decide,
    (params_change_only_by_trim vault_ioctl_h_spec ⟨vault_globals_default, [dev_small_written]⟩
      ⟨⟨8, 1000⟩, [dev_small_written]⟩
      (.ioctl (ioctl_env_admin 8) vault_ioctl_h_spec.VAULT_IOCSQUANTUM 0) (by decide)).2.1
      (ioctl_env_admin 8) vault_ioctl_h_spec.VAULT_IOCSQUANTUM 0 rfl⟩

/-- C16 (size invariant): what the code does where the claim fails.  From the
compiled-in defaults, a privileged `VAULT_IOCTQUANTUM` with the argument -5 (as an
`unsigned long`) is stored unchecked, and a following write-only `vault_open` leaves a
device with `quantum = -5`, `qset = 1000` and `size = 0`, of which
`0 ≤ size ≤ quantum × qset` does not hold. -/
theorem size_invariant_negative_product :
    (vault_init_module vault_globals_default 1).run vault_ioctl_h_spec
        [.ioctl (ioctl_env_admin 0) vault_ioctl_h_spec.VAULT_IOCTQUANTUM 18446744073709551611,
         .open 0 env_granted O_WRONLY]
      = some ⟨⟨-5, 1000⟩, [⟨none, -5, 1000, 0, 1⟩]⟩ ∧
    ¬ ((0 : Int) ≤ ((⟨none, -5, 1000, 0, 1⟩ : vault_dev).size : Int) ∧
        (((⟨none, -5, 1000, 0, 1⟩ : vault_dev).size : Int)
          ≤ (⟨none, -5, 1000, 0, 1⟩ : vault_dev).quantum
              * (⟨none, -5, 1000, 0, 1⟩ : vault_dev).qset)) := by
  constructor
  · decide
  · decide

/-- Where the size invariant holds: starting from freshly initialised devices (size
0, no segments, `quantum` and `qset` taken from module parameters that are `int`
values), after every finite sequence of open, read, write, trim, seek and control
calls, with the file positions of reads and writes not negative, every device whose
`quantum × qset` is not negative, in particular every device whose `quantum` and
`qset` are both positive, has `0 ≤ size ≤ quantum × qset`. -/
theorem size_invariant (h : vault_ioctl_h) (g : vault_globals) (n : Nat)
    (calls : List vault_call) (s : vault_system) (hg : g.wf)
    (hvalid : ∀ c ∈ calls, c.valid)
    (hrun : (vault_init_module g n).run h calls = some s) :
    ∀ d ∈ s.devices,
      (0 : Int) ≤ d.size ∧
      (0 ≤ d.quantum * d.qset → (d.size : Int) ≤ d.quantum * d.qset) := by
  intro d hd
  have hinv := (vault_system_run_inv h calls (vault_init_module g n) s
    (vault_init_module_inv g n hg) hvalid hrun).2 d hd
  obtain ⟨_, hsz⟩ := hinv
  refine ⟨Int.ofNat_zero_le _, fun hp => ?_⟩
  by_cases h0 : 0 < d.size
  · exact (hsz h0).2
  · have hz : d.size = 0 := by omega
    rw [hz]
    exact_mod_cast hp

/-- An instance of `size_invariant`: the parameters are set to 4 and 3, the device
is opened for writing, written, read and sought. -/
theorem size_invariant_witness :
    vault_globals_default.wf ∧
    (∀ c ∈ [vault_call.ioctl (ioctl_env_admin 4) vault_ioctl_h_spec.VAULT_IOCSQUANTUM 0,
        vault_call.ioctl (ioctl_env_admin 4) vault_ioctl_h_spec.VAULT_IOCTQSET 3,
        vault_call.open 0 env_granted O_WRONLY,
        vault_call.write 0 env_granted [1, 2, 3, 4, 5, 6] 6 2,
        vault_call.read 0 env_granted 8 8 0,
        vault_call.llseek 0 0 0 2], c.valid) ∧
    (vault_init_module vault_globals_default 1).run vault_ioctl_h_spec
        [vault_call.ioctl (ioctl_env_admin 4) vault_ioctl_h_spec.VAULT_IOCSQUANTUM 0,
         vault_call.ioctl (ioctl_env_admin 4) vault_ioctl_h_spec.VAULT_IOCTQSET 3,
         vault_call.open 0 env_granted O_WRONLY,
         vault_call.write 0 env_granted [1, 2, 3, 4, 5, 6] 6 2,
         vault_call.read 0 env_granted 8 8 0,
         vault_call.llseek 0 0 0 2]
      = some ⟨⟨4, 3⟩, [⟨some [some [170, 170, 1, 2], none, none], 4, 3, 4, 1⟩]⟩ ∧
    ∀ d ∈ [(⟨some [some [170, 170, 1, 2], none, none], 4, 3, 4, 1⟩ : vault_dev)],
      (0 : Int) ≤ d.size ∧
      (0 ≤ d.quantum * d.qset → (d.size : Int) ≤ d.quantum * d.qset) :=
  ⟨by decide, by decide, by decide,
    size_invariant vault_ioctl_h_spec vault_globals_default 1
      [vault_call.ioctl (ioctl_env_admin 4) vault_ioctl_h_spec.VAULT_IOCSQUANTUM 0,
       vault_call.ioctl (ioctl_env_admin 4) vault_ioctl_h_spec.VAULT_IOCTQSET 3,
       vault_call.open 0 env_granted O_WRONLY,
       vault_call.write 0 env_granted [1, 2, 3, 4, 5, 6] 6 2,
       vault_call.read 0 env_granted 8 8 0,
       vault_call.llseek 0 0 0 2]
      ⟨⟨4, 3⟩, [⟨some [some [170, 170, 1, 2], none, none], 4, 3, 4, 1⟩]⟩
      (by decide) (by decide) (by decide)⟩

/-- C17: what the code does where the claim fails.  For every header whose codes reach
the `switch`, a privileged `VAULT_IOCTQUANTUM` with argument 0 issued on the compiled-in
defaults returns 0 and leaves `vault_quantum = 0`, which is not positive; a privileged
`VAULT_IOCSQSET` whose argument holds -5 leaves `vault_qset = -5`; and a privileged
`VAULT_IOCSQUANTUM` whose argument cannot be read returns `-EFAULT` and still leaves
`vault_quantum = 0`. -/
theorem config_positivity_fails (h : vault_ioctl_h) (hwf : h.wf) (env : ioctl_env)
    (hpriv : env.capable = true)
    (htq : access_err env h.VAULT_IOCTQUANTUM = false)
    (hss : access_err env h.VAULT_IOCSQSET = false)
    (hsq : access_err env h.VAULT_IOCSQUANTUM = false) :
    vault_ioctl h env vault_globals_default h.VAULT_IOCTQUANTUM 0
      = ⟨0, ⟨0, 1000⟩, none⟩ ∧
    ¬ 0 < (vault_ioctl h env vault_globals_default h.VAULT_IOCTQUANTUM 0).globals.vault_quantum ∧
    (env.uread = some (-5) →
      vault_ioctl h env vault_globals_default h.VAULT_IOCSQSET 0
        = ⟨0, ⟨4000, -5⟩, none⟩) ∧
    (env.uread = none →
      vault_ioctl h env vault_globals_default h.VAULT_IOCSQUANTUM 0
        = ⟨-EFAULT, ⟨0, 1000⟩, none⟩) := by
  rw [vault_ioctl_tquantum h hwf env _ 0 htq, vault_ioctl_sqset h hwf env _ 0 hss,
    vault_ioctl_squantum h hwf env _ 0 hsq]
  simp only [hpriv, if_true]
  refine ⟨by decide, by decide, ?_, ?_⟩
  · intro hr
    rw [hr]
    decide
  · intro hr
    rw [hr]
    decide

/-- An instance of `config_positivity_fails` with the header modelled on the
command table. -/
theorem config_positivity_fails_witness :
    vault_ioctl_h_spec.wf ∧
    vault_ioctl vault_ioctl_h_spec (ioctl_env_admin (-5)) vault_globals_default
        vault_ioctl_h_spec.VAULT_IOCTQUANTUM 0
      = ⟨0, ⟨0, 1000⟩, none⟩ ∧
    vault_ioctl vault_ioctl_h_spec (ioctl_env_admin (-5)) vault_globals_default
        vault_ioctl_h_spec.VAULT_IOCSQSET 0
      = ⟨0, ⟨4000, -5⟩, none⟩ :=
  ⟨by decide,
    (config_positivity_fails vault_ioctl_h_spec (by decide) (ioctl_env_admin (-5))
      (by decide) (by decide) (by decide) (by decide)).1,
    (config_positivity_fails vault_ioctl_h_spec (by decide) (ioctl_env_admin (-5))
      (by decide) (by decide) (by decide) (by decide)).2.2.1 (by decide)⟩

/-- C18: lock balance, with the semaphore as the counter `sem`.  Every call of
`vault_read`, `vault_write` and write-only `vault_open` that returns leaves the count
as it found it.  A call that acquires the lock runs its body on the device with the
count one lower, the body leaves that count alone on every exit path, and the count is
raised once before the call returns.  A call whose acquisition is interrupted does
return, with `-ERESTARTSYS` and the device exactly as it was, count included. -/
theorem lock_balance (g : vault_globals) (env : kenv) (dev : vault_dev) :
    (env.intr = true →
      (∀ ucap count f_pos,
        vault_read env dev ucap count f_pos = some ⟨-ERESTARTSYS, dev, f_pos, []⟩) ∧
      (∀ buf count f_pos,
        vault_write env dev buf count f_pos = some ⟨-ERESTARTSYS, dev, f_pos, []⟩) ∧
      (∀ f_flags, f_flags &&& O_ACCMODE = O_WRONLY →
        vault_open g env f_flags dev = some (-ERESTARTSYS, dev))) ∧
    (∀ ucap count f_pos r, vault_read env dev ucap count f_pos = some r →
      r.dev.sem = dev.sem ∧
      (env.intr = true → r = ⟨-ERESTARTSYS, dev, f_pos, []⟩) ∧
      (env.intr = false → ∃ r0, vault_read_locked (down dev) ucap count f_pos = some r0 ∧
        r0.dev.sem = dev.sem - 1 ∧ r = ⟨r0.retval, up r0.dev, r0.f_pos, r0.ubuf⟩)) ∧
    (∀ buf count f_pos r, vault_write env dev buf count f_pos = some r →
      r.dev.sem = dev.sem ∧
      (env.intr = true → r = ⟨-ERESTARTSYS, dev, f_pos, []⟩) ∧
      (env.intr = false → ∃ r0, vault_write_locked env (down dev) buf count f_pos = some r0 ∧
        r0.dev.sem = dev.sem - 1 ∧ r = ⟨r0.retval, up r0.dev, r0.f_pos, r0.ubuf⟩)) ∧
    (∀ f_flags t, f_flags &&& O_ACCMODE = O_WRONLY → vault_open g env f_flags dev = some t →
      t.2.sem = dev.sem ∧
      (env.intr = true → t = (-ERESTARTSYS, dev)) ∧
      (env.intr = false → ∃ t0, vault_trim g (down dev) = some t0 ∧
        t0.2.sem = dev.sem - 1 ∧ t = (0, up t0.2))) := by
  refine ⟨?_, ?_, ?_, ?_⟩
  · intro hi
    refine ⟨fun ucap count f_pos => vault_read_intr env dev ucap count f_pos hi,
      fun buf count f_pos => vault_write_intr env dev buf count f_pos hi, ?_⟩
    intro f_flags hw
    unfold vault_open
    rw [if_pos hw, hi]
    rfl
  · intro ucap count f_pos r hcall
    refine ⟨?_, ?_, ?_⟩
    · rw [vault_read_dev env dev ucap count f_pos r hcall]
    · intro hi
      rcases vault_read_some env dev ucap count f_pos r hcall with ⟨_, hr⟩ | ⟨hf, _⟩
      · exact hr
      · rw [hi] at hf
        exact absurd hf (by decide)
    · intro hi
      rcases vault_read_some env dev ucap count f_pos r hcall with ⟨ht, _⟩ | ⟨_, r0, h0, hr⟩
      · rw [hi] at ht
        exact absurd ht (by decide)
      · refine ⟨r0, h0, ?_, hr⟩
        have hsem : r.dev.sem = dev.sem := by
          rw [vault_read_dev env dev ucap count f_pos r hcall]
        rw [hr] at hsem
        have hup : (up r0.dev).sem = r0.dev.sem + 1 := rfl
        simp only [] at hsem
        omega
  · intro buf count f_pos r hcall
    refine ⟨(vault_write_params env dev buf count f_pos r hcall).2.2, ?_, ?_⟩
    · intro hi
      rcases vault_write_some env dev buf count f_pos r hcall with ⟨_, hr⟩ | ⟨hf, _⟩
      · exact hr
      · rw [hi] at hf
        exact absurd hf (by decide)
    · intro hi
      rcases vault_write_some env dev buf count f_pos r hcall with ⟨ht, _⟩ | ⟨_, r0, h0, hr⟩
      · rw [hi] at ht
        exact absurd ht (by decide)
      · exact ⟨r0, h0, (vault_write_locked_params env (down dev) buf count f_pos r0 h0).2.2, hr⟩
  · intro f_flags t hw hcall
    unfold vault_open at hcall
    rw [if_pos hw] at hcall
    cases hi : env.intr with
    | true =>
      rw [hi] at hcall
      have ht := (Option.some.inj hcall).symm
      simp only [if_true] at ht
      rw [ht]
      exact ⟨rfl, fun _ => rfl, fun h => absurd h (by decide)⟩
    | false =>
      rw [hi] at hcall
      simp only [Bool.false_eq_true, if_false, Option.map_eq_some'] at hcall
      obtain ⟨t0, h0, ht⟩ := hcall
      have h1 := vault_trim_some g (down dev) t0 h0
      have hsem : t0.2.sem = dev.sem - 1 := by
        rw [h1]
        rfl
      refine ⟨?_, fun h => absurd h (by decide), fun _ => ⟨t0, h0, hsem, ht.symm⟩⟩
      rw [← ht]
      show t0.2.sem + 1 = dev.sem
      omega

/-- An instance of `lock_balance`: a write of 2 bytes returns with the count at 1,
as before. -/
theorem lock_balance_witness :
    vault_write env_granted dev_small [1, 2, 3, 4, 5, 6] 6 2
      = some ⟨2, ⟨some [some [170, 170, 1, 2], none, none], 4, 3, 4, 1⟩, 4, []⟩ ∧
    (⟨some [some [170, 170, 1, 2], none, none], 4, 3, 4, 1⟩ : vault_dev).sem = dev_small.sem :=
  ⟨by decide,
    ((lock_balance vault_globals_default env_granted dev_small).2.2.1 [1, 2, 3, 4, 5, 6] 6 2
      ⟨2, ⟨some [some [170, 170, 1, 2], none, none], 4, 3, 4, 1⟩, 4, []⟩ (by decide)).1⟩

/-- C19: index safety.  For every device with `quantum > 0`, `qset > 0`,
`size ≤ quantum × qset` and a segment array that is absent or has exactly `qset` slots,
each absent or of exactly `quantum` bytes: for an offset below `size`, `vault_read`
computes the segment index `offset / quantum` and the byte index `offset mod quantum`,
the segment index is below `qset`, the byte index plus the clamped count is at most
`quantum`, and the call returns a result; for an offset below `quantum × qset` the same
holds of `vault_write`, whatever the allocator answers.  In the model every access is
bounds-checked and an access out of range returns no result, so a result means no slot
or byte out of range was indexed. -/
theorem index_safety (env : kenv) (dev : vault_dev) (offset : Nat) (hwf : dev.wf)
    (hq : 0 < dev.quantum) (hqs : 0 < dev.qset)
    (hsize : (dev.size : Int) ≤ dev.quantum * dev.qset) :
    (offset < dev.size → ∀ ucap count,
      c_div offset dev.quantum = some ((offset : Int) / dev.quantum) ∧
      c_mod offset dev.quantum = some ((offset : Int) % dev.quantum) ∧
      0 ≤ (offset : Int) / dev.quantum ∧ (offset : Int) / dev.quantum < dev.qset ∧
      0 ≤ (offset : Int) % dev.quantum ∧
      (offset : Int) % dev.quantum +
          clamp_quantum (clamp_size count dev.size offset) dev.quantum
            ((offset : Int) % dev.quantum) ≤ dev.quantum ∧
      ∃ r, vault_read env dev ucap count offset = some r) ∧
    ((offset : Int) < dev.quantum * dev.qset → ∀ buf count,
      c_div offset dev.quantum = some ((offset : Int) / dev.quantum) ∧
      c_mod offset dev.quantum = some ((offset : Int) % dev.quantum) ∧
      0 ≤ (offset : Int) / dev.quantum ∧ (offset : Int) / dev.quantum < dev.qset ∧
      0 ≤ (offset : Int) % dev.quantum ∧
      (offset : Int) % dev.quantum +
          clamp_quantum count dev.quantum ((offset : Int) % dev.quantum) ≤ dev.quantum ∧
      ∃ r, vault_write env dev buf count offset = some r) := by
  obtain ⟨data, quantum, qset, size, sem⟩ := dev
  simp only at hq hqs hsize ⊢
  lift quantum to ℕ using hq.le with Q
  lift qset to ℕ using hqs.le with n
  have hQ : 0 < Q := by exact_mod_cast hq
  have hQ31 : Q < 2147483648 := by
    have := hwf.2.1
    simp only at this
    omega
  have hcap : size ≤ Q * n := by exact_mod_cast hsize
  have hdiv : (offset : Int) / (Q : Int) = ((offset / Q : Nat) : Int) := by push_cast; rfl
  have hmod : (offset : Int) % (Q : Int) = ((offset % Q : Nat) : Int) := by push_cast; rfl
  have hm : offset % Q < Q := Nat.mod_lt _ hQ
  have hall : ∀ k : Nat, offset < Q * n →
      c_div offset (Q : Int) = some ((offset : Int) / (Q : Int)) ∧
      c_mod offset (Q : Int) = some ((offset : Int) % (Q : Int)) ∧
      0 ≤ (offset : Int) / (Q : Int) ∧ (offset : Int) / (Q : Int) < (n : Int) ∧
      0 ≤ (offset : Int) % (Q : Int) ∧
      (offset : Int) % (Q : Int) + clamp_quantum k (Q : Int) ((offset : Int) % (Q : Int))
        ≤ (Q : Int) := by
    intro k hlt
    have hidx : offset / Q < n := (Nat.div_lt_iff_lt_mul hQ).mpr (by rw [Nat.mul_comm]; omega)
    have hk := Nat.min_le_right k (Q - offset % Q)
    rw [hdiv, hmod, clamp_quantum_nat k Q (offset % Q) hQ31 hm]
    refine ⟨c_div_nat offset Q hQ, c_mod_nat offset Q hQ, Int.ofNat_zero_le _, ?_,
      Int.ofNat_zero_le _, ?_⟩
    · exact_mod_cast hidx
    · have : offset % Q + min k (Q - offset % Q) ≤ Q := by omega
      exact_mod_cast this
  constructor
  · intro hlt ucap count
    obtain ⟨h1, h2, h3, h4, h5, h6⟩ :=
      hall (clamp_size count size (offset : Int)) (by omega)
    refine ⟨h1, h2, h3, h4, h5, h6, ?_⟩
    unfold vault_read
    cases env.intr with
    | true => exact ⟨_, rfl⟩
    | false =>
      obtain ⟨r0, h0⟩ := vault_read_locked_safe data Q n size (sem - 1) ucap count offset
        hwf hQ hlt hcap
      have h0' : vault_read_locked (down ⟨data, Q, n, size, sem⟩) ucap count offset = some r0 := h0
      rw [h0']
      exact ⟨_, rfl⟩
  · intro hlt buf count
    have hlt' : offset < Q * n := by exact_mod_cast hlt
    obtain ⟨h1, h2, h3, h4, h5, h6⟩ := hall count hlt'
    refine ⟨h1, h2, h3, h4, h5, h6, ?_⟩
    unfold vault_write
    cases env.intr with
    | true => exact ⟨_, rfl⟩
    | false =>
      obtain ⟨r0, h0⟩ := vault_write_locked_safe env data Q n size (sem - 1) buf count offset
        hwf hQ hlt'
      have h0' : vault_write_locked env (down ⟨data, Q, n, size, sem⟩) buf count offset
          = some r0 := h0
      rw [h0']
      exact ⟨_, rfl⟩

/-- An instance of `index_safety`: offsets 5 and 11 of a device of 3 segments of 4
bytes holding 8 bytes. -/
theorem index_safety_witness :
    dev_small_written.wf ∧ 0 < dev_small_written.quantum ∧ 0 < dev_small_written.qset ∧
    (dev_small_written.size : Int) ≤ dev_small_written.quantum * dev_small_written.qset ∧
    5 < dev_small_written.size ∧
    ((5 : Nat) : Int) / dev_small_written.quantum < dev_small_written.qset ∧
    ((11 : Nat) : Int) < dev_small_written.quantum * dev_small_written.qset ∧
    ((11 : Nat) : Int) / dev_small_written.quantum < dev_small_written.qset :=
  ⟨by decide, by decide, by decide, by decide, by decide,
    ((index_safety env_granted dev_small_written 5 (by decide) (by decide) (by decide)
      (by decide)).1 (by decide) 8 8).2.2.2.1,
    by decide,
    ((index_safety env_granted dev_small_written 11 (by decide) (by decide) (by decide)
      (by decide)).2 (by decide) [9] 1).2.2.2.1⟩

/-- C20: write frame.  For every well-formed device and every call of `vault_write` at
`offset` that returns a count `written ≥ 0`: every byte stored before the call at a
position outside `[offset, offset + written)` is stored with the same value after it,
and every slot other than the one at index `offset / quantum` holds the segment it held
before, so it keeps its present or absent status.  A call of `vault_read` returns the
device it was given: segment data and size are unchanged. -/
theorem write_frame (env : kenv) (dev : vault_dev) (buf : List Byte) (count offset : Nat)
    (r : call_result) (hwf : dev.wf)
    (hcall : vault_write env dev buf count offset = some r) (hok : 0 ≤ r.retval) :
    (∀ p x, (p < offset ∨ offset + r.retval.toNat ≤ p) →
      dev.byte_at p = some x → r.dev.byte_at p = some x) ∧
    (∀ i : Nat, (i : Int) ≠ (offset : Int) / dev.quantum →
      r.dev.seg_at i = dev.seg_at i ∧ r.dev.present i = dev.present i) ∧
    (∀ (env2 : kenv) (dev2 : vault_dev) (ucap n : Nat) (pos : Int) (r2 : call_result),
      vault_read env2 dev2 ucap n pos = some r2 →
      r2.dev = dev2 ∧ r2.dev.data = dev2.data ∧ r2.dev.size = dev2.size) := by
  have hread : ∀ (env2 : kenv) (dev2 : vault_dev) (ucap n : Nat) (pos : Int)
      (r2 : call_result), vault_read env2 dev2 ucap n pos = some r2 →
      r2.dev = dev2 ∧ r2.dev.data = dev2.data ∧ r2.dev.size = dev2.size := by
    intro env2 dev2 ucap n pos r2 h2
    rw [vault_read_dev env2 dev2 ucap n pos r2 h2]
    exact ⟨rfl, rfl, rfl⟩
  by_cases hkeep : ¬ 0 < dev.quantum ∨ wrap_s32 (dev.quantum * dev.qset) ≤ (offset : Int)
  · have hdev := vault_write_kept env dev buf count offset r hwf hcall hok hkeep
    rw [hdev]
    exact ⟨fun _ _ _ h => h, fun _ _ => ⟨rfl, rfl⟩, hread⟩
  · have hq : 0 < dev.quantum := by
      by_contra h
      exact hkeep (Or.inl h)
    have hin : (offset : Int) < wrap_s32 (dev.quantum * dev.qset) := by
      by_contra h
      exact hkeep (Or.inr (not_lt.mp h))
    obtain ⟨data, quantum, qset, size, sem⟩ := dev
    simp only at hq hin ⊢
    lift quantum to ℕ using hq.le with Q
    have hQ : 0 < Q := by exact_mod_cast hq
    have hQ31 : Q < 2147483648 := by
      have := hwf.2.1
      simp only at this
      omega
    obtain ⟨_, _, arr, slot, seg, harr, hslot, hseg, hlen, hk, hr⟩ :=
      vault_write_stored env data Q qset size sem buf count offset r hQ hQ31 hcall
        (Or.inr ⟨hok, hin⟩)
    have hret : r.retval.toNat = min count (Q - offset % Q) := by
      rw [hr]
      exact Int.toNat_ofNat _
    have hd : r.dev = ⟨some (arr.set (offset / Q)
        (some (seg_store seg (offset % Q) buf (min count (Q - offset % Q))))),
        Q, qset, max size (offset + min count (Q - offset % Q)), sem⟩ := by
      rw [hr]
    refine ⟨?_, ?_, hread⟩
    · intro p x hp hx
      rw [hret] at hp
      rw [hd]
      exact byte_at_frame data arr slot seg buf env Q qset size _ sem sem offset _ p x
        harr hslot hseg hlen hk hp hx
    · intro i hi
      have hne : offset / Q ≠ i := by
        intro h
        apply hi
        rw [← h]
        push_cast
        rfl
      have hseg_at : r.dev.seg_at i
          = (⟨data, (Q : Int), qset, size, sem⟩ : vault_dev).seg_at i := by
        rw [hd, ← write_slots_seg_at env data Q qset size sem arr harr i]
        show (match (arr.set (offset / Q) _)[i]? with
          | some slot => slot
          | none => none) = _
        rw [List.getElem?_set_ne hne]
      refine ⟨hseg_at, ?_⟩
      unfold vault_dev.present
      rw [hseg_at]

/-- An instance of `write_frame`: 3 bytes written at offset 5 leave the byte at
offset 4. -/
theorem write_frame_witness :
    dev_small_written.wf ∧
    vault_write env_granted dev_small_written [9, 9, 9, 9] 4 5
      = some ⟨3, ⟨some [some [170, 170, 1, 2], some [3, 9, 9, 9], none], 4, 3, 8, 1⟩, 8, []⟩ ∧
    (dev_small_written.byte_at 4 = some 3 →
      (⟨some [some [170, 170, 1, 2], some [3, 9, 9, 9], none], 4, 3, 8, 1⟩ : vault_dev).byte_at 4
        = some 3) :=
  ⟨by decide, by decide,
    (write_frame env_granted dev_small_written [9, 9, 9, 9] 4 5
      ⟨3, ⟨some [some [170, 170, 1, 2], some [3, 9, 9, 9], none], 4, 3, 8, 1⟩, 8, []⟩
      (by decide) (by decide) (by decide)).1 4 3 (Or.inl (by decide))⟩

end Vault
